import Mathlib

/-!
Graph editor (src/graph.js): link routing, view transform, input state machine

Shallow embedding of `src/graph.js`.

Conventions of the embedding

* JavaScript numbers are rationals (`ℚ`); `NaN` and the infinities are
  outside the embedding.  Where the source could leave the finite numbers (a
  division by zero, the logarithm of a negative number, an overflow) the
  embedded function returns `none`.
* Every value assigned to `scale` is rounded to binary64 (`roundDouble`), so
  that underflow and overflow of the scale are those of the source; the
  quotient `Math.log(x) / Math.log(2)`, which the host only approximates, is
  the field `logQuotient` of the configuration, and `binary64LogQuotient`
  is the quotient of a binary64 host.  The other numbers (positions, pointer
  coordinates, path legs) are exact.
* Cell coordinates produced by `Math.round`, point keys and time stamps are
  integers (`ℤ`).
* The closure variables of `init` are the fields of `State`.
* Object identity of points (`start === end`) is kept by an allocation
  number `id` stored in each point record.
-/

namespace Graph

/-! ## Link routing (lines 7-26) -/

/-- One command of an SVG path after the initial `M`: `L` is an absolute
line-to, `h`, `v` and `l` are relative moves. -/
inductive Cmd where
  | L (x y : ℚ)
  | h (d : ℚ)
  | v (d : ℚ)
  | l (dx dy : ℚ)
  deriving DecidableEq, Repr

/-- The value of the template literals of `getLink`: `M${x},${y}` followed by
the listed commands. -/
structure Path where
  x : ℚ
  y : ℚ
  cmds : List Cmd
  deriving DecidableEq, Repr

/-- Text of one command, the numbers being printed by `fmt` (the number to
string conversion of the template literal). -/
def Cmd.render (fmt : ℚ → String) : Cmd → String
  | .L x y => "L" ++ fmt x ++ "," ++ fmt y
  | .h d => "h" ++ fmt d
  | .v d => "v" ++ fmt d
  | .l dx dy => "l" ++ fmt dx ++ "," ++ fmt dy

/-- The path string that the template literal evaluates to. -/
def Path.render (fmt : ℚ → String) (p : Path) : String :=
  "M" ++ fmt p.x ++ "," ++ fmt p.y ++ String.join (p.cmds.map (Cmd.render fmt))

/-- Position reached from `(cx, cy)` by one command. -/
def Cmd.move (c : Cmd) (cx cy : ℚ) : ℚ × ℚ :=
  match c with
  | .L x y => (x, y)
  | .h d => (cx + d, cy)
  | .v d => (cx, cy + d)
  | .l dx dy => (cx + dx, cy + dy)

/-- Vertices visited by a list of commands started at `(cx, cy)`, the start
included. -/
def walk (cx cy : ℚ) : List Cmd → List (ℚ × ℚ)
  | [] => [(cx, cy)]
  | c :: cs => (cx, cy) :: walk (c.move cx cy).1 (c.move cx cy).2 cs

/-- Vertices of the polyline drawn by a path. -/
def Path.points (p : Path) : List (ℚ × ℚ) := walk p.x p.y p.cmds

/-- First vertex of a path. -/
def Path.start (p : Path) : ℚ × ℚ := (p.x, p.y)

/-- Position after all commands of the path have been added up. -/
def Path.endPoint (p : Path) : ℚ × ℚ :=
  p.cmds.foldl (fun pos c => c.move pos.1 pos.2) (p.x, p.y)

/-- Two paths draw the same polyline, possibly traversed in opposite
directions. -/
def Path.sameShape (p q : Path) : Prop :=
  p.points = q.points ∨ p.points = q.points.reverse

/-- Source `invertParams` (lines 7-9). -/
def invertParams {α : Type} (fn : ℚ → ℚ → ℚ → ℚ → α) (x1 y1 x2 y2 : ℚ) : α :=
  if x1 > x2 then fn x1 y1 x2 y2 else fn x2 y2 x1 y1

/-- The arrow function wrapped by `invertParams` in `getLink` (lines 11-26). -/
def getLinkFn (x1 y1 x2 y2 : ℚ) : Path :=
  let w := |x1 - x2|
  let h := |y1 - y2|
  if x1 = x2 ∨ y1 = y2 ∨ w = h then ⟨x1, y1, [.L x2 y2]⟩
  else
    let e := -(min w h)
    let t := (max w h + e) / (-2)
    if y1 > y2 then
      if h > w then ⟨x1, y1, [.v t, .l e e, .v t]⟩
      else ⟨x1, y1, [.h t, .l e e, .h t]⟩
    else
      if h > w then ⟨x1, y1, [.v (-t), .l e (-e), .v (-t)]⟩
      else ⟨x1, y1, [.h t, .l e (-e), .h t]⟩

/-- Source `getLink` (line 11). -/
def getLink : ℚ → ℚ → ℚ → ℚ → Path := invertParams getLinkFn

/-! ## Numeric helpers (lines 28-34) -/

/-- Nearest integer, a tie going to the even one. -/
def roundHalfEven (x : ℚ) : ℤ :=
  let f : ℤ := ⌊x⌋
  let r : ℚ := x - f
  if r < 1 / 2 then f
  else if 1 / 2 < r then f + 1
  else if f % 2 = 0 then f
  else f + 1

/-- Rounding of a real result to binary64 (IEEE 754, round to nearest, ties
to even): a significand of 53 bits above the exponent `-1074` of the
subnormal numbers; `none` when the result overflows to an infinity.  The sign
of zero is not kept. -/
def roundDouble (x : ℚ) : Option ℚ :=
  if x = 0 then some 0
  else
    let a : ℚ := |x|
    let e : ℤ := max (Int.log 2 a - 52) (-1074)
    let v : ℚ := (roundHalfEven (a / (2 : ℚ) ^ e) : ℚ) * (2 : ℚ) ^ e
    if (2 : ℚ) ^ (1024 : ℤ) ≤ v then none
    else some (if x < 0 then -v else v)

/-- The binary64 number written `1.2` in the source (line 207). -/
def double12 : ℚ := 5404319552844595 / 4503599627370496

/-- The binary64 number written `0.8` in the source (line 217). -/
def double08 : ℚ := 3602879701896397 / 4503599627370496

/-- A quotient `Math.log(x) / Math.log(2)` that has the floor and the ceiling
of the exact logarithm: it is exact at the powers of two and linear between
two of them. -/
def idealLogQuotient (x : ℚ) : ℚ :=
  (Int.log 2 x : ℚ) + (x / (2 : ℚ) ^ Int.log 2 x - 1)

/-- The exponents `k` from 1 to 1074 at which binary64 arithmetic does not
give `-k` for `Math.log(2 ** -k) / Math.log(2)`: the logarithms are rounded
to nearest, `Math.log(2)` is `0.6931471805599453`, and the rounded quotient
is one unit in the last place of `k` below `-k`.  At `2 ** k`, a binary64
number up to `k = 1023`, the quotient is the opposite number; the first one
is `Math.log(2 ** 29) / Math.log(2) = 29.000000000000004`. -/
def inexactExponents : List ℕ :=
  [29, 31, 39, 47, 51, 55, 58, 59, 62, 78, 93, 94, 95, 101, 102, 109,
   110, 116, 117, 118, 124, 125, 141, 156, 171, 179, 186, 187, 188, 189, 190, 201,
   202, 203, 204, 205, 217, 218, 219, 220, 221, 232, 233, 234, 235, 236, 247, 248,
   249, 250, 251, 282, 297, 312, 327, 342, 343, 357, 358, 372, 373, 374, 375, 376,
   377, 378, 379, 380, 381, 402, 403, 404, 405, 406, 407, 408, 409, 410, 411, 433,
   434, 435, 436, 437, 438, 439, 440, 441, 442, 463, 464, 465, 466, 467, 468, 469,
   470, 471, 472, 493, 494, 495, 496, 497, 498, 499, 500, 501, 502, 503, 533, 563,
   564, 594, 624, 625, 654, 655, 684, 685, 686, 714, 715, 716, 744, 746, 748, 750,
   752, 754, 756, 758, 760, 762, 775, 777, 779, 781, 783, 785, 787, 789, 791, 804,
   806, 808, 810, 812, 814, 816, 818, 820, 822, 835, 837, 839, 841, 843, 845, 847,
   849, 851, 853, 866, 868, 870, 872, 874, 876, 878, 880, 882, 884, 895, 897, 899,
   901, 903, 905, 907, 909, 911, 913, 926, 928, 930, 932, 934, 936, 938, 940, 942,
   944, 955, 957, 959, 961, 963, 965, 967, 969, 971, 973, 975, 986, 988, 990, 992,
   994, 996, 998, 1000, 1002, 1004, 1006, 1015, 1017, 1019, 1021, 1023, 1066]

/-- The quotient `Math.log(x) / Math.log(2)` of a binary64 host.  At a power
of two `2 ** k` it is `k`, or one unit in the last place of `k` farther from
zero when `k` or `-k` is one of `inexactExponents`; between two powers of two
it is a number with the floor and the ceiling of the exact logarithm. -/
def binary64LogQuotient (x : ℚ) : ℚ :=
  let k : ℤ := Int.log 2 x
  if x = (2 : ℚ) ^ k then
    if k.natAbs ∈ inexactExponents then
      (k : ℚ) + (Int.sign k : ℚ) * (2 : ℚ) ^ (Int.log 2 (k.natAbs : ℚ) - 52)
    else k
  else idealLogQuotient x

/-- Source `prevPowerOf2` (line 29):
`Math.pow(2, Math.floor(Math.log(x) / Math.log(2)))`, where `q x` is the
quotient computed by the host for a positive `x` and the power of two is
rounded to binary64.  `Math.log(0)` is `-Infinity` and the power is `0`; the
logarithm of a negative number is `NaN` (`none`). -/
def prevPowerOf2 (q : ℚ → ℚ) (x : ℚ) : Option ℚ :=
  if 0 < x then roundDouble ((2 : ℚ) ^ ⌊q x⌋)
  else if x = 0 then some 0
  else none

/-- Source `nextPowerOf2` (line 28):
`Math.pow(2, Math.ceil(Math.log(x) / Math.log(2)))`, with the quotient `q x`
of the host; `0` at `0`, `NaN` (`none`) below. -/
def nextPowerOf2 (q : ℚ → ℚ) (x : ℚ) : Option ℚ :=
  if 0 < x then roundDouble ((2 : ℚ) ^ ⌈q x⌉)
  else if x = 0 then some 0
  else none

/-- The JavaScript `~~n`: truncate toward zero, then wrap to a signed 32 bit
integer. -/
def toInt32 (n : ℚ) : ℤ :=
  let t : ℤ := if 0 ≤ n then ⌊n⌋ else ⌈n⌉
  let m : ℤ := t % 4294967296
  if m ≥ 2147483648 then m - 4294967296 else m

/-- Source `isNear` (lines 31-34). -/
def isNear (n : ℚ) : Bool :=
  let decimals : ℚ := n - (toInt32 n : ℚ)
  decide (decimals < 3 / 10) || decide (decimals > 7 / 10)

/-- JavaScript `Math.round`: the nearest integer, halves rounded up. -/
def mathRound (x : ℚ) : ℤ := ⌊x + 1 / 2⌋

/-- JavaScript `Math.sign` on finite numbers. -/
def mathSign (x : ℚ) : ℚ := if 0 < x then 1 else if x < 0 then -1 else 0

/-- Distance from a number to its nearest integer. -/
def distToInt (n : ℚ) : ℚ := |n - (round n : ℚ)|

/-! ## Data model (lines 36-109) -/

/-- The key bindings `KEYS` (lines 36-43, 53). -/
structure Keys where
  grab : String
  zoomIn : String
  zoomInPrecise : String
  zoomOut : String
  zoomOutPrecise : String
  unselect : String
  deriving DecidableEq, Repr

/-- Source `defaultKeys` (lines 36-43). -/
def defaultKeys : Keys :=
  { grab := " ", zoomIn := "=", zoomInPrecise := "+", zoomOut := "-",
    zoomOutPrecise := "_", unselect := "Escape" }

/-- What `init` works with: `KEYS` (line 53), the grid size
`S = params.size || 21` (line 54), and the value `logQuotient x` that the
host computes for `Math.log(x) / Math.log(2)` at a positive `x` (lines
28-29; `Math.log` is only approximated by a host). -/
structure Config where
  KEYS : Keys
  S : ℤ
  logQuotient : ℚ → ℚ

/-- Configuration with every parameter left out, on a binary64 host. -/
def defaultConfig : Config :=
  { KEYS := defaultKeys, S := 21, logQuotient := binary64LogQuotient }

/-- A point record `{ elem, x, y, key, links: [] }` (line 181).  `id` is the
allocation number standing for the identity of the object; `links` is the
array created empty at line 181, which the source never writes to. -/
structure Point where
  id : ℕ
  x : ℤ
  y : ℤ
  key : ℤ
  links : List ℕ
  deriving DecidableEq, Repr

/-- A link record `{ start, end, elem }` (lines 155-165); `d` is the path
attribute given to `elem`, `id` the allocation number of the object. -/
structure Link where
  id : ℕ
  start : Point
  end_ : Point
  d : Path
  deriving DecidableEq, Repr

/-- Values taken by the variable `hoverPoint`: `undefined`, `false` (the
pointer is not near a cell, line 288) or a point of the graph. -/
inductive Hover where
  | undefined
  | notNear
  | point (p : Point)
  deriving DecidableEq, Repr

/-- Truthiness of `hoverPoint`. -/
def Hover.toPoint : Hover → Option Point
  | .point p => some p
  | _ => none

/-- Result of `svg.getBoundingClientRect()`. -/
structure Rect where
  x : ℚ
  y : ℚ
  width : ℚ
  height : ℚ
  deriving DecidableEq, Repr

/-- A call of `dispatch` (lines 45-49, 108): action type and payload. -/
inductive Action where
  | ADD_POINT (point : Point)
  | ADD_LINK (start end_ : Point)
  | REMOVE_LINK (link : Link)
  deriving DecidableEq, Repr

/-- The closure variables of `init` (lines 84-109, 302), followed by what the
frame writes to its collaborators: the `transform` attribute of the group
(`none` when an entry is not finite), the classes of the svg, the preview
path and hover marker attributes, the calls of `dispatch` in order, the
number of frame callbacks queued in the host, and the next allocation
number. -/
structure State where
  graph : List (ℤ × Point)
  inputsUp : List String
  inputsDown : List (String × ℤ)
  links : List Link
  scale : ℚ
  prevScale : ℚ
  mouseX : ℚ
  mouseY : ℚ
  mouseRelX : ℚ
  mouseRelY : ℚ
  posX : ℚ
  posY : ℚ
  hoverX : ℚ
  hoverY : ℚ
  nearX : ℤ
  nearY : ℤ
  hoverPoint : Hover
  selectedPoint : Option Point
  drag : Option (ℚ × ℚ)
  bounding : Rect
  now : ℤ
  events : List String
  updateRequested : Bool
  transform : Option (ℚ × ℚ × ℚ)
  grabClass : Bool
  grabbingClass : Bool
  previewShown : Bool
  previewD : Option Path
  markerShown : Bool
  markerCx : ℚ
  markerCy : ℚ
  dispatched : List Action
  queued : ℕ
  nextId : ℕ
  deriving DecidableEq, Repr

/-- State at the end of `init` (lines 84-109, 302, 367): `clock` is the value
of `Date.now()` at line 106 and `rect` the bounding box read at line 367. -/
def initState (c : Config) (rect : Rect) (clock : ℤ) : State :=
  { graph := [], inputsUp := [], inputsDown := [], links := [],
    scale := 1, prevScale := 1, mouseX := -1, mouseY := -1,
    mouseRelX := (c.S : ℚ) / 2 - 1 / 2, mouseRelY := (c.S : ℚ) / 2 - 1 / 2,
    posX := 0, posY := 0, hoverX := -1, hoverY := -1, nearX := -1, nearY := -1,
    hoverPoint := .undefined, selectedPoint := none, drag := none,
    bounding := rect, now := clock, events := ["init"], updateRequested := true,
    transform := none, grabClass := false, grabbingClass := false,
    previewShown := true, previewD := none, markerShown := false,
    markerCx := (⌊(c.S : ℚ) / 2⌋ : ℤ), markerCy := (⌊(c.S : ℚ) / 2⌋ : ℤ),
    dispatched := [], queued := 1, nextId := 0 }

/-! ## Input tracking (lines 110-117) -/

/-- `Set.prototype.add` on an insertion ordered set of names. -/
def setAdd (xs : List String) (x : String) : List String :=
  if x ∈ xs then xs else xs ++ [x]

/-- `Map.prototype.get`. -/
def mapGet (m : List (String × ℤ)) (name : String) : Option ℤ :=
  (m.find? (fun e => e.1 = name)).map (fun e => e.2)

/-- `Map.prototype.set`: an existing entry keeps its place. -/
def mapSet (m : List (String × ℤ)) (name : String) (t : ℤ) : List (String × ℤ) :=
  if (mapGet m name).isSome then m.map (fun e => if e.1 = name then (name, t) else e)
  else m ++ [(name, t)]

/-- Source `handle` (lines 110-112): consume a pending event name. -/
def handle (s : State) (eventName : String) : Bool × State :=
  if eventName ∈ s.events then
    (true, { s with events := s.events.filter (fun e => e ≠ eventName) })
  else (false, s)

/-- Source `isUp` (line 114). -/
def isUp (s : State) (name : String) : Bool := decide (name ∈ s.inputsUp)

/-- Source `isDown` (line 115): the press is newer than the last frame. -/
def isDown (s : State) (name : String) : Bool :=
  match mapGet s.inputsDown name with
  | some t => decide (t > s.now)
  | none => false

/-- Source `isHold` (line 116), as a truth value: a recorded, non zero time
stamp. -/
def isHold (s : State) (name : String) : Bool :=
  match mapGet s.inputsDown name with
  | some t => decide (t ≠ 0)
  | none => false

/-- Source `getHoldedDuration` (line 117). -/
def getHoldedDuration (s : State) (name : String) : ℤ :=
  match mapGet s.inputsDown name with
  | some t => max 0 (s.now - t)
  | none => 0

/-! ## View transform (lines 119-151) -/

/-- Source `applyPanAndScale` (lines 119-132); `none` when `scale / prevScale`
divides by zero. -/
def applyPanAndScale (c : Config) (s : State) : Option State :=
  if s.prevScale = 0 then none
  else
    let scaleD := s.scale / s.prevScale
    let mod : Option (ℚ × ℚ) :=
      match s.drag with
      | some d =>
        if s.bounding.width = 0 ∨ s.bounding.height = 0 then none
        else some ((s.mouseX - d.1) / s.bounding.width * c.S,
                   (s.mouseY - d.2) / s.bounding.height * c.S)
      | none => some (0, 0)
    let transform := mod.map fun m =>
      (s.scale, scaleD * ((m.1 + s.posX) - s.mouseRelX) + s.mouseRelX,
        scaleD * ((m.2 + s.posY) - s.mouseRelY) + s.mouseRelY)
    some { s with
      transform := transform
      prevScale := s.scale
      posX := scaleD * (s.posX - s.mouseRelX) + s.mouseRelX
      posY := scaleD * (s.posY - s.mouseRelY) + s.mouseRelY }

/-- Source `drawSelection` (lines 134-151). -/
def drawSelection (s : State) : State :=
  let s1 : State :=
    match s.selectedPoint with
    | some sp =>
      { s with
        previewShown := true
        previewD := some (match s.hoverPoint with
          | .point _ => getLink sp.x sp.y s.nearX s.nearY
          | _ => getLink sp.x sp.y s.hoverX s.hoverY) }
    | none => { s with previewShown := false }
  match s.hoverPoint with
  | .point _ => { s1 with markerShown := true, markerCx := s.nearX, markerCy := s.nearY }
  | _ => { s1 with markerShown := false }

/-! ## Graph model (lines 153-184) -/

/-- Property read `graph[key]`. -/
def graphGet (g : List (ℤ × Point)) (key : ℤ) : Option Point :=
  (g.find? (fun e => e.1 = key)).map (fun e => e.2)

/-- Property write `graph[key] = point`: an existing entry is replaced. -/
def graphSet (g : List (ℤ × Point)) (key : ℤ) (point : Point) : List (ℤ × Point) :=
  if (graphGet g key).isSome then g.map (fun e => if e.1 = key then (key, point) else e)
  else g ++ [(key, point)]

/-- Source `addLink` (lines 153-170). -/
def addLink (s : State) (start end_ : Point) : State :=
  if start = end_ then s
  else
    let link : Link :=
      { id := s.nextId, start := start, end_ := end_,
        d := getLink start.x start.y end_.x end_.y }
    { s with
      links := s.links ++ [link]
      dispatched := s.dispatched ++ [.ADD_LINK start end_]
      nextId := s.nextId + 1 }

/-- Source `deleteLink` (lines 172-176). -/
def deleteLink (s : State) (link : Link) : State :=
  { s with
    links := s.links.filter (fun l => l ≠ link)
    dispatched := s.dispatched ++ [.REMOVE_LINK link] }

/-- Source `addPoint` (lines 178-184). -/
def addPoint (c : Config) (s : State) (x y : ℤ) : State :=
  let key := x * c.S + y
  let point : Point := { id := s.nextId, x := x, y := y, key := key, links := [] }
  { s with
    graph := graphSet s.graph key point
    dispatched := s.dispatched ++ [.ADD_POINT point]
    nextId := s.nextId + 1 }

/-! ## Zoom actions (lines 201-219, 309) -/

/-- The ways the scale is changed: the four zoom keys and the wheel with
its `deltaY`. -/
inductive ZoomAction where
  | zoomIn
  | zoomInPrecise
  | zoomOut
  | zoomOutPrecise
  | wheel (deltaY : ℚ)
  deriving DecidableEq, Repr

/-- Line 309: `scale + Math.sign(e.deltaY) * (scale / 20)`, the quotient and
the sum rounded to binary64 (the product by a sign is exact). -/
def wheelScale (scale deltaY : ℚ) : Option ℚ :=
  (roundDouble (scale / 20)).bind fun t => roundDouble (scale + mathSign deltaY * t)

/-- New value assigned to `scale` by a zoom action (lines 202, 207, 212, 217
and 309), every operation rounded to binary64; `q` is the quotient of
logarithms of the host; `none` when the value is not a finite number. -/
def zoomScale (q : ℚ → ℚ) (a : ZoomAction) (scale : ℚ) : Option ℚ :=
  match a with
  | .zoomIn => (roundDouble (scale * 2)).bind (prevPowerOf2 q)
  | .zoomInPrecise => roundDouble (scale * double12)
  | .zoomOut => (roundDouble (scale / 2)).bind (nextPowerOf2 q)
  | .zoomOutPrecise => roundDouble (scale * double08)
  | .wheel deltaY => wheelScale scale deltaY

/-- Scale after a sequence of zoom actions. -/
def zoomRun (q : ℚ → ℚ) : List ZoomAction → ℚ → Option ℚ
  | [], scale => some scale
  | a :: rest, scale => (zoomScale q a scale).bind (zoomRun q rest)

/-! ## The frame `executeUpdate` (lines 186-300), block by block -/

/-- Lines 187-193: on `blur` every held name is marked released. -/
def blurBlock (s : State) : State :=
  let r := handle s "blur"
  if r.1 then
    { r.2 with inputsUp := r.2.inputsDown.foldl (fun up e => setAdd up e.1) r.2.inputsUp }
  else r.2

/-- Lines 195-199: `handle('resize') || handle('init')`; `rect` is the
bounding box read at line 196. -/
def resizeBlock (c : Config) (rect : Rect) (s : State) : Option State :=
  let r1 := handle s "resize"
  let r2 := if r1.1 then r1 else handle r1.2 "init"
  if r2.1 then
    (applyPanAndScale c { r2.2 with bounding := rect }).map drawSelection
  else some r2.2

/-- Lines 201-219: one zoom key block. -/
def zoomBlock (c : Config) (key : String) (a : ZoomAction) (s : State) : Option State :=
  if isDown s key then
    (zoomScale c.logQuotient a s.scale).bind fun sc => applyPanAndScale c { s with scale := sc }
  else some s

/-- Lines 221-227: the `grab` class follows the grab key. -/
def grabBlock (c : Config) (s : State) : State :=
  let s1 := if isDown s c.KEYS.grab then { s with grabClass := true } else s
  if isUp s1 c.KEYS.grab then { s1 with grabClass := false } else s1

/-- Lines 229-232: the unselect key. -/
def unselectBlock (c : Config) (s : State) : State :=
  if isDown s c.KEYS.unselect then drawSelection { s with selectedPoint := none } else s

/-- Lines 234-249: primary click down. -/
def leftclickDownBlock (c : Config) (s : State) : State :=
  if isDown s "leftclick" then
    if isHold s c.KEYS.grab then
      { s with drag := some (s.mouseX, s.mouseY), grabbingClass := true }
    else
      match s.hoverPoint with
      | .point hp =>
        match s.selectedPoint with
        | some sp => { addLink s sp hp with selectedPoint := none }
        | none => { s with selectedPoint := some hp }
      | _ => { s with drag := some (s.mouseX, s.mouseY), grabbingClass := true }
  else s

/-- Lines 251-263: primary click up; `none` when the drag is folded into the
position through a bounding box of width or height zero. -/
def leftclickUpBlock (c : Config) (s : State) : Option State :=
  if isUp s "leftclick" then
    match s.drag with
    | some d =>
      if s.bounding.width = 0 ∨ s.bounding.height = 0 then none
      else some { s with
        posX := (s.mouseX - d.1) / s.bounding.width * c.S + s.posX
        posY := (s.mouseY - d.2) / s.bounding.height * c.S + s.posY
        drag := none
        grabbingClass := false }
    | none =>
      match s.selectedPoint with
      | some sp =>
        if getHoldedDuration s "leftclick" > 300 then
          let s1 := match s.hoverPoint with
            | .point hp => addLink s sp hp
            | _ => s
          some { s1 with selectedPoint := none }
        else some s
      | none => some s
  else some s

/-- Lines 265-273: secondary click down. -/
def rightclickDownBlock (c : Config) (s : State) : State :=
  if isDown s "rightclick" then
    match s.selectedPoint with
    | some _ => { s with selectedPoint := none }
    | none =>
      if s.hoverPoint = .undefined then addPoint c s s.nearX s.nearY else s
  else s

/-- Lines 275-291: pointer move; `none` when a division by zero occurs. -/
def mousemoveBlock (c : Config) (s : State) : Option State :=
  let r := handle s "mousemove"
  if r.1 then
    match r.2.drag with
    | some _ => applyPanAndScale c r.2
    | none =>
      if r.2.bounding.width = 0 ∨ r.2.bounding.height = 0 ∨ r.2.scale = 0 then none
      else
        let mouseRelX := (r.2.mouseX - r.2.bounding.x) / r.2.bounding.width * c.S - 1 / 2
        let mouseRelY := (r.2.mouseY - r.2.bounding.y) / r.2.bounding.height * c.S - 1 / 2
        let hoverX := (mouseRelX - r.2.posX) / r.2.scale
        let hoverY := (mouseRelY - r.2.posY) / r.2.scale
        let nearX := mathRound hoverX
        let nearY := mathRound hoverY
        let hoverPoint : Hover :=
          if isNear hoverX && isNear hoverY then
            match graphGet r.2.graph (nearX * c.S + nearY) with
            | some p => .point p
            | none => .undefined
          else .notNear
        some (drawSelection { r.2 with
          mouseRelX := mouseRelX, mouseRelY := mouseRelY
          hoverX := hoverX, hoverY := hoverY
          nearX := nearX, nearY := nearY
          hoverPoint := hoverPoint })
  else some r.2

/-- Lines 293-296: every released name leaves both collections. -/
def purgeBlock (s : State) : State :=
  { s with
    inputsDown := s.inputsDown.filter (fun e => decide (e.1 ∉ s.inputsUp))
    inputsUp := [] }

/-- Lines 298-299: `now` is refreshed from the clock and a new frame is
requested while a name is held. -/
def rearmBlock (clock : ℤ) (s : State) : State :=
  if s.inputsDown.isEmpty then { s with now := clock, updateRequested := false }
  else { s with now := clock, updateRequested := true, queued := s.queued + 1 }

/-- Source `executeUpdate` (lines 186-300).  `rect` is what
`getBoundingClientRect` returns during the frame and `clock` the value of
`Date.now()` at line 298. -/
def executeUpdate (c : Config) (rect : Rect) (clock : ℤ) (s : State) : Option State := do
  let s1 := blurBlock s
  let s2 ← resizeBlock c rect s1
  let s3 ← zoomBlock c c.KEYS.zoomIn .zoomIn s2
  let s4 ← zoomBlock c c.KEYS.zoomInPrecise .zoomInPrecise s3
  let s5 ← zoomBlock c c.KEYS.zoomOut .zoomOut s4
  let s6 ← zoomBlock c c.KEYS.zoomOutPrecise .zoomOutPrecise s5
  let s7 := grabBlock c s6
  let s8 := unselectBlock c s7
  let s9 := leftclickDownBlock c s8
  let s10 ← leftclickUpBlock c s9
  let s11 := rightclickDownBlock c s10
  let s12 ← mousemoveBlock c s11
  let s13 := purgeBlock s12
  some (rearmBlock clock s13)

/-! ## Host events (lines 302-343) -/

/-- Source `update` (lines 303-306). -/
def update (s : State) (eventName : String) : State :=
  let s1 := if s.updateRequested then s
    else { s with updateRequested := true, queued := s.queued + 1 }
  { s1 with events := setAdd s1.events eventName }

/-- Source `svgWheel` (lines 307-311); `none` when the new scale is not a
finite number. -/
def svgWheel (s : State) (deltaY : ℚ) : Option State :=
  (wheelScale s.scale deltaY).map fun sc => update { s with scale := sc } "resize"

/-- A pointer event: `x`, `y`, `clientX`, `clientY` and the result of
`getClickName` (`none` when it is falsy). -/
structure MouseEvent where
  x : ℚ
  y : ℚ
  clientX : ℚ
  clientY : ℚ
  clickName : Option String
  deriving DecidableEq, Repr

/-- The assignments `mouseX = e.x ? e.x : e.clientX` and the same for `y`. -/
def setMouse (s : State) (e : MouseEvent) : State :=
  { s with
    mouseX := if e.x ≠ 0 then e.x else e.clientX
    mouseY := if e.y ≠ 0 then e.y else e.clientY }

/-- Source `windowMousemove` (lines 313-317). -/
def windowMousemove (s : State) (e : MouseEvent) : State :=
  update (setMouse s e) "mousemove"

/-- Source `windowBlur` (line 318). -/
def windowBlur (s : State) : State := update s "blur"

/-- Source `windowResize` (line 319). -/
def windowResize (s : State) : State := update s "resize"

/-- Source `windowKeyup` (line 320). -/
def windowKeyup (s : State) (key : String) : State :=
  { s with inputsUp := setAdd s.inputsUp key }

/-- Source `windowKeydown` (lines 321-325); `clock` is `Date.now()`. -/
def windowKeydown (s : State) (key : String) (clock : ℤ) : State :=
  if (mapGet s.inputsDown key).isSome then s
  else update { s with inputsDown := mapSet s.inputsDown key clock } "keyboard"

/-- Source `svgMouseup` (lines 327-334). -/
def svgMouseup (s : State) (e : MouseEvent) : State :=
  let s1 := setMouse s e
  let s2 := match e.clickName with
    | some name => { s1 with inputsUp := setAdd s1.inputsUp name }
    | none => s1
  update s2 "mousemove"

/-- Source `svgMousedown` (lines 336-343); `clock` is `Date.now()`. -/
def svgMousedown (s : State) (e : MouseEvent) (clock : ℤ) : State :=
  let s1 := setMouse s e
  let s2 := match e.clickName with
    | some name => { s1 with inputsDown := mapSet s1.inputsDown name clock }
    | none => s1
  update s2 "mousemove"

/-! ## The editor as a transition system -/

/-- A host event delivered to one of the listeners registered at lines
356-364. -/
inductive HostEvent where
  | wheel (deltaY : ℚ)
  | mousemove (e : MouseEvent)
  | blur
  | resize
  | keyup (key : String)
  | keydown (key : String)
  | mouseup (e : MouseEvent)
  | mousedown (e : MouseEvent)
  deriving DecidableEq, Repr

/-- The listener run for a host event; `clock` is the value of `Date.now()`
while it runs.  Only the wheel listener can leave the finite numbers. -/
def hostEvent (s : State) (ev : HostEvent) (clock : ℤ) : Option State :=
  match ev with
  | .wheel deltaY => svgWheel s deltaY
  | .mousemove e => some (windowMousemove s e)
  | .blur => some (windowBlur s)
  | .resize => some (windowResize s)
  | .keyup key => some (windowKeyup s key)
  | .keydown key => some (windowKeydown s key clock)
  | .mouseup e => some (svgMouseup s e)
  | .mousedown e => some (svgMousedown s e clock)

/-- The name whose time stamp a host event writes, if any: a key that goes
down while it is not held, or the click name of a button that goes down. -/
def pressedName (s : State) (ev : HostEvent) : Option String :=
  match ev with
  | .keydown key => if (mapGet s.inputsDown key).isSome then none else some key
  | .mousedown e => e.clickName
  | _ => none

/-- The host runs one queued frame callback: the callback leaves the queue
and `executeUpdate` runs.  `none` when no callback is queued. -/
def runFrame (c : Config) (rect : Rect) (clock : ℤ) (s : State) : Option State :=
  if s.queued = 0 then none
  else executeUpdate c rect clock { s with queued := s.queued - 1 }

/-- One step of the editor: a host event or a frame. -/
inductive Step (c : Config) : State → State → Prop where
  | host (s s' : State) (ev : HostEvent) (clock : ℤ)
      (h : hostEvent s ev clock = some s') : Step c s s'
  | frame (s s' : State) (rect : Rect) (clock : ℤ)
      (h : runFrame c rect clock s = some s') : Step c s s'

/-- Any number of steps. -/
inductive Steps (c : Config) : State → State → Prop where
  | refl (s : State) : Steps c s s
  | tail (s s' s'' : State) (h : Steps c s s') (hs : Step c s' s'') : Steps c s s''

/-- States the editor can be in: any number of steps after `init`. -/
def Reachable (c : Config) (s : State) : Prop :=
  ∃ rect clock, Steps c (initState c rect clock) s

/-- States reached when the clock never goes back; the index is the latest
clock reading. -/
inductive MonoReach (c : Config) : ℤ → State → Prop where
  | init (rect : Rect) (clock : ℤ) : MonoReach c clock (initState c rect clock)
  | host (t : ℤ) (s s' : State) (ev : HostEvent) (clock : ℤ) (h : MonoReach c t s)
      (ht : t ≤ clock) (he : hostEvent s ev clock = some s') : MonoReach c clock s'
  | frame (t : ℤ) (s s' : State) (rect : Rect) (clock : ℤ) (h : MonoReach c t s)
      (ht : t ≤ clock) (hf : runFrame c rect clock s = some s') : MonoReach c clock s'

/-! ## Projections and invariants of the state -/

/-- The part of the state that the view blocks of the frame never write:
the input collections, the scheduling variables, the clock reading, and the
graph model with its dispatches and the drag. -/
def State.core (s : State) :=
  (s.inputsUp, s.inputsDown, s.queued, s.updateRequested, s.now,
    s.graph, s.links, s.dispatched, s.drag, s.nextId)

/-- The input collections, the scheduling variables and the clock reading. -/
def State.inputs (s : State) :=
  (s.inputsUp, s.inputsDown, s.queued, s.updateRequested, s.now)

/-- Exactly one frame callback is queued while `updateRequested` is truthy,
none otherwise. -/
def Scheduled (s : State) : Prop := s.queued = if s.updateRequested = true then 1 else 0

/-- A drag is active only while the name `leftclick` is in the down map. -/
def DragHeld (s : State) : Prop :=
  s.drag.isSome = true → (mapGet s.inputsDown "leftclick").isSome = true

/-- The fields that no host listener writes. -/
def State.kept (s : State) := (s.now, s.drag, s.graph, s.links, s.dispatched)

/-- What a run of the editor may add to the model between two states: links
at the end of `links`, and dispatches that are `ADD_LINK`, or `ADD_POINT`
with a point whose key is `x * S + y`. -/
def Grows (c : Config) (s s' : State) : Prop :=
  s.links <+: s'.links ∧
  ∃ extra, s'.dispatched = s.dispatched ++ extra ∧
    ∀ a ∈ extra, (∃ p q, a = Action.ADD_LINK p q) ∨
      (∃ p, a = Action.ADD_POINT p ∧ p.key = p.x * c.S + p.y)

/-- Every created point carries the key `x * S + y`, and every record of the
graph is a created point stored under its own key. -/
def Keyed (c : Config) (s : State) : Prop :=
  (∀ p, Action.ADD_POINT p ∈ s.dispatched → p.key = p.x * c.S + p.y) ∧
  (∀ e ∈ s.graph, e.1 = e.2.key ∧ Action.ADD_POINT e.2 ∈ s.dispatched)

/-- Every recorded time stamp, and `now`, is at most the clock reading `t`. -/
def Stamped (t : ℤ) (s : State) : Prop := s.now ≤ t ∧ ∀ e ∈ s.inputsDown, e.2 ≤ t

/-- Steps with a clock that never goes back and with no host event that
stamps `name`: the first pair is the start, the second the state reached
and the latest clock reading. -/
inductive Quiet (c : Config) (name : String) : ℤ → State → ℤ → State → Prop where
  | refl (t : ℤ) (s : State) : Quiet c name t s t s
  | host (t : ℤ) (s : State) (t' : ℤ) (s' s'' : State) (ev : HostEvent) (clock : ℤ)
      (h : Quiet c name t s t' s') (ht : t' ≤ clock)
      (hp : pressedName s' ev ≠ some name)
      (he : hostEvent s' ev clock = some s'') : Quiet c name t s clock s''
  | frame (t : ℤ) (s : State) (t' : ℤ) (s' s'' : State) (rect : Rect) (clock : ℤ)
      (h : Quiet c name t s t' s') (ht : t' ≤ clock)
      (hf : runFrame c rect clock s' = some s'') : Quiet c name t s clock s''

/-- The scale, the previous scale and the bounding box. -/
def State.view (s : State) := (s.scale, s.prevScale, s.bounding)

/-- The divisions of a frame are defined: both scales are positive and the
bounding box has a width and a height. -/
def ViewOk (s : State) : Prop :=
  0 < s.scale ∧ 0 < s.prevScale ∧ s.bounding.width ≠ 0 ∧ s.bounding.height ≠ 0

/-- The points the editor has created: the payloads of the `ADD_POINT`
dispatches, in order. -/
def createdPoints (s : State) : List Point :=
  s.dispatched.filterMap fun a =>
    match a with
    | .ADD_POINT p => some p
    | _ => none

/-- The graph, the created points, and the variables read by the creation of
a point: `hoverPoint` and the snapped cell. -/
def State.placing (s : State) :=
  (s.graph, createdPoints s, s.hoverPoint, s.nearX, s.nearY)

/-- Every created point has a record with its coordinates under its key, and
while `hoverPoint` is `undefined` a record under the key of the snapped cell
has the coordinates of that cell. -/
def Placed (c : Config) (s : State) : Prop :=
  (∀ p ∈ createdPoints s, ∃ p', graphGet s.graph p.key = some p' ∧ p'.x = p.x ∧ p'.y = p.y) ∧
  (s.hoverPoint = .undefined →
    ∀ p', graphGet s.graph (s.nearX * c.S + s.nearY) = some p' →
      p'.x = s.nearX ∧ p'.y = s.nearY)

/-! ## Construction parameters (lines 52-54, 108) -/

/-- The `params` object given to `init`: `size`, the entries of `keys` by
property name, and the function valued properties by property name (each
function is named by a number). -/
structure Params where
  size : Option ℤ
  keys : List (String × String)
  callbacks : List (String × ℕ)
  deriving DecidableEq, Repr

/-- Property read on the function valued properties of `params`. -/
def Params.callback (p : Params) (name : String) : Option ℕ :=
  (p.callbacks.find? (fun e => e.1 = name)).map (fun e => e.2)

/-- Property read on `params.keys`, falling back on the default binding. -/
def Params.key (p : Params) (name : String) (dflt : String) : String :=
  ((p.keys.find? (fun e => e.1 = name)).map (fun e => e.2)).getD dflt

/-- Lines 53-54: `KEYS = { ...defaultKeys, ...params.keys }` and
`S = params.size || 21`, on a binary64 host. -/
def Params.config (p : Params) : Config :=
  { KEYS :=
      { grab := p.key "grab" defaultKeys.grab
        zoomIn := p.key "zoomIn" defaultKeys.zoomIn
        zoomInPrecise := p.key "zoomInPrecise" defaultKeys.zoomInPrecise
        zoomOut := p.key "zoomOut" defaultKeys.zoomOut
        zoomOutPrecise := p.key "zoomOutPrecise" defaultKeys.zoomOutPrecise
        unselect := p.key "unselect" defaultKeys.unselect }
    S := match p.size with
      | some n => if n = 0 then 21 else n
      | none => 21
    logQuotient := binary64LogQuotient }

/-- Line 108: the function bound to `dispatch`, `params.listenner` when it is
present and the empty arrow function (`none`) otherwise. -/
def Params.dispatchTarget (p : Params) : Option ℕ := p.callback "listenner"

/-- The calls received by the functions of `params`, in order: every call of
`dispatch` reaches the function bound at line 108, if there is one. -/
def invocations (p : Params) (s : State) : List (ℕ × Action) :=
  match p.dispatchTarget with
  | some f => s.dispatched.map (fun a => (f, a))
  | none => []

/-! ## Concrete states used to instantiate the theorems -/

/-- Bounding box of a 210 by 210 pixel svg at the origin. -/
def rect210 : Rect := { x := 0, y := 0, width := 210, height := 210 }

/-- Initial state of the default configuration. -/
def state0 : State := initState defaultConfig rect210 1000

/-- State in which the scale has been doubled and the pan is not zero, before
`applyPanAndScale` runs. -/
def stateZoomed : State :=
  { state0 with scale := 2, prevScale := 1, posX := 3, posY := -4,
                mouseRelX := 5, mouseRelY := 7 }

/-- Point created first, at cell (5, 5) of the default grid. -/
def pointA : Point := { id := 0, x := 5, y := 5, key := 110, links := [] }

/-- Point created second, at cell (7, 5) of the default grid. -/
def pointB : Point := { id := 1, x := 7, y := 5, key := 152, links := [] }

/-- Graph holding `pointA` and `pointB`, nothing selected, pointer on
`pointA`. -/
def stateTwoPoints : State :=
  { state0 with
    graph := [(110, pointA), (152, pointB)], nextId := 2
    dispatched := [.ADD_POINT pointA, .ADD_POINT pointB]
    hoverX := 5, hoverY := 5, nearX := 5, nearY := 5, hoverPoint := .point pointA }

/-- Primary button just pressed on `pointA` while `pointA` is selected. -/
def stateClickSelected : State :=
  { stateTwoPoints with
    selectedPoint := some pointA, inputsDown := [("leftclick", 2000)] }

/-- Primary button just pressed on `pointA` while `pointB` is selected. -/
def stateClickOther : State :=
  { stateTwoPoints with
    selectedPoint := some pointB, inputsDown := [("leftclick", 2000)] }

/-- Primary button released after 500 time units, `pointA` selected, the
pointer away from every cell. -/
def stateReleaseAway : State :=
  { stateTwoPoints with
    selectedPoint := some pointA, hoverPoint := .notNear
    hoverX := 11 / 2, hoverY := 11 / 2, nearX := 6, nearY := 6
    inputsDown := [("leftclick", 500)], inputsUp := ["leftclick"] }

/-- Primary button released after 500 time units on `pointA` while `pointB`
is selected. -/
def stateReleaseOther : State :=
  { stateTwoPoints with
    selectedPoint := some pointB
    inputsDown := [("leftclick", 500)], inputsUp := ["leftclick"] }

/-- Secondary button just pressed, nothing selected, the pointer away from
every cell. -/
def stateRightAway : State :=
  { state0 with
    hoverPoint := .notNear, hoverX := 11 / 2, hoverY := 11 / 2, nearX := 6, nearY := 6
    inputsDown := [("rightclick", 2000)] }

/-- Secondary button just pressed, nothing selected, the pointer snapped to
the empty cell (5, 5). -/
def stateRightEmpty : State :=
  { state0 with
    hoverPoint := .undefined, hoverX := 5, hoverY := 5, nearX := 5, nearY := 5
    inputsDown := [("rightclick", 2000)] }

/-- Pointer over cell (5, 5) of the 210 pixel svg, no button involved. -/
def evMove : MouseEvent :=
  { x := 55, y := 55, clientX := 55, clientY := 55, clickName := none }

/-- Primary button event over cell (5, 5). -/
def evLeft : MouseEvent := { evMove with clickName := some "leftclick" }

/-- Secondary button event over cell (5, 5). -/
def evRight : MouseEvent := { evMove with clickName := some "rightclick" }

/-- Secondary button pressed right after `init`, before any pointer move was
processed. -/
def stateEarlyPress : State := svgMousedown state0 evRight 1001

/-- State after the frame that follows `stateEarlyPress`. -/
def stateEarlyPoint : State :=
  (runFrame defaultConfig rect210 1002 stateEarlyPress).getD stateEarlyPress

/-- The pointer moved over the empty cell (5, 5). -/
def stateMoved : State := windowMousemove state0 evMove

/-- The move was processed: the snapped cell is (5, 5), nothing hovered. -/
def stateHovering : State := (runFrame defaultConfig rect210 1002 stateMoved).getD stateMoved

/-- Primary button pressed over the empty cell. -/
def stateLeftPressed : State := svgMousedown stateHovering evLeft 1003

/-- The press was processed: a drag is active. -/
def stateDragging : State :=
  (runFrame defaultConfig rect210 1004 stateLeftPressed).getD stateLeftPressed

/-- Secondary button pressed during the drag. -/
def stateRightPressed : State := svgMousedown stateDragging evRight 1005

/-- The press was processed: a point exists at cell (5, 5). -/
def stateCreated : State :=
  (runFrame defaultConfig rect210 1006 stateRightPressed).getD stateRightPressed

/-- Secondary button released. -/
def stateRightReleased : State := svgMouseup stateCreated evRight

/-- The release was processed. -/
def stateRightPurged : State :=
  (runFrame defaultConfig rect210 1008 stateRightReleased).getD stateRightReleased

/-- Secondary button pressed a second time, still during the drag. -/
def stateSecondClick : State := svgMousedown stateRightPurged evRight 1009

/-- The second press was processed. -/
def stateOverwritten : State :=
  (runFrame defaultConfig rect210 1010 stateSecondClick).getD stateSecondClick

/-- Focus is lost during the drag of `stateDragging`. -/
def stateBlurPending : State := windowBlur stateDragging

/-- The frame that follows the loss of focus. -/
def stateAfterBlur : State :=
  (runFrame defaultConfig rect210 1006 stateBlurPending).getD stateBlurPending

/-- Keys `a` and `b` pressed, then `a` released, after `init`. -/
def stateKeyReleased : State :=
  windowKeyup (windowKeydown (windowKeydown state0 "a" 1001) "b" 1002) "a"

/-- The frame that follows `stateKeyReleased`. -/
def stateKeyPurged : State :=
  (executeUpdate defaultConfig rect210 1004 stateKeyReleased).getD stateKeyReleased

/-- The frame that follows `stateClickOther`. -/
def stateLinked : State :=
  (runFrame defaultConfig rect210 1001 stateClickOther).getD stateClickOther

/-- Primary button event 100 pixels to the right of `evLeft`. -/
def evLeftAway : MouseEvent :=
  { x := 155, y := 55, clientX := 155, clientY := 55, clickName := some "leftclick" }

/-- Primary button released 100 pixels to the right of where the drag of
`stateDragging` started. -/
def statePanRelease : State := svgMouseup stateDragging evLeftAway

/-- The release was processed: the view is panned by 10 cells. -/
def statePanned : State :=
  (runFrame defaultConfig rect210 1006 statePanRelease).getD statePanRelease

/-- The pointer moved back to the pixel (55, 55). -/
def statePanMoved : State := windowMousemove statePanned evMove

/-- The move was processed: the snapped cell is (-5, 5), nothing hovered. -/
def statePanHover : State :=
  (runFrame defaultConfig rect210 1008 statePanMoved).getD statePanMoved

/-- Secondary button pressed over the empty cell (-5, 5). -/
def statePanPress : State := svgMousedown statePanHover evRight 1009

/-- The press was processed: a point exists at cell (-5, 5). -/
def statePanPoint : State :=
  (runFrame defaultConfig rect210 1010 statePanPress).getD statePanPress

/-- Secondary button event over cell (7, 5). -/
def evRightAway : MouseEvent :=
  { x := 75, y := 55, clientX := 75, clientY := 55, clickName := some "rightclick" }

/-- Secondary button pressed over the empty cell (5, 5), nothing dragged. -/
def stateFirstPress : State := svgMousedown stateHovering evRight 1003

/-- The press was processed: a point exists at cell (5, 5). -/
def stateFirstPoint : State :=
  (runFrame defaultConfig rect210 1004 stateFirstPress).getD stateFirstPress

/-- Secondary button released over cell (7, 5). -/
def stateFirstRelease : State := svgMouseup stateFirstPoint evRightAway

/-- The release was processed: the snapped cell is (7, 5), nothing hovered. -/
def stateAway : State :=
  (runFrame defaultConfig rect210 1006 stateFirstRelease).getD stateFirstRelease

/-- Secondary button pressed over the empty cell (7, 5). -/
def stateSecondPress : State := svgMousedown stateAway evRightAway 1007

/-- The second press was processed: points exist at cells (5, 5) and
(7, 5). -/
def stateTwoCreated : State :=
  (runFrame defaultConfig rect210 1008 stateSecondPress).getD stateSecondPress

/-- Parameters that supply a callback, numbered 7, under the name
`listener`. -/
def paramsListener : Params := { size := none, keys := [], callbacks := [("listener", 7)] }

/-- Parameters that supply the same callback under the name `listenner`. -/
def paramsListenner : Params := { size := none, keys := [], callbacks := [("listenner", 7)] }

/-! ## Routing theorems -/

theorem getLink_swap (x1 y1 x2 y2 : ℚ) (hx : x1 ≠ x2) :
    getLink x1 y1 x2 y2 = getLink x2 y2 x1 y1 := by
  unfold getLink invertParams
  rcases lt_or_gt_of_ne hx with h | h
  · rw [if_neg (not_lt.mpr h.le), if_pos h]
  · rw [if_pos h, if_neg (not_lt.mpr h.le)]

theorem getLink_same_x (x y1 y2 : ℚ) :
    getLink x y1 x y2 = ⟨x, y2, [.L x y1]⟩ := by
  simp [getLink, invertParams, getLinkFn]

theorem getLinkFn_start (x1 y1 x2 y2 : ℚ) : (getLinkFn x1 y1 x2 y2).start = (x1, y1) := by
  unfold getLinkFn Path.start
  simp only
  split_ifs <;> rfl

theorem getLinkFn_endPoint (x1 y1 x2 y2 : ℚ) (hx : x2 ≤ x1) :
    (getLinkFn x1 y1 x2 y2).endPoint = (x2, y2) := by
  unfold getLinkFn Path.endPoint
  simp only
  have hw : |x1 - x2| = x1 - x2 := abs_of_nonneg (by linarith)
  split_ifs with h0 h1 h2 h3
  · simp [Cmd.move]
  · have hh : |y1 - y2| = y1 - y2 := abs_of_pos (by linarith)
    rw [hw, hh] at h2 ⊢
    rw [min_eq_left h2.le, max_eq_right h2.le]
    simp only [List.foldl, Cmd.move, Prod.mk.injEq]
    constructor <;> ring
  · have hh : |y1 - y2| = y1 - y2 := abs_of_pos (by linarith)
    rw [hw, hh] at h2 ⊢
    rw [min_eq_right (not_lt.mp h2), max_eq_left (not_lt.mp h2)]
    simp only [List.foldl, Cmd.move, Prod.mk.injEq]
    constructor <;> ring
  · have hh : |y1 - y2| = y2 - y1 := by
      rw [abs_sub_comm]; exact abs_of_nonneg (by linarith)
    rw [hw, hh] at h3 ⊢
    rw [min_eq_left h3.le, max_eq_right h3.le]
    simp only [List.foldl, Cmd.move, Prod.mk.injEq]
    constructor <;> ring
  · have hh : |y1 - y2| = y2 - y1 := by
      rw [abs_sub_comm]; exact abs_of_nonneg (by linarith)
    rw [hw, hh] at h3 ⊢
    rw [min_eq_right (not_lt.mp h3), max_eq_left (not_lt.mp h3)]
    simp only [List.foldl, Cmd.move, Prod.mk.injEq]
    constructor <;> ring

/-- C1. Routing symmetry: `getLink x1 y1 x2 y2` and `getLink x2 y2 x1 y1` draw
the same polyline (the same vertices, possibly in the opposite order), and
whenever `x1 ≠ x2` the two paths, hence the two path strings under any number
formatting, are identical. -/
theorem getLink_symmetry (x1 y1 x2 y2 : ℚ) :
    (getLink x1 y1 x2 y2).sameShape (getLink x2 y2 x1 y1) ∧
    (x1 ≠ x2 → ∀ fmt : ℚ → String,
      (getLink x1 y1 x2 y2).render fmt = (getLink x2 y2 x1 y1).render fmt) := by
  constructor
  · by_cases hx : x1 = x2
    · subst hx
      right
      rw [getLink_same_x, getLink_same_x]
      simp [Path.points, walk, Cmd.move]
    · left
      rw [getLink_swap x1 y1 x2 y2 hx]
  · intro hx fmt
    rw [getLink_swap x1 y1 x2 y2 hx]

/-- Instance of the routing symmetry at the points (0, 0) and (5, 2). -/
theorem getLink_symmetry_witness :
    (0 : ℚ) ≠ 5 ∧ (getLink 0 0 5 2).sameShape (getLink 5 2 0 0) ∧
    ∀ fmt : ℚ → String, (getLink 0 0 5 2).render fmt = (getLink 5 2 0 0).render fmt :=
  ⟨by norm_num, (getLink_symmetry 0 0 5 2).1, (getLink_symmetry 0 0 5 2).2 (by norm_num)⟩

/-- C2. The routed path joins the two given points: it starts at one of the
two endpoints and the sum of its moves ends exactly at the other one. -/
theorem getLink_joins (x1 y1 x2 y2 : ℚ) :
    ((getLink x1 y1 x2 y2).start = (x1, y1) ∧ (getLink x1 y1 x2 y2).endPoint = (x2, y2)) ∨
    ((getLink x1 y1 x2 y2).start = (x2, y2) ∧ (getLink x1 y1 x2 y2).endPoint = (x1, y1)) := by
  unfold getLink invertParams
  by_cases h : x1 > x2
  · rw [if_pos h]
    exact Or.inl ⟨getLinkFn_start _ _ _ _, getLinkFn_endPoint _ _ _ _ h.le⟩
  · rw [if_neg h]
    exact Or.inr ⟨getLinkFn_start _ _ _ _, getLinkFn_endPoint _ _ _ _ (not_lt.mp h)⟩

theorem getLinkFn_straight (x1 y1 x2 y2 : ℚ)
    (h : x1 = x2 ∨ y1 = y2 ∨ |x1 - x2| = |y1 - y2|) :
    getLinkFn x1 y1 x2 y2 = ⟨x1, y1, [.L x2 y2]⟩ := by
  unfold getLinkFn
  simp only
  rw [if_pos h]

theorem getLinkFn_general (x1 y1 x2 y2 : ℚ)
    (h : ¬(x1 = x2 ∨ y1 = y2 ∨ |x1 - x2| = |y1 - y2|)) :
    ∃ s dx dy : ℚ,
      |s| = (max |x1 - x2| |y1 - y2| - min |x1 - x2| |y1 - y2|) / 2 ∧
      |dx| = min |x1 - x2| |y1 - y2| ∧ |dy| = min |x1 - x2| |y1 - y2| ∧
      getLinkFn x1 y1 x2 y2 =
        ⟨x1, y1, if |y1 - y2| > |x1 - x2| then [.v s, .l dx dy, .v s]
                 else [.h s, .l dx dy, .h s]⟩ := by
  have hmin : 0 ≤ min |x1 - x2| |y1 - y2| := le_min (abs_nonneg _) (abs_nonneg _)
  have hle : min |x1 - x2| |y1 - y2| ≤ max |x1 - x2| |y1 - y2| := min_le_max
  have ht : |(max |x1 - x2| |y1 - y2| + -(min |x1 - x2| |y1 - y2|)) / (-2)|
      = (max |x1 - x2| |y1 - y2| - min |x1 - x2| |y1 - y2|) / 2 := by
    rw [abs_div, abs_neg, abs_two, ← sub_eq_add_neg, abs_of_nonneg (by linarith)]
  have he : |(-(min |x1 - x2| |y1 - y2|))| = min |x1 - x2| |y1 - y2| := by
    rw [abs_neg, abs_of_nonneg hmin]
  unfold getLinkFn
  simp only
  rw [if_neg h]
  by_cases hy : y1 > y2
  · rw [if_pos hy]
    refine ⟨_, _, _, ht, he, he, ?_⟩
    split_ifs <;> rfl
  · rw [if_neg hy]
    by_cases hw : |y1 - y2| > |x1 - x2|
    · simp only [if_pos hw]
      refine ⟨_, _, _, ?_, he, ?_, rfl⟩
      · rw [abs_neg]; exact ht
      · rw [neg_neg, abs_of_nonneg hmin]
    · simp only [if_neg hw]
      refine ⟨_, _, _, ht, he, ?_, rfl⟩
      rw [neg_neg, abs_of_nonneg hmin]

/-- C3. Routing degenerate cases: when the two points share an x, share a y,
or satisfy `|x1 - x2| = |y1 - y2|`, `getLink` is one `M` followed by one `L`
between the two points; for every other pair the path has three legs; and
`getLink 2 3 2 9`, `getLink 2 2 5 5`, `getLink 0 0 5 5` are straight. -/
theorem getLink_degenerate :
    (∀ x1 y1 x2 y2 : ℚ, (x1 = x2 ∨ y1 = y2 ∨ |x1 - x2| = |y1 - y2|) →
      (getLink x1 y1 x2 y2 = ⟨x1, y1, [.L x2 y2]⟩ ∨
       getLink x1 y1 x2 y2 = ⟨x2, y2, [.L x1 y1]⟩)) ∧
    (∀ x1 y1 x2 y2 : ℚ, ¬(x1 = x2 ∨ y1 = y2 ∨ |x1 - x2| = |y1 - y2|) →
      ∃ a d b : ℚ × ℚ, (getLink x1 y1 x2 y2).cmds = [.h a.1, .l d.1 d.2, .h b.1] ∨
        (getLink x1 y1 x2 y2).cmds = [.v a.1, .l d.1 d.2, .v b.1]) ∧
    getLink 2 3 2 9 = ⟨2, 9, [.L 2 3]⟩ ∧
    getLink 2 2 5 5 = ⟨5, 5, [.L 2 2]⟩ ∧
    getLink 0 0 5 5 = ⟨5, 5, [.L 0 0]⟩ := by
  refine ⟨?_, ?_, ?_, ?_, ?_⟩
  · intro x1 y1 x2 y2 h
    unfold getLink invertParams
    by_cases hx : x1 > x2
    · rw [if_pos hx]
      exact Or.inl (getLinkFn_straight _ _ _ _ h)
    · rw [if_neg hx]
      refine Or.inr (getLinkFn_straight _ _ _ _ ?_)
      rcases h with h | h | h
      · exact Or.inl h.symm
      · exact Or.inr (Or.inl h.symm)
      · right; right
        rw [abs_sub_comm x2 x1, abs_sub_comm y2 y1]; exact h
  · intro x1 y1 x2 y2 h
    have key : ∀ a b c d : ℚ, ¬(a = c ∨ b = d ∨ |a - c| = |b - d|) →
        ∃ p q r : ℚ × ℚ, (getLinkFn a b c d).cmds = [.h p.1, .l q.1 q.2, .h r.1] ∨
          (getLinkFn a b c d).cmds = [.v p.1, .l q.1 q.2, .v r.1] := by
      intro a b c d hn
      obtain ⟨s, dx, dy, -, -, -, hp⟩ := getLinkFn_general a b c d hn
      refine ⟨(s, 0), (dx, dy), (s, 0), ?_⟩
      rw [hp]
      by_cases hw : |b - d| > |a - c|
      · right; simp [hw]
      · left; simp [hw]
    unfold getLink invertParams
    by_cases hx : x1 > x2
    · rw [if_pos hx]
      exact key _ _ _ _ h
    · rw [if_neg hx]
      refine key _ _ _ _ ?_
      rw [abs_sub_comm x2 x1, abs_sub_comm y2 y1]
      intro h'
      apply h
      rcases h' with h' | h' | h'
      · exact Or.inl h'.symm
      · exact Or.inr (Or.inl h'.symm)
      · exact Or.inr (Or.inr h')
  · norm_num [getLink, invertParams, getLinkFn]
  · norm_num [getLink, invertParams, getLinkFn]
  · norm_num [getLink, invertParams, getLinkFn]

/-- Instances of the degenerate and of the three-leg case. -/
theorem getLink_degenerate_witness :
    (getLink 2 3 2 9 = ⟨2, 3, [.L 2 9]⟩ ∨ getLink 2 3 2 9 = ⟨2, 9, [.L 2 3]⟩) ∧
    ∃ a d b : ℚ × ℚ, (getLink 0 0 5 2).cmds = [.h a.1, .l d.1 d.2, .h b.1] ∨
      (getLink 0 0 5 2).cmds = [.v a.1, .l d.1 d.2, .v b.1] :=
  ⟨getLink_degenerate.1 2 3 2 9 (Or.inl rfl),
   getLink_degenerate.2.1 0 0 5 2 (by norm_num)⟩

/-- C4. Routing general case: for points with distinct x, distinct y and
`w = |x1 - x2| ≠ h = |y1 - y2|`, `getLink` is straight-diagonal-straight, the
two straight legs are the same move of length `(max w h - min w h) / 2`, the
diagonal moves by `min w h` along each axis, and the straight legs are
vertical when `h > w` and horizontal otherwise; `getLink 0 0 5 2` has
straight legs of length `3/2` and a diagonal of `2`. -/
theorem getLink_general :
    (∀ x1 y1 x2 y2 : ℚ, x1 ≠ x2 → y1 ≠ y2 → |x1 - x2| ≠ |y1 - y2| →
      ∃ s dx dy : ℚ,
        |s| = (max |x1 - x2| |y1 - y2| - min |x1 - x2| |y1 - y2|) / 2 ∧
        |dx| = min |x1 - x2| |y1 - y2| ∧ |dy| = min |x1 - x2| |y1 - y2| ∧
        (getLink x1 y1 x2 y2).cmds =
          if |y1 - y2| > |x1 - x2| then [.v s, .l dx dy, .v s]
          else [.h s, .l dx dy, .h s]) ∧
    getLink 0 0 5 2 = ⟨5, 2, [.h (-(3 / 2)), .l (-2) (-2), .h (-(3 / 2))]⟩ := by
  constructor
  · intro x1 y1 x2 y2 hx hy hwh
    unfold getLink invertParams
    by_cases hgt : x1 > x2
    · rw [if_pos hgt]
      obtain ⟨s, dx, dy, h1, h2, h3, hp⟩ :=
        getLinkFn_general x1 y1 x2 y2 (by rintro (h | h | h) <;> contradiction)
      exact ⟨s, dx, dy, h1, h2, h3, by rw [hp]⟩
    · rw [if_neg hgt]
      obtain ⟨s, dx, dy, h1, h2, h3, hp⟩ :=
        getLinkFn_general x2 y2 x1 y1 (by
          rw [abs_sub_comm x2 x1, abs_sub_comm y2 y1]
          rintro (h | h | h)
          · exact hx h.symm
          · exact hy h.symm
          · exact hwh h)
      rw [abs_sub_comm x2 x1, abs_sub_comm y2 y1] at h1 h2 h3 hp
      exact ⟨s, dx, dy, h1, h2, h3, by rw [hp]⟩
  · norm_num [getLink, invertParams, getLinkFn]

/-- Instance of the general case at the points (0, 0) and (5, 2). -/
theorem getLink_general_witness :
    ∃ s dx dy : ℚ,
      |s| = (max |(0 : ℚ) - 5| |(0 : ℚ) - 2| - min |(0 : ℚ) - 5| |(0 : ℚ) - 2|) / 2 ∧
      |dx| = min |(0 : ℚ) - 5| |(0 : ℚ) - 2| ∧ |dy| = min |(0 : ℚ) - 5| |(0 : ℚ) - 2| ∧
      (getLink 0 0 5 2).cmds =
        if |(0 : ℚ) - 2| > |(0 : ℚ) - 5| then [.v s, .l dx dy, .v s]
        else [.h s, .l dx dy, .h s] :=
  getLink_general.1 0 0 5 2 (by norm_num) (by norm_num) (by norm_num)

/-! ## View transform theorems -/

/-- C5. Zoom anchoring: when the previous scale is not zero,
`applyPanAndScale` succeeds and the grid point that was under the pointer
anchor, `g = (mouseRel - pos) / prevScale`, is mapped by the new scale and
position back to `mouseRel` on both axes; without a drag the transform
written to the group is that scale and position. -/
theorem applyPanAndScale_anchor (c : Config) (s : State) (h : s.prevScale ≠ 0) :
    ∃ s', applyPanAndScale c s = some s' ∧
      s'.scale = s.scale ∧ s'.prevScale = s.scale ∧
      s'.mouseRelX = s.mouseRelX ∧ s'.mouseRelY = s.mouseRelY ∧
      (s.mouseRelX - s.posX) / s.prevScale * s'.scale + s'.posX = s.mouseRelX ∧
      (s.mouseRelY - s.posY) / s.prevScale * s'.scale + s'.posY = s.mouseRelY ∧
      (s.drag = none → s'.transform = some (s'.scale, s'.posX, s'.posY)) := by
  unfold applyPanAndScale
  rw [if_neg h]
  refine ⟨_, rfl, rfl, rfl, rfl, rfl, ?_, ?_, ?_⟩
  · show (s.mouseRelX - s.posX) / s.prevScale * s.scale
      + (s.scale / s.prevScale * (s.posX - s.mouseRelX) + s.mouseRelX) = s.mouseRelX
    field_simp
    ring
  · show (s.mouseRelY - s.posY) / s.prevScale * s.scale
      + (s.scale / s.prevScale * (s.posY - s.mouseRelY) + s.mouseRelY) = s.mouseRelY
    field_simp
    ring
  · intro hd
    simp [hd]

/-- Instance of the zoom anchoring at a state whose scale was doubled. -/
theorem applyPanAndScale_anchor_witness :
    stateZoomed.prevScale ≠ 0 ∧
    ∃ s', applyPanAndScale defaultConfig stateZoomed = some s' ∧
      s'.scale = stateZoomed.scale ∧ s'.prevScale = stateZoomed.scale ∧
      s'.mouseRelX = stateZoomed.mouseRelX ∧ s'.mouseRelY = stateZoomed.mouseRelY ∧
      (stateZoomed.mouseRelX - stateZoomed.posX) / stateZoomed.prevScale * s'.scale + s'.posX
        = stateZoomed.mouseRelX ∧
      (stateZoomed.mouseRelY - stateZoomed.posY) / stateZoomed.prevScale * s'.scale + s'.posY
        = stateZoomed.mouseRelY ∧
      (stateZoomed.drag = none → s'.transform = some (s'.scale, s'.posX, s'.posY)) :=
  ⟨by norm_num [stateZoomed],
   applyPanAndScale_anchor defaultConfig stateZoomed (by norm_num [stateZoomed])⟩

/-! ## Binary64 rounding of the scale -/

theorem roundHalfEven_intCast (n : ℤ) : roundHalfEven (n : ℚ) = n := by
  unfold roundHalfEven
  simp only [Int.floor_intCast, sub_self]
  rw [if_pos (by norm_num)]

theorem roundHalfEven_half : roundHalfEven (1 / 2) = 0 := by
  have hf : ⌊(1 / 2 : ℚ)⌋ = 0 := by
    rw [Int.floor_eq_iff]; norm_num
  unfold roundHalfEven
  simp only [hf]
  norm_num

theorem roundHalfEven_nonneg (x : ℚ) (h : 0 ≤ x) : 0 ≤ roundHalfEven x := by
  have hf : 0 ≤ ⌊x⌋ := Int.floor_nonneg.mpr h
  unfold roundHalfEven
  simp only
  split_ifs <;> omega

theorem roundHalfEven_le (x : ℚ) (h : 0 ≤ x) : (roundHalfEven x : ℚ) ≤ 2 * x := by
  have hf : 0 ≤ ⌊x⌋ := Int.floor_nonneg.mpr h
  have hfl : (⌊x⌋ : ℚ) ≤ x := Int.floor_le x
  have hlt : x < ⌊x⌋ + 1 := Int.lt_floor_add_one x
  have hf0 : (0 : ℚ) ≤ (⌊x⌋ : ℚ) := by exact_mod_cast hf
  unfold roundHalfEven
  simp only
  split_ifs with h1 h2 h3
  · linarith
  · push_cast; linarith
  · linarith
  · push_cast
    have hr : x - ⌊x⌋ = 1 / 2 := le_antisymm (not_lt.mp h2) (not_lt.mp h1)
    linarith

theorem roundDouble_zero : roundDouble 0 = some 0 := by
  unfold roundDouble
  rw [if_pos rfl]

theorem roundDouble_nonneg (x v : ℚ) (hx : 0 ≤ x) (h : roundDouble x = some v) :
    0 ≤ v ∧ v ≤ 2 * x := by
  unfold roundDouble at h
  by_cases h0 : x = 0
  · rw [if_pos h0] at h
    cases h
    rw [h0]; norm_num
  · rw [if_neg h0] at h
    simp only at h
    split_ifs at h with h1 h2
    · exact absurd hx (not_le.mpr h2)
    · cases h
      have hpow : (0 : ℚ) < (2 : ℚ) ^ max (Int.log 2 |x| - 52) (-1074) := zpow_pos (by norm_num) _
      have ha : |x| = x := abs_of_nonneg hx
      have hq : 0 ≤ |x| / (2 : ℚ) ^ max (Int.log 2 |x| - 52) (-1074) :=
        div_nonneg (abs_nonneg x) hpow.le
      constructor
      · apply mul_nonneg _ hpow.le
        exact_mod_cast roundHalfEven_nonneg _ hq
      · have := roundHalfEven_le _ hq
        calc (roundHalfEven (|x| / (2 : ℚ) ^ max (Int.log 2 |x| - 52) (-1074)) : ℚ)
              * (2 : ℚ) ^ max (Int.log 2 |x| - 52) (-1074)
            ≤ 2 * (|x| / (2 : ℚ) ^ max (Int.log 2 |x| - 52) (-1074))
              * (2 : ℚ) ^ max (Int.log 2 |x| - 52) (-1074) :=
              mul_le_mul_of_nonneg_right this hpow.le
          _ = 2 * x := by rw [ha]; field_simp

/-- A power of two whose exponent lies between -1074 and 1023 is a binary64
number. -/
theorem roundDouble_two_zpow (n : ℤ) (h1 : -1074 ≤ n) (h2 : n ≤ 1023) :
    roundDouble ((2 : ℚ) ^ n) = some ((2 : ℚ) ^ n) := by
  have hpos : (0 : ℚ) < (2 : ℚ) ^ n := zpow_pos (by norm_num) n
  have hlog : Int.log 2 ((2 : ℚ) ^ n) = n := by
    have := Int.log_zpow (R := ℚ) (b := 2) (by norm_num) n
    simpa using this
  unfold roundDouble
  rw [if_neg (ne_of_gt hpos)]
  simp only [abs_of_pos hpos, hlog]
  have he : max (n - 52) (-1074) ≤ n := max_le (by omega) h1
  obtain ⟨k, hk⟩ := Int.eq_ofNat_of_zero_le (sub_nonneg.mpr he)
  have hdiv : (2 : ℚ) ^ n / (2 : ℚ) ^ max (n - 52) (-1074) = ((2 ^ k : ℤ) : ℚ) := by
    rw [← zpow_sub₀ (by norm_num), hk]
    simp
  rw [hdiv, roundHalfEven_intCast]
  have hmul : ((2 ^ k : ℤ) : ℚ) * (2 : ℚ) ^ max (n - 52) (-1074) = (2 : ℚ) ^ n := by
    rw [← hdiv]; field_simp
  rw [hmul]
  rw [if_neg (by
    rw [not_le]
    exact zpow_lt_zpow_right₀ (by norm_num) (by omega)), if_neg (not_lt.mpr hpos.le)]

/-- Half of the least positive binary64 number rounds to zero. -/
theorem roundDouble_underflow : roundDouble ((2 : ℚ) ^ (-1075 : ℤ)) = some 0 := by
  have hpos : (0 : ℚ) < (2 : ℚ) ^ (-1075 : ℤ) := zpow_pos (by norm_num) _
  have hlog : Int.log 2 ((2 : ℚ) ^ (-1075 : ℤ)) = -1075 := by
    have := Int.log_zpow (R := ℚ) (b := 2) (by norm_num) (-1075)
    simpa using this
  unfold roundDouble
  rw [if_neg (ne_of_gt hpos)]
  simp only [abs_of_pos hpos, hlog]
  have hmax : max ((-1075 : ℤ) - 52) (-1074) = -1074 := by decide
  rw [hmax]
  have hdiv : (2 : ℚ) ^ (-1075 : ℤ) / (2 : ℚ) ^ (-1074 : ℤ) = 1 / 2 := by
    rw [← zpow_sub₀ (by norm_num)]
    norm_num
  rw [hdiv, roundHalfEven_half]
  have h1024 : (0 : ℚ) < (2 : ℚ) ^ (1024 : ℤ) := zpow_pos (by norm_num) _
  simp [h1024]

theorem roundHalfEven_ge_floor (x : ℚ) : ⌊x⌋ ≤ roundHalfEven x := by
  unfold roundHalfEven
  simp only
  split_ifs <;> omega

theorem roundHalfEven_pos (x : ℚ) (h : 1 / 2 < x) : 1 ≤ roundHalfEven x := by
  by_cases h1 : 1 ≤ x
  · have : 1 ≤ ⌊x⌋ := Int.le_floor.mpr (by exact_mod_cast h1)
    exact this.trans (roundHalfEven_ge_floor x)
  · have hf : ⌊x⌋ = 0 := by
      rw [Int.floor_eq_iff]
      constructor
      · norm_num; linarith
      · norm_num; linarith
    unfold roundHalfEven
    simp only [hf]
    rw [if_neg (by norm_num; linarith), if_pos (by norm_num; linarith)]
    norm_num

/-- The exponent of the last place used by `roundDouble`. -/
theorem roundDouble_eq (x : ℚ) (hx : 0 < x) (v : ℚ) (h : roundDouble x = some v) :
    v = (roundHalfEven (x / (2 : ℚ) ^ max (Int.log 2 x - 52) (-1074)) : ℚ)
      * (2 : ℚ) ^ max (Int.log 2 x - 52) (-1074) := by
  unfold roundDouble at h
  rw [if_neg (ne_of_gt hx)] at h
  simp only [abs_of_pos hx] at h
  split_ifs at h with h1 h2
  · exact absurd hx (not_lt.mpr h2.le)
  · exact (Option.some.inj h).symm

/-- A result above half of the least positive binary64 number does not
round to zero. -/
theorem roundDouble_pos (x v : ℚ) (hx : (2 : ℚ) ^ (-1075 : ℤ) < x)
    (h : roundDouble x = some v) : 0 < v := by
  have hx0 : 0 < x := lt_trans (zpow_pos (by norm_num) _) hx
  rw [roundDouble_eq x hx0 v h]
  have hpow : (0 : ℚ) < (2 : ℚ) ^ max (Int.log 2 x - 52) (-1074) := zpow_pos (by norm_num) _
  apply mul_pos _ hpow
  have hhalf : 1 / 2 < x / (2 : ℚ) ^ max (Int.log 2 x - 52) (-1074) := by
    rw [lt_div_iff₀ hpow]
    rcases max_cases (Int.log 2 x - 52) (-1074) with ⟨he, -⟩ | ⟨he, -⟩
    · rw [he]
      have h1 : ((2 : ℕ) : ℚ) ^ Int.log 2 x ≤ x := Int.zpow_log_le_self (by norm_num) hx0
      have h2 : (2 : ℚ) ^ (Int.log 2 x - 52) ≤ (2 : ℚ) ^ Int.log 2 x :=
        zpow_le_zpow_right₀ (by norm_num) (by omega)
      have h3 : (0 : ℚ) < (2 : ℚ) ^ (Int.log 2 x - 52) := zpow_pos (by norm_num) _
      push_cast at h1
      linarith
    · rw [he]
      have h1 : (2 : ℚ) ^ (-1075 : ℤ) = 1 / 2 * (2 : ℚ) ^ (-1074 : ℤ) := by
        rw [show (-1075 : ℤ) = -1074 - 1 by norm_num, zpow_sub_one₀ (by norm_num)]
        ring
      rw [← h1]
      exact hx
  exact_mod_cast roundHalfEven_pos _ hhalf

/-- A rounded non negative result is zero or at least the least positive
binary64 number. -/
theorem roundDouble_ge (x v : ℚ) (hx : 0 ≤ x) (h : roundDouble x = some v) :
    v = 0 ∨ (2 : ℚ) ^ (-1074 : ℤ) ≤ v := by
  rcases eq_or_lt_of_le hx with h0 | h0
  · rw [← h0, roundDouble_zero] at h
    exact Or.inl (Option.some.inj h).symm
  · rw [roundDouble_eq x h0 v h]
    have hpow : (0 : ℚ) < (2 : ℚ) ^ max (Int.log 2 x - 52) (-1074) := zpow_pos (by norm_num) _
    have hm := roundHalfEven_nonneg (x / (2 : ℚ) ^ max (Int.log 2 x - 52) (-1074))
      (div_nonneg hx hpow.le)
    rcases eq_or_lt_of_le hm with hm0 | hm0
    · left
      rw [← hm0]
      simp
    · right
      have h1 : (1 : ℚ) ≤ (roundHalfEven (x / (2 : ℚ) ^ max (Int.log 2 x - 52) (-1074)) : ℚ) := by
        exact_mod_cast hm0
      have h2 : (2 : ℚ) ^ (-1074 : ℤ) ≤ (2 : ℚ) ^ max (Int.log 2 x - 52) (-1074) :=
        zpow_le_zpow_right₀ (by norm_num) (le_max_right _ _)
      calc (2 : ℚ) ^ (-1074 : ℤ) ≤ 1 * (2 : ℚ) ^ max (Int.log 2 x - 52) (-1074) := by
            rw [one_mul]; exact h2
        _ ≤ _ := mul_le_mul_of_nonneg_right h1 hpow.le

/-- Rounding does not go below a binary64 power of two that the result
reaches. -/
theorem roundDouble_ge_two_zpow (x v : ℚ) (n : ℤ) (hn : -1074 ≤ n) (hx : (2 : ℚ) ^ n ≤ x)
    (h : roundDouble x = some v) : (2 : ℚ) ^ n ≤ v := by
  have hx0 : 0 < x := lt_of_lt_of_le (zpow_pos (by norm_num) _) hx
  rw [roundDouble_eq x hx0 v h]
  have hpow : (0 : ℚ) < (2 : ℚ) ^ max (Int.log 2 x - 52) (-1074) := zpow_pos (by norm_num) _
  have hlog : n ≤ Int.log 2 x := by
    have := (Int.zpow_le_iff_le_log (R := ℚ) (b := 2) (by norm_num) hx0).mp
      (by push_cast; exact hx)
    exact this
  by_cases hne : max (Int.log 2 x - 52) (-1074) ≤ n
  · obtain ⟨k, hk⟩ := Int.eq_ofNat_of_zero_le (sub_nonneg.mpr hne)
    have hdiv : ((2 ^ k : ℤ) : ℚ) ≤ x / (2 : ℚ) ^ max (Int.log 2 x - 52) (-1074) := by
      rw [le_div_iff₀ hpow]
      have : ((2 ^ k : ℤ) : ℚ) * (2 : ℚ) ^ max (Int.log 2 x - 52) (-1074) = (2 : ℚ) ^ n := by
        push_cast
        rw [← zpow_natCast, ← zpow_add₀ (by norm_num), ← hk]
        congr 1
        ring
      rw [this]
      exact hx
    have hfl : (2 ^ k : ℤ) ≤ roundHalfEven (x / (2 : ℚ) ^ max (Int.log 2 x - 52) (-1074)) :=
      (Int.le_floor.mpr hdiv).trans (roundHalfEven_ge_floor _)
    have hfl' : ((2 ^ k : ℤ) : ℚ)
        ≤ (roundHalfEven (x / (2 : ℚ) ^ max (Int.log 2 x - 52) (-1074)) : ℚ) := by
      exact_mod_cast hfl
    have : ((2 ^ k : ℤ) : ℚ) * (2 : ℚ) ^ max (Int.log 2 x - 52) (-1074) = (2 : ℚ) ^ n := by
      push_cast
      rw [← zpow_natCast, ← zpow_add₀ (by norm_num), ← hk]
      congr 1
      ring
    rw [← this]
    exact mul_le_mul_of_nonneg_right hfl' hpow.le
  · rw [not_le] at hne
    have hm : 1 ≤ roundHalfEven (x / (2 : ℚ) ^ max (Int.log 2 x - 52) (-1074)) := by
      apply roundHalfEven_pos
      rw [lt_div_iff₀ hpow]
      have h1 : (2 : ℚ) ^ n < (2 : ℚ) ^ max (Int.log 2 x - 52) (-1074) :=
        zpow_lt_zpow_right₀ (by norm_num) hne
      have hmax : max (Int.log 2 x - 52) (-1074) = Int.log 2 x - 52 := by
        rcases max_cases (Int.log 2 x - 52) (-1074) with ⟨he, -⟩ | ⟨he, -⟩
        · exact he
        · omega
      rw [hmax]
      have h2 : ((2 : ℕ) : ℚ) ^ Int.log 2 x ≤ x := Int.zpow_log_le_self (by norm_num) hx0
      have h3 : (2 : ℚ) ^ (Int.log 2 x - 52) ≤ (2 : ℚ) ^ Int.log 2 x :=
        zpow_le_zpow_right₀ (by norm_num) (by omega)
      have h4 : (0 : ℚ) < (2 : ℚ) ^ (Int.log 2 x - 52) := zpow_pos (by norm_num) _
      push_cast at h2
      linarith
    have hm' : (1 : ℚ) ≤ (roundHalfEven (x / (2 : ℚ) ^ max (Int.log 2 x - 52) (-1074)) : ℚ) := by
      exact_mod_cast hm
    have h1 : (2 : ℚ) ^ n ≤ (2 : ℚ) ^ max (Int.log 2 x - 52) (-1074) :=
      zpow_le_zpow_right₀ (by norm_num) hne.le
    calc (2 : ℚ) ^ n ≤ 1 * (2 : ℚ) ^ max (Int.log 2 x - 52) (-1074) := by rw [one_mul]; exact h1
      _ ≤ _ := mul_le_mul_of_nonneg_right hm' hpow.le

theorem log_two_zpow (n : ℤ) : Int.log 2 ((2 : ℚ) ^ n) = n := by
  have := Int.log_zpow (R := ℚ) (b := 2) (by norm_num) n
  simpa using this

theorem idealLogQuotient_two_zpow (n : ℤ) : idealLogQuotient ((2 : ℚ) ^ n) = n := by
  unfold idealLogQuotient
  rw [log_two_zpow, div_self (ne_of_gt (zpow_pos (by norm_num) n))]
  ring

theorem prevPowerOf2_zero (q : ℚ → ℚ) : prevPowerOf2 q 0 = some 0 := by
  unfold prevPowerOf2
  rw [if_neg (lt_irrefl 0), if_pos rfl]

theorem nextPowerOf2_zero (q : ℚ → ℚ) : nextPowerOf2 q 0 = some 0 := by
  unfold nextPowerOf2
  rw [if_neg (lt_irrefl 0), if_pos rfl]

/-- Every zoom action keeps a scale that is zero at zero. -/
theorem zoomScale_zero (q : ℚ → ℚ) (a : ZoomAction) : zoomScale q a 0 = some 0 := by
  cases a with
  | zoomIn => simp [zoomScale, roundDouble_zero, prevPowerOf2_zero]
  | zoomInPrecise => simp [zoomScale, roundDouble_zero]
  | zoomOut => simp [zoomScale, roundDouble_zero, nextPowerOf2_zero]
  | zoomOutPrecise => simp [zoomScale, roundDouble_zero]
  | wheel d => simp [zoomScale, wheelScale, roundDouble_zero]

/-- The scales that binary64 can hold at or above zero: zero, or at least
the least positive number. -/
theorem prevPowerOf2_ge (q : ℚ → ℚ) (x v : ℚ) (h : prevPowerOf2 q x = some v) :
    0 ≤ v ∧ (v = 0 ∨ (2 : ℚ) ^ (-1074 : ℤ) ≤ v) := by
  unfold prevPowerOf2 at h
  split_ifs at h
  · have hp : (0 : ℚ) ≤ (2 : ℚ) ^ ⌊q x⌋ := (zpow_pos (by norm_num) _).le
    exact ⟨(roundDouble_nonneg _ v hp h).1, roundDouble_ge _ v hp h⟩
  · cases h; exact ⟨le_refl 0, Or.inl rfl⟩

theorem nextPowerOf2_ge (q : ℚ → ℚ) (x v : ℚ) (h : nextPowerOf2 q x = some v) :
    0 ≤ v ∧ (v = 0 ∨ (2 : ℚ) ^ (-1074 : ℤ) ≤ v) := by
  unfold nextPowerOf2 at h
  split_ifs at h
  · have hp : (0 : ℚ) ≤ (2 : ℚ) ^ ⌈q x⌉ := (zpow_pos (by norm_num) _).le
    exact ⟨(roundDouble_nonneg _ v hp h).1, roundDouble_ge _ v hp h⟩
  · cases h; exact ⟨le_refl 0, Or.inl rfl⟩

theorem mathSign_cases (d : ℚ) : mathSign d = 1 ∨ mathSign d = -1 ∨ mathSign d = 0 := by
  unfold mathSign
  split_ifs <;> simp

theorem wheelScale_arg (scale d t : ℚ) (hs : 0 ≤ scale) (ht : roundDouble (scale / 20) = some t) :
    9 / 10 * scale ≤ scale + mathSign d * t := by
  obtain ⟨h0, h1⟩ := roundDouble_nonneg _ t (by positivity) ht
  rcases mathSign_cases d with h | h | h <;> rw [h] <;> linarith

/-- A zoom action maps a scale that is not negative to a scale that is zero
or at least the least positive binary64 number. -/
theorem zoomScale_nonneg (q : ℚ → ℚ) (a : ZoomAction) (s s' : ℚ) (hs : 0 ≤ s)
    (h : zoomScale q a s = some s') : 0 ≤ s' ∧ (s' = 0 ∨ (2 : ℚ) ^ (-1074 : ℤ) ≤ s') := by
  cases a with
  | zoomIn =>
    obtain ⟨t, -, ht⟩ := Option.bind_eq_some.mp h
    exact prevPowerOf2_ge q t s' ht
  | zoomInPrecise =>
    have hp : 0 ≤ s * double12 := mul_nonneg hs (by norm_num [double12])
    exact ⟨(roundDouble_nonneg _ s' hp h).1, roundDouble_ge _ s' hp h⟩
  | zoomOut =>
    obtain ⟨t, -, ht⟩ := Option.bind_eq_some.mp h
    exact nextPowerOf2_ge q t s' ht
  | zoomOutPrecise =>
    have hp : 0 ≤ s * double08 := mul_nonneg hs (by norm_num [double08])
    exact ⟨(roundDouble_nonneg _ s' hp h).1, roundDouble_ge _ s' hp h⟩
  | wheel d =>
    obtain ⟨t, ht, ht'⟩ := Option.bind_eq_some.mp h
    have hp : 0 ≤ s + mathSign d * t := by
      have := wheelScale_arg s d t hs ht
      linarith
    exact ⟨(roundDouble_nonneg _ s' hp ht').1, roundDouble_ge _ s' hp ht'⟩

theorem zoomRun_nonneg (q : ℚ → ℚ) (acts : List ZoomAction) :
    ∀ s s' : ℚ, 0 ≤ s → (s = 0 ∨ (2 : ℚ) ^ (-1074 : ℤ) ≤ s) → zoomRun q acts s = some s' →
      0 ≤ s' ∧ (s' = 0 ∨ (2 : ℚ) ^ (-1074 : ℤ) ≤ s') := by
  induction acts with
  | nil =>
    intro s s' h0 h1 h
    cases h
    exact ⟨h0, h1⟩
  | cons a rest ih =>
    intro s s' h0 _ h
    obtain ⟨t, ht, ht'⟩ := Option.bind_eq_some.mp h
    obtain ⟨g0, g1⟩ := zoomScale_nonneg q a s t h0 ht
    exact ih t s' g0 g1 ht'

theorem half_least_lt (s c : ℚ) (hs : (2 : ℚ) ^ (-1074 : ℤ) ≤ s) (hc : 1 / 2 < c) :
    (2 : ℚ) ^ (-1075 : ℤ) < s * c := by
  have h1 : (2 : ℚ) ^ (-1075 : ℤ) = 1 / 2 * (2 : ℚ) ^ (-1074 : ℤ) := by
    rw [show (-1075 : ℤ) = -1074 - 1 by norm_num, zpow_sub_one₀ (by norm_num)]
    ring
  have hp : (0 : ℚ) < (2 : ℚ) ^ (-1074 : ℤ) := zpow_pos (by norm_num) _
  rw [h1]
  calc 1 / 2 * (2 : ℚ) ^ (-1074 : ℤ) < c * (2 : ℚ) ^ (-1074 : ℤ) :=
        mul_lt_mul_of_pos_right hc hp
    _ ≤ c * s := mul_le_mul_of_nonneg_left hs (by linarith)
    _ = s * c := mul_comm c s

/-- A precise zoom or a wheel zoom of a positive binary64 scale is
positive. -/
theorem zoomScale_fine_pos (q : ℚ → ℚ) (a : ZoomAction) (s s' : ℚ)
    (hs : (2 : ℚ) ^ (-1074 : ℤ) ≤ s) (ha : a ≠ .zoomIn ∧ a ≠ .zoomOut)
    (h : zoomScale q a s = some s') : 0 < s' := by
  have hs0 : 0 ≤ s := le_trans (zpow_pos (by norm_num) _).le hs
  cases a with
  | zoomIn => exact absurd rfl ha.1
  | zoomOut => exact absurd rfl ha.2
  | zoomInPrecise =>
    exact roundDouble_pos _ s' (half_least_lt s double12 hs (by norm_num [double12])) h
  | zoomOutPrecise =>
    exact roundDouble_pos _ s' (half_least_lt s double08 hs (by norm_num [double08])) h
  | wheel d =>
    obtain ⟨t, ht, ht'⟩ := Option.bind_eq_some.mp h
    have h1 := wheelScale_arg s d t hs0 ht
    have h2 := half_least_lt s (9 / 10) hs (by norm_num)
    have h3 : (2 : ℚ) ^ (-1075 : ℤ) < s + mathSign d * t := by
      generalize (2 : ℚ) ^ (-1075 : ℤ) = p at h2 ⊢
      linarith
    exact roundDouble_pos _ s' h3 ht'

/-- A coarse zoom of a positive binary64 scale is positive, the zoom-out of
the least positive number apart, on a host whose quotient is at least -1074
from `2 ^ (-1073)` on and above -1075 from `2 ^ (-1074)` on. -/
theorem zoomScale_coarse_pos (q : ℚ → ℚ) (a : ZoomAction) (s s' : ℚ)
    (hq1 : ∀ x : ℚ, (2 : ℚ) ^ (-1073 : ℤ) ≤ x → -1074 ≤ q x)
    (hq2 : ∀ x : ℚ, (2 : ℚ) ^ (-1074 : ℤ) ≤ x → -1075 < q x)
    (hs : (2 : ℚ) ^ (-1074 : ℤ) ≤ s) (ha : a = .zoomIn ∨ (a = .zoomOut ∧ s ≠ (2 : ℚ) ^ (-1074 : ℤ)))
    (h : zoomScale q a s = some s') : 0 < s' := by
  have hlt : (2 : ℚ) ^ (-1075 : ℤ) < (2 : ℚ) ^ (-1074 : ℤ) :=
    zpow_lt_zpow_right₀ (by norm_num) (by norm_num)
  rcases ha with rfl | ⟨rfl, hne⟩
  · obtain ⟨t, ht, ht'⟩ := Option.bind_eq_some.mp h
    have h2 : (2 : ℚ) ^ (-1073 : ℤ) ≤ s * 2 := by
      rw [show (-1073 : ℤ) = -1074 + 1 by norm_num, zpow_add_one₀ (by norm_num)]
      linarith
    have h3 := roundDouble_ge_two_zpow _ t (-1073) (by norm_num) h2 ht
    have ht0 : 0 < t := lt_of_lt_of_le (zpow_pos (by norm_num) _) h3
    unfold prevPowerOf2 at ht'
    rw [if_pos ht0] at ht'
    have hfl : (-1074 : ℤ) ≤ ⌊q t⌋ := Int.le_floor.mpr (by exact_mod_cast hq1 t h3)
    have hpw : (2 : ℚ) ^ (-1074 : ℤ) ≤ (2 : ℚ) ^ ⌊q t⌋ := zpow_le_zpow_right₀ (by norm_num) hfl
    exact roundDouble_pos _ s' (lt_of_lt_of_le hlt hpw) ht'
  · obtain ⟨t, ht, ht'⟩ := Option.bind_eq_some.mp h
    have hgt : (2 : ℚ) ^ (-1074 : ℤ) < s := lt_of_le_of_ne hs (Ne.symm hne)
    have h2 : (2 : ℚ) ^ (-1075 : ℤ) < s / 2 := by
      have h1 : (2 : ℚ) ^ (-1075 : ℤ) = (2 : ℚ) ^ (-1074 : ℤ) / 2 := by
        rw [show (-1075 : ℤ) = -1074 - 1 by norm_num, zpow_sub_one₀ (by norm_num)]
        ring
      rw [h1]
      generalize (2 : ℚ) ^ (-1074 : ℤ) = p at hgt ⊢
      linarith
    have ht0 : 0 < t := roundDouble_pos _ t h2 ht
    have hs0 : 0 ≤ s / 2 := by
      have := (zpow_pos (by norm_num : (0 : ℚ) < 2) (-1075)).le
      linarith
    have h3 : (2 : ℚ) ^ (-1074 : ℤ) ≤ t := by
      rcases roundDouble_ge _ t hs0 ht with h0 | h0
      · exact absurd h0 (ne_of_gt ht0)
      · exact h0
    unfold nextPowerOf2 at ht'
    rw [if_pos ht0] at ht'
    have hcl : (-1074 : ℤ) ≤ ⌈q t⌉ := by
      have := hq2 t h3
      have h4 : ((-1075 : ℤ) : ℚ) < q t := by exact_mod_cast this
      have := Int.lt_ceil.mpr h4
      omega
    have hpw : (2 : ℚ) ^ (-1074 : ℤ) ≤ (2 : ℚ) ^ ⌈q t⌉ := zpow_le_zpow_right₀ (by norm_num) hcl
    exact roundDouble_pos _ s' (lt_of_lt_of_le hlt hpw) ht'

/-! ## The quotient of logarithms on the binary64 host -/

set_option maxRecDepth 100000 in
theorem inexactExponents_le : ∀ n ∈ inexactExponents, 1 ≤ n ∧ n ≤ 1074 := by
  decide

theorem ulp_lt_one (n : ℕ) (h1 : 1 ≤ n) (h2 : n ≤ 1074) :
    (0 : ℚ) < (2 : ℚ) ^ (Int.log 2 (n : ℚ) - 52) ∧ (2 : ℚ) ^ (Int.log 2 (n : ℚ) - 52) < 1 := by
  refine ⟨zpow_pos (by norm_num) _, ?_⟩
  have hn : (0 : ℚ) < (n : ℚ) := by exact_mod_cast h1
  have hlt : (n : ℚ) < ((2 : ℕ) : ℚ) ^ (52 : ℤ) := by
    have : (n : ℚ) ≤ 1074 := by exact_mod_cast h2
    norm_num
    linarith
  have hlog : Int.log 2 (n : ℚ) < 52 := (Int.lt_zpow_iff_log_lt (by norm_num) hn).mp hlt
  exact zpow_lt_one_of_neg₀ (by norm_num) (by omega)

theorem binary64LogQuotient_two_zpow (m : ℤ) :
    binary64LogQuotient ((2 : ℚ) ^ m) =
      if m.natAbs ∈ inexactExponents then
        (m : ℚ) + (Int.sign m : ℚ) * (2 : ℚ) ^ (Int.log 2 (m.natAbs : ℚ) - 52)
      else m := by
  unfold binary64LogQuotient
  simp only [log_two_zpow, if_true]

/-- At a power of two with an exponent that is not negative the quotient of
the binary64 host is the exponent or less than one above it. -/
theorem binary64LogQuotient_nonneg (m : ℤ) (h : 0 ≤ m) :
    (m : ℚ) ≤ binary64LogQuotient ((2 : ℚ) ^ m) ∧
      binary64LogQuotient ((2 : ℚ) ^ m) < m + 1 := by
  rw [binary64LogQuotient_two_zpow]
  by_cases hm : m.natAbs ∈ inexactExponents
  · rw [if_pos hm]
    obtain ⟨h1, h2⟩ := inexactExponents_le _ hm
    obtain ⟨hu0, hu1⟩ := ulp_lt_one _ h1 h2
    have hs : Int.sign m = 1 := Int.sign_eq_one_of_pos (by omega)
    rw [hs]
    push_cast
    constructor <;> linarith
  · rw [if_neg hm]
    constructor <;> linarith

/-- At a power of two with an exponent that is not positive the quotient of
the binary64 host is the exponent or less than one below it. -/
theorem binary64LogQuotient_nonpos (m : ℤ) (h : m ≤ 0) :
    (m : ℚ) - 1 < binary64LogQuotient ((2 : ℚ) ^ m) ∧
      binary64LogQuotient ((2 : ℚ) ^ m) ≤ m := by
  rw [binary64LogQuotient_two_zpow]
  by_cases hm : m.natAbs ∈ inexactExponents
  · rw [if_pos hm]
    obtain ⟨h1, h2⟩ := inexactExponents_le _ hm
    obtain ⟨hu0, hu1⟩ := ulp_lt_one _ h1 h2
    have hs : Int.sign m = -1 := Int.sign_eq_neg_one_of_neg (by omega)
    rw [hs]
    push_cast
    constructor <;> linarith
  · rw [if_neg hm]
    constructor <;> linarith

theorem binary64LogQuotient_floor (m : ℤ) (h : 0 ≤ m) :
    ⌊binary64LogQuotient ((2 : ℚ) ^ m)⌋ = m := by
  obtain ⟨h1, h2⟩ := binary64LogQuotient_nonneg m h
  rw [Int.floor_eq_iff]
  exact ⟨h1, h2⟩

theorem binary64LogQuotient_ceil (m : ℤ) (h : m ≤ 0) :
    ⌈binary64LogQuotient ((2 : ℚ) ^ m)⌉ = m := by
  obtain ⟨h1, h2⟩ := binary64LogQuotient_nonpos m h
  rw [Int.ceil_eq_iff]
  exact ⟨h1, h2⟩

/-- The binary64 host computes `29.000000000000004` at `2 ^ 29`: the ceiling
is 30. -/
theorem binary64LogQuotient_ceil_29 : ⌈binary64LogQuotient ((2 : ℚ) ^ (29 : ℤ))⌉ = 30 := by
  have hm : (29 : ℤ).natAbs ∈ inexactExponents := by decide
  obtain ⟨hu0, hu1⟩ := ulp_lt_one 29 (by norm_num) (by norm_num)
  rw [binary64LogQuotient_two_zpow, if_pos hm, Int.ceil_eq_iff]
  have hs : Int.sign 29 = 1 := rfl
  rw [hs]
  have hn : (((29 : ℤ).natAbs : ℕ) : ℚ) = ((29 : ℕ) : ℚ) := rfl
  rw [hn]
  push_cast at hu0 hu1 ⊢
  generalize (2 : ℚ) ^ (Int.log 2 (29 : ℚ) - 52) = u at hu0 hu1 ⊢
  constructor <;> linarith

/-- The binary64 host computes `-29.000000000000004` at `2 ^ (-29)`: the
floor is -30. -/
theorem binary64LogQuotient_floor_neg_29 :
    ⌊binary64LogQuotient ((2 : ℚ) ^ (-29 : ℤ))⌋ = -30 := by
  have hm : (-29 : ℤ).natAbs ∈ inexactExponents := by decide
  obtain ⟨hu0, hu1⟩ := ulp_lt_one 29 (by norm_num) (by norm_num)
  rw [binary64LogQuotient_two_zpow, if_pos hm, Int.floor_eq_iff]
  have hs : Int.sign (-29) = -1 := rfl
  rw [hs]
  have hn : (((-29 : ℤ).natAbs : ℕ) : ℚ) = ((29 : ℕ) : ℚ) := rfl
  rw [hn]
  push_cast at hu0 hu1 ⊢
  generalize (2 : ℚ) ^ (Int.log 2 (29 : ℚ) - 52) = u at hu0 hu1 ⊢
  constructor <;> linarith

theorem idealLogQuotient_bounds (x : ℚ) (hx : 0 < x) :
    (Int.log 2 x : ℚ) ≤ idealLogQuotient x ∧ idealLogQuotient x < Int.log 2 x + 1 := by
  have h1 : ((2 : ℕ) : ℚ) ^ Int.log 2 x ≤ x := Int.zpow_log_le_self (by norm_num) hx
  have h2 : x < ((2 : ℕ) : ℚ) ^ (Int.log 2 x + 1) := Int.lt_zpow_succ_log_self (by norm_num) x
  push_cast at h1 h2
  have hp : (0 : ℚ) < (2 : ℚ) ^ Int.log 2 x := zpow_pos (by norm_num) _
  rw [zpow_add_one₀ (by norm_num)] at h2
  unfold idealLogQuotient
  have h3 : 1 ≤ x / (2 : ℚ) ^ Int.log 2 x := by rw [le_div_iff₀ hp]; linarith
  have h4 : x / (2 : ℚ) ^ Int.log 2 x < 2 := by rw [div_lt_iff₀ hp]; linarith
  constructor <;> linarith

/-- The quotient of the binary64 host is less than one away from the
exponent of the greatest power of two below its argument, or of the next
one. -/
theorem binary64LogQuotient_bounds (x : ℚ) (hx : 0 < x) :
    (Int.log 2 x : ℚ) - 1 < binary64LogQuotient x ∧
      binary64LogQuotient x < Int.log 2 x + 1 := by
  by_cases hp : x = (2 : ℚ) ^ Int.log 2 x
  · rcases le_total 0 (Int.log 2 x) with h0 | h0
    · have := binary64LogQuotient_nonneg _ h0
      rw [← hp] at this
      constructor <;> linarith [this.1, this.2]
    · have := binary64LogQuotient_nonpos _ h0
      rw [← hp] at this
      constructor <;> linarith [this.1, this.2]
  · have := idealLogQuotient_bounds x hx
    unfold binary64LogQuotient
    simp only [if_neg hp]
    constructor <;> linarith [this.1, this.2]

/-! ## Runs of zoom actions -/

/-- The coarse zoom-out halves a binary64 power of two when the ceiling of
the quotient at the half is its exponent. -/
theorem zoomOut_two_zpow (q : ℚ → ℚ) (n : ℤ) (h1 : -1073 ≤ n) (h2 : n ≤ 1024)
    (hq : ⌈q ((2 : ℚ) ^ (n - 1))⌉ = n - 1) :
    zoomScale q .zoomOut ((2 : ℚ) ^ n) = some ((2 : ℚ) ^ (n - 1)) := by
  have hhalf : (2 : ℚ) ^ n / 2 = (2 : ℚ) ^ (n - 1) := by
    rw [zpow_sub_one₀ (by norm_num)]; ring
  have hr := roundDouble_two_zpow (n - 1) (by omega) (by omega)
  unfold zoomScale
  simp only
  rw [hhalf, hr, Option.some_bind]
  unfold nextPowerOf2
  rw [if_pos (zpow_pos (by norm_num) _), hq, hr]

/-- The coarse zoom-out of the least positive binary64 number is zero. -/
theorem zoomOut_least (q : ℚ → ℚ) :
    zoomScale q .zoomOut ((2 : ℚ) ^ (-1074 : ℤ)) = some 0 := by
  have hhalf : (2 : ℚ) ^ (-1074 : ℤ) / 2 = (2 : ℚ) ^ (-1075 : ℤ) := by
    rw [show (-1075 : ℤ) = -1074 - 1 by norm_num, zpow_sub_one₀ (by norm_num)]; ring
  unfold zoomScale
  simp only
  rw [hhalf, roundDouble_underflow, Option.some_bind, nextPowerOf2_zero]

/-- The coarse zoom-in doubles a binary64 power of two when the floor of the
quotient at the double is its exponent. -/
theorem zoomIn_two_zpow (q : ℚ → ℚ) (n : ℤ) (h1 : -1075 ≤ n) (h2 : n ≤ 1022)
    (hq : ⌊q ((2 : ℚ) ^ (n + 1))⌋ = n + 1) :
    zoomScale q .zoomIn ((2 : ℚ) ^ n) = some ((2 : ℚ) ^ (n + 1)) := by
  have hdbl : (2 : ℚ) ^ n * 2 = (2 : ℚ) ^ (n + 1) := by
    rw [zpow_add_one₀ (by norm_num)]
  have hr := roundDouble_two_zpow (n + 1) (by omega) (by omega)
  unfold zoomScale
  simp only
  rw [hdbl, hr, Option.some_bind]
  unfold prevPowerOf2
  rw [if_pos (zpow_pos (by norm_num) _), hq, hr]

theorem zoomRun_append (q : ℚ → ℚ) (xs ys : List ZoomAction) (s : ℚ) :
    zoomRun q (xs ++ ys) s = (zoomRun q xs s).bind (zoomRun q ys) := by
  induction xs generalizing s with
  | nil => rfl
  | cons a rest ih =>
    simp only [List.cons_append, zoomRun]
    cases zoomScale q a s with
    | none => rfl
    | some t => simp only [Option.some_bind]; exact ih t

/-- Coarse zoom-outs walk down the powers of two as long as the ceiling of
the quotient is exact on the way. -/
theorem zoomRun_zoomOut (q : ℚ → ℚ) (k : ℕ) :
    ∀ n : ℤ, n ≤ 1024 → -1074 ≤ n - k →
      (∀ m : ℤ, n - k ≤ m → m < n → ⌈q ((2 : ℚ) ^ m)⌉ = m) →
      zoomRun q (List.replicate k .zoomOut) ((2 : ℚ) ^ n) = some ((2 : ℚ) ^ (n - k)) := by
  induction k with
  | zero => intro n _ _ _; simp [zoomRun]
  | succ k ih =>
    intro n h1 h2 hq
    push_cast at h2 hq ⊢
    rw [List.replicate_succ, zoomRun,
      zoomOut_two_zpow q n (by omega) h1 (hq (n - 1) (by omega) (by omega)), Option.some_bind,
      ih (n - 1) (by omega) (by omega) (fun m hm1 hm2 => hq m (by omega) (by omega))]
    congr 2
    ring

/-- Coarse zoom-ins walk up the powers of two as long as the floor of the
quotient is exact on the way. -/
theorem zoomRun_zoomIn (q : ℚ → ℚ) (k : ℕ) :
    ∀ n : ℤ, -1075 ≤ n → n + k ≤ 1023 →
      (∀ m : ℤ, n < m → m ≤ n + k → ⌊q ((2 : ℚ) ^ m)⌋ = m) →
      zoomRun q (List.replicate k .zoomIn) ((2 : ℚ) ^ n) = some ((2 : ℚ) ^ (n + k)) := by
  induction k with
  | zero => intro n _ _ _; simp [zoomRun]
  | succ k ih =>
    intro n h1 h2 hq
    push_cast at h2 hq ⊢
    rw [List.replicate_succ, zoomRun,
      zoomIn_two_zpow q n h1 (by omega) (hq (n + 1) (by omega) (by omega)), Option.some_bind,
      ih (n + 1) (by omega) (by omega) (fun m hm1 hm2 => hq m (by omega) (by omega))]
    congr 2
    ring

/-- C6 (counterexample). From the scale 1, on the binary64 host, 1074 coarse
zoom-outs give the least positive binary64 number `2 ^ (-1074)` and the next
one underflows: after 1075 coarse zoom-outs the scale is 0. -/
theorem scale_reaches_zero :
    zoomRun defaultConfig.logQuotient (List.replicate 1074 .zoomOut) 1
      = some ((2 : ℚ) ^ (-1074 : ℤ)) ∧
    zoomRun defaultConfig.logQuotient (List.replicate 1075 .zoomOut) 1 = some 0 := by
  have h1 := zoomRun_zoomOut defaultConfig.logQuotient 1074 0 (by norm_num) (by norm_num)
    (fun m _ hm => binary64LogQuotient_ceil m (by omega))
  have h1' : zoomRun defaultConfig.logQuotient (List.replicate 1074 .zoomOut) 1
      = some ((2 : ℚ) ^ (-1074 : ℤ)) := by
    rw [zpow_zero] at h1
    rw [h1]
    norm_num
  refine ⟨h1', ?_⟩
  rw [show (1075 : ℕ) = 1074 + 1 by norm_num, List.replicate_add, zoomRun_append, h1',
    Option.some_bind]
  simp only [List.replicate_one, zoomRun]
  rw [zoomOut_least, Option.some_bind]

/-- A zoom action takes a positive binary64 scale to a positive scale, the
coarse zoom-out of the least positive number apart, on a host whose quotient
of logarithms is more than the exponent of its argument minus one. -/
theorem zoomScale_pos (q : ℚ → ℚ) (hq : ∀ x : ℚ, 0 < x → (Int.log 2 x : ℚ) - 1 < q x)
    (a : ZoomAction) (s s' : ℚ) (hge : (2 : ℚ) ^ (-1074 : ℤ) ≤ s)
    (hne : ¬ (a = .zoomOut ∧ s = (2 : ℚ) ^ (-1074 : ℤ)))
    (hz : zoomScale q a s = some s') : 0 < s' := by
  have hlog : ∀ (n : ℤ) (x : ℚ), (2 : ℚ) ^ n ≤ x → (n : ℚ) - 1 < q x := by
    intro n x hx
    have hx0 : 0 < x := lt_of_lt_of_le (zpow_pos (by norm_num) _) hx
    have hn : n ≤ Int.log 2 x :=
      (Int.zpow_le_iff_le_log (R := ℚ) (b := 2) (by norm_num) hx0).mp (by push_cast; exact hx)
    have hn' : (n : ℚ) ≤ (Int.log 2 x : ℚ) := by exact_mod_cast hn
    linarith [hq x hx0]
  have hq1 : ∀ x : ℚ, (2 : ℚ) ^ (-1073 : ℤ) ≤ x → -1074 ≤ q x := by
    intro x hx
    have := hlog (-1073) x hx
    push_cast at this
    linarith
  have hq2 : ∀ x : ℚ, (2 : ℚ) ^ (-1074 : ℤ) ≤ x → -1075 < q x := by
    intro x hx
    have := hlog (-1074) x hx
    push_cast at this
    linarith
  by_cases hin : a = .zoomIn
  · exact zoomScale_coarse_pos q a s s' hq1 hq2 hge (Or.inl hin) hz
  · by_cases hout : a = .zoomOut
    · refine zoomScale_coarse_pos q a s s' hq1 hq2 hge (Or.inr ⟨hout, ?_⟩) hz
      exact fun hs => hne ⟨hout, hs⟩
    · exact zoomScale_fine_pos q a s s' hge ⟨hin, hout⟩ hz

theorem roundHalfEven_le_ceil (x : ℚ) : roundHalfEven x ≤ ⌈x⌉ := by
  unfold roundHalfEven
  simp only
  have hfc : ⌊x⌋ ≤ ⌈x⌉ := Int.floor_le_ceil x
  have hstep : ∀ _ : ¬ (x - (⌊x⌋ : ℚ) < 1 / 2), ⌊x⌋ + 1 ≤ ⌈x⌉ := by
    intro hr
    have : (⌊x⌋ : ℚ) < x := by linarith
    have := Int.lt_ceil.mpr this
    omega
  split_ifs with h1 h2 h3
  · exact hfc
  · exact hstep h1
  · exact hfc
  · exact hstep h1

/-- Rounding does not go above a binary64 power of two that bounds the
result, and it does not overflow below `2 ^ 1023`. -/
theorem roundDouble_le_two_zpow (x : ℚ) (k : ℤ) (hk1 : -1074 ≤ k) (hk2 : k ≤ 1023)
    (hx0 : 0 ≤ x) (hx : x ≤ (2 : ℚ) ^ k) :
    ∃ v, roundDouble x = some v ∧ v ≤ (2 : ℚ) ^ k := by
  rcases eq_or_lt_of_le hx0 with h0 | h0
  · exact ⟨0, by rw [← h0, roundDouble_zero], (zpow_pos (by norm_num) _).le⟩
  · have hlog : Int.log 2 x ≤ k := by
      have h1 : x < ((2 : ℕ) : ℚ) ^ (k + 1) := by
        push_cast
        exact lt_of_le_of_lt hx (zpow_lt_zpow_right₀ (by norm_num) (by omega))
      have := (Int.lt_zpow_iff_log_lt (R := ℚ) (b := 2) (by norm_num) h0).mp h1
      omega
    have he : max (Int.log 2 x - 52) (-1074) ≤ k := max_le (by omega) hk1
    have hpow : (0 : ℚ) < (2 : ℚ) ^ max (Int.log 2 x - 52) (-1074) := zpow_pos (by norm_num) _
    obtain ⟨d, hd⟩ := Int.eq_ofNat_of_zero_le (show 0 ≤ k - max (Int.log 2 x - 52) (-1074) by omega)
    have hsplit : (2 : ℚ) ^ k = (((2 : ℤ) ^ d : ℤ) : ℚ) * (2 : ℚ) ^ max (Int.log 2 x - 52) (-1074) := by
      have hk : k = (d : ℤ) + max (Int.log 2 x - 52) (-1074) := by omega
      conv_lhs => rw [hk]
      rw [zpow_add₀ (by norm_num), zpow_natCast]
      push_cast
      rfl
    have hy : x / (2 : ℚ) ^ max (Int.log 2 x - 52) (-1074) ≤ (((2 : ℤ) ^ d : ℤ) : ℚ) := by
      rw [div_le_iff₀ hpow, ← hsplit]
      exact hx
    have hr : roundHalfEven (x / (2 : ℚ) ^ max (Int.log 2 x - 52) (-1074)) ≤ (2 : ℤ) ^ d :=
      le_trans (roundHalfEven_le_ceil _) (Int.ceil_le.mpr hy)
    have hv : (roundHalfEven (x / (2 : ℚ) ^ max (Int.log 2 x - 52) (-1074)) : ℚ)
        * (2 : ℚ) ^ max (Int.log 2 x - 52) (-1074) ≤ (2 : ℚ) ^ k := by
      rw [hsplit]
      exact mul_le_mul_of_nonneg_right (by exact_mod_cast hr) hpow.le
    have hlt : (2 : ℚ) ^ k < (2 : ℚ) ^ (1024 : ℤ) := zpow_lt_zpow_right₀ (by norm_num) (by omega)
    refine ⟨_, ?_, hv⟩
    unfold roundDouble
    rw [if_neg (ne_of_gt h0)]
    simp only [abs_of_pos h0]
    rw [if_neg (not_le.mpr (lt_of_le_of_lt hv hlt)), if_neg (not_lt.mpr h0.le)]

/-- Rounding keeps a result between two binary64 powers of two. -/
theorem roundDouble_range (x : ℚ) (n m : ℤ) (hn : -1074 ≤ n) (hm : m ≤ 1023)
    (h1 : (2 : ℚ) ^ n ≤ x) (h2 : x ≤ (2 : ℚ) ^ m) :
    ∃ v, roundDouble x = some v ∧ (2 : ℚ) ^ n ≤ v ∧ v ≤ (2 : ℚ) ^ m := by
  have hx0 : 0 < x := lt_of_lt_of_le (zpow_pos (by norm_num) _) h1
  have hnm : n ≤ m := by
    by_contra hc
    have : (2 : ℚ) ^ m < (2 : ℚ) ^ n := zpow_lt_zpow_right₀ (by norm_num) (by omega)
    exact absurd (le_trans h1 h2) (not_le.mpr this)
  obtain ⟨v, hv, hle⟩ := roundDouble_le_two_zpow x m (by omega) hm hx0.le h2
  exact ⟨v, hv, roundDouble_ge_two_zpow x v n hn h1 hv, hle⟩

theorem log_range (x : ℚ) (n m : ℤ) (h1 : (2 : ℚ) ^ n ≤ x) (h2 : x ≤ (2 : ℚ) ^ m) :
    n ≤ Int.log 2 x ∧ Int.log 2 x ≤ m := by
  have hx0 : 0 < x := lt_of_lt_of_le (zpow_pos (by norm_num) _) h1
  constructor
  · exact (Int.zpow_le_iff_le_log (R := ℚ) (b := 2) (by norm_num) hx0).mp (by push_cast; exact h1)
  · have h3 : x < ((2 : ℕ) : ℚ) ^ (m + 1) := by
      push_cast
      exact lt_of_le_of_lt h2 (zpow_lt_zpow_right₀ (by norm_num) (by omega))
    have := (Int.lt_zpow_iff_log_lt (R := ℚ) (b := 2) (by norm_num) hx0).mp h3
    omega

theorem two_zpow_widen (v : ℚ) (n m n' m' : ℤ) (hn : n' ≤ n) (hm : m ≤ m')
    (h : (2 : ℚ) ^ n ≤ v ∧ v ≤ (2 : ℚ) ^ m) : (2 : ℚ) ^ n' ≤ v ∧ v ≤ (2 : ℚ) ^ m' :=
  ⟨le_trans (zpow_le_zpow_right₀ (by norm_num) hn) h.1,
   le_trans h.2 (zpow_le_zpow_right₀ (by norm_num) hm)⟩

/-- On a host whose quotient of logarithms is less than one away from the
exponent of its argument, a zoom action at a scale between `2 ^ n` and
`2 ^ m`, well inside the binary64 range, gives a number between
`2 ^ (n - 2)` and `2 ^ (m + 2)`. -/
theorem zoomScale_range (q : ℚ → ℚ)
    (hq : ∀ x : ℚ, 0 < x → (Int.log 2 x : ℚ) - 1 < q x ∧ q x < Int.log 2 x + 1)
    (a : ZoomAction) (s : ℚ) (n m : ℤ) (hn : -1070 ≤ n) (hm : m ≤ 1020)
    (h1 : (2 : ℚ) ^ n ≤ s) (h2 : s ≤ (2 : ℚ) ^ m) :
    ∃ s', zoomScale q a s = some s' ∧ (2 : ℚ) ^ (n - 2) ≤ s' ∧ s' ≤ (2 : ℚ) ^ (m + 2) := by
  have hs0 : 0 < s := lt_of_lt_of_le (zpow_pos (by norm_num) _) h1
  have hup : (2 : ℚ) ^ (m + 1) = (2 : ℚ) ^ m * 2 := zpow_add_one₀ (by norm_num) m
  have hdn : (2 : ℚ) ^ (n - 1) = (2 : ℚ) ^ n / 2 := by
    rw [zpow_sub_one₀ (by norm_num)]; ring
  have hpn : (0 : ℚ) < (2 : ℚ) ^ n := zpow_pos (by norm_num) _
  have hnm : n ≤ m := by
    by_contra hc
    have : (2 : ℚ) ^ m < (2 : ℚ) ^ n := zpow_lt_zpow_right₀ (by norm_num) (by omega)
    exact absurd (le_trans h1 h2) (not_le.mpr this)
  cases a with
  | zoomInPrecise =>
    have hx1 : (2 : ℚ) ^ n ≤ s * double12 := by
      have : (1 : ℚ) ≤ double12 := by norm_num [double12]
      nlinarith
    have hx2 : s * double12 ≤ (2 : ℚ) ^ (m + 1) := by
      have : double12 ≤ 2 := by norm_num [double12]
      rw [hup]
      nlinarith
    obtain ⟨v, hv, hb⟩ := roundDouble_range _ n (m + 1) (by omega) (by omega) hx1 hx2
    exact ⟨v, hv, two_zpow_widen v n (m + 1) _ _ (by omega) (by omega) hb⟩
  | zoomOutPrecise =>
    have hx1 : (2 : ℚ) ^ (n - 1) ≤ s * double08 := by
      have : (1 / 2 : ℚ) ≤ double08 := by norm_num [double08]
      rw [hdn]
      nlinarith
    have hx2 : s * double08 ≤ (2 : ℚ) ^ m := by
      have : double08 ≤ 1 := by norm_num [double08]
      nlinarith
    obtain ⟨v, hv, hb⟩ := roundDouble_range _ (n - 1) m (by omega) (by omega) hx1 hx2
    exact ⟨v, hv, two_zpow_widen v (n - 1) m _ _ (by omega) (by omega) hb⟩
  | wheel d =>
    have ht1 : s / 20 ≤ (2 : ℚ) ^ m := by linarith
    obtain ⟨t, ht, -⟩ := roundDouble_le_two_zpow (s / 20) m (by omega) (by omega)
      (by positivity) ht1
    obtain ⟨ht0, ht2⟩ := roundDouble_nonneg _ t (by positivity) ht
    have hlo := wheelScale_arg s d t hs0.le ht
    have hhi : s + mathSign d * t ≤ 11 / 10 * s := by
      rcases mathSign_cases d with h | h | h <;> rw [h] <;> linarith
    have hx1 : (2 : ℚ) ^ (n - 1) ≤ s + mathSign d * t := by
      rw [hdn]
      linarith
    have hx2 : s + mathSign d * t ≤ (2 : ℚ) ^ (m + 1) := by
      rw [hup]
      linarith
    obtain ⟨v, hv, hb⟩ := roundDouble_range _ (n - 1) (m + 1) (by omega) (by omega) hx1 hx2
    refine ⟨v, ?_, two_zpow_widen v (n - 1) (m + 1) _ _ (by omega) (by omega) hb⟩
    show (roundDouble (s / 20)).bind _ = some v
    rw [ht, Option.some_bind]
    exact hv
  | zoomIn =>
    have hx1 : (2 : ℚ) ^ n ≤ s * 2 := by linarith
    have hx2 : s * 2 ≤ (2 : ℚ) ^ (m + 1) := by rw [hup]; linarith
    obtain ⟨y, hy, hy1, hy2⟩ := roundDouble_range _ n (m + 1) (by omega) (by omega) hx1 hx2
    have hy0 : 0 < y := lt_of_lt_of_le hpn hy1
    obtain ⟨hl1, hl2⟩ := log_range y n (m + 1) hy1 hy2
    obtain ⟨hq1, hq2⟩ := hq y hy0
    have hf1 : n - 1 ≤ ⌊q y⌋ := by
      apply Int.le_floor.mpr
      have : (n : ℚ) ≤ (Int.log 2 y : ℚ) := by exact_mod_cast hl1
      push_cast
      linarith
    have hf2 : ⌊q y⌋ ≤ m + 2 := by
      have h3 : q y < ((m + 2 : ℤ) : ℚ) := by
        have : (Int.log 2 y : ℚ) ≤ (m : ℚ) + 1 := by exact_mod_cast hl2
        push_cast
        linarith
      exact (Int.floor_lt.mpr h3).le
    refine ⟨(2 : ℚ) ^ ⌊q y⌋, ?_, zpow_le_zpow_right₀ (by norm_num) (by omega),
      zpow_le_zpow_right₀ (by norm_num) hf2⟩
    show (roundDouble (s * 2)).bind (prevPowerOf2 q) = _
    rw [hy, Option.some_bind]
    unfold prevPowerOf2
    rw [if_pos hy0, roundDouble_two_zpow _ (by omega) (by omega)]
  | zoomOut =>
    have hx1 : (2 : ℚ) ^ (n - 1) ≤ s / 2 := by rw [hdn]; linarith
    have hx2 : s / 2 ≤ (2 : ℚ) ^ m := by linarith
    obtain ⟨y, hy, hy1, hy2⟩ := roundDouble_range _ (n - 1) m (by omega) (by omega) hx1 hx2
    have hy0 : 0 < y := lt_of_lt_of_le (zpow_pos (by norm_num) _) hy1
    obtain ⟨hl1, hl2⟩ := log_range y (n - 1) m hy1 hy2
    obtain ⟨hq1, hq2⟩ := hq y hy0
    have hc1 : n - 2 ≤ ⌈q y⌉ := by
      have h3 : ((n - 2 : ℤ) : ℚ) < q y := by
        have : ((n : ℚ) - 1) ≤ (Int.log 2 y : ℚ) := by exact_mod_cast hl1
        push_cast
        linarith
      exact (Int.lt_ceil.mpr h3).le
    have hc2 : ⌈q y⌉ ≤ m + 1 := by
      apply Int.ceil_le.mpr
      have : (Int.log 2 y : ℚ) ≤ (m : ℚ) := by exact_mod_cast hl2
      push_cast
      linarith
    refine ⟨(2 : ℚ) ^ ⌈q y⌉, ?_, zpow_le_zpow_right₀ (by norm_num) hc1,
      zpow_le_zpow_right₀ (by norm_num) (by omega)⟩
    show (roundDouble (s / 2)).bind (nextPowerOf2 q) = _
    rw [hy, Option.some_bind]
    unfold nextPowerOf2
    rw [if_pos hy0, roundDouble_two_zpow _ (by omega) (by omega)]

/-- C6 (amended). In binary64, on a host whose quotient
`Math.log(x) / Math.log(2)` is less than one away from the exponent of the
greatest power of two that is at most `x`, from the scale 1: the scale
reached by any sequence of zoom actions is never negative; every zoom action
takes a positive scale to a positive scale when it gives a finite number, the
coarse zoom-out of the least positive binary64 number `2 ^ (-1074)` apart;
and at a scale between `2 ^ (-1000)` and `2 ^ 1000` every zoom action gives
a finite, positive scale. -/
theorem scale_never_negative (q : ℚ → ℚ)
    (hq : ∀ x : ℚ, 0 < x → (Int.log 2 x : ℚ) - 1 < q x ∧ q x < Int.log 2 x + 1)
    (acts : List ZoomAction) (s : ℚ) (h : zoomRun q acts 1 = some s) :
    0 ≤ s ∧
    (∀ a s', 0 < s → ¬ (a = .zoomOut ∧ s = (2 : ℚ) ^ (-1074 : ℤ)) →
      zoomScale q a s = some s' → 0 < s') ∧
    ((2 : ℚ) ^ (-1000 : ℤ) ≤ s → s ≤ (2 : ℚ) ^ (1000 : ℤ) →
      ∀ a, ∃ s', zoomScale q a s = some s' ∧ 0 < s') := by
  have h1 : (2 : ℚ) ^ (-1074 : ℤ) ≤ 1 := by
    have := zpow_le_zpow_right₀ (a := (2 : ℚ)) (by norm_num) (show (-1074 : ℤ) ≤ 0 by norm_num)
    simpa using this
  obtain ⟨h0, hd⟩ := zoomRun_nonneg q acts 1 s zero_le_one (Or.inr h1) h
  refine ⟨h0, ?_, ?_⟩
  · intro a s' hp hne hz
    have hge : (2 : ℚ) ^ (-1074 : ℤ) ≤ s := by
      rcases hd with hz0 | hz0
      · exact absurd hz0 (ne_of_gt hp)
      · exact hz0
    exact zoomScale_pos q (fun x hx => (hq x hx).1) a s s' hge hne hz
  · intro hlo hhi a
    obtain ⟨s', hs', hb, -⟩ := zoomScale_range q hq a s (-1000) 1000 (by norm_num)
      (by norm_num) hlo hhi
    exact ⟨s', hs', lt_of_lt_of_le (zpow_pos (by norm_num) _) hb⟩

/-- Instance on the binary64 host, after one coarse zoom-out: the scale is
`2 ^ (-1)`, the next coarse zoom-out gives `2 ^ (-2)`, and the precise zoom-in
gives a positive scale. -/
theorem scale_never_negative_witness :
    (∀ x : ℚ, 0 < x → (Int.log 2 x : ℚ) - 1 < defaultConfig.logQuotient x ∧
      defaultConfig.logQuotient x < Int.log 2 x + 1) ∧
    zoomRun defaultConfig.logQuotient [.zoomOut] 1 = some ((2 : ℚ) ^ (-1 : ℤ)) ∧
    (0 : ℚ) ≤ (2 : ℚ) ^ (-1 : ℤ) ∧
    zoomScale defaultConfig.logQuotient .zoomOut ((2 : ℚ) ^ (-1 : ℤ))
      = some ((2 : ℚ) ^ (-2 : ℤ)) ∧
    (0 : ℚ) < (2 : ℚ) ^ (-2 : ℤ) ∧
    ∃ s', zoomScale defaultConfig.logQuotient .zoomInPrecise ((2 : ℚ) ^ (-1 : ℤ)) = some s' ∧
      0 < s' :=
  have hq : ∀ x : ℚ, 0 < x → (Int.log 2 x : ℚ) - 1 < defaultConfig.logQuotient x ∧
      defaultConfig.logQuotient x < Int.log 2 x + 1 := binary64LogQuotient_bounds
  have h : zoomRun defaultConfig.logQuotient [.zoomOut] 1 = some ((2 : ℚ) ^ (-1 : ℤ)) := by
    have := zoomRun_zoomOut defaultConfig.logQuotient 1 0 (by norm_num) (by norm_num)
      (fun m _ hm => binary64LogQuotient_ceil m (by omega))
    simpa using this
  have hz : zoomScale defaultConfig.logQuotient .zoomOut ((2 : ℚ) ^ (-1 : ℤ))
      = some ((2 : ℚ) ^ (-2 : ℤ)) :=
    zoomOut_two_zpow defaultConfig.logQuotient (-1) (by norm_num) (by norm_num)
      (binary64LogQuotient_ceil (-1 - 1) (by norm_num))
  have hs := scale_never_negative defaultConfig.logQuotient hq [.zoomOut] _ h
  ⟨hq, h, hs.1, hz,
    hs.2.1 .zoomOut _ (by norm_num)
      (fun hc => absurd hc.2 (by
        intro he
        have := zpow_right_injective₀ (a := (2 : ℚ)) (by norm_num) (by norm_num) he
        norm_num at this)) hz,
    hs.2.2
      (zpow_le_zpow_right₀ (by norm_num) (by norm_num))
      (zpow_le_zpow_right₀ (by norm_num) (by norm_num)) .zoomInPrecise⟩

/-- The wheel handler assigns to `scale` the value of the `wheel` action. -/
theorem svgWheel_scale (q : ℚ → ℚ) (s s' : State) (deltaY : ℚ)
    (h : svgWheel s deltaY = some s') :
    zoomScale q (.wheel deltaY) s.scale = some s'.scale := by
  unfold svgWheel at h
  show wheelScale s.scale deltaY = some s'.scale
  cases hw : wheelScale s.scale deltaY with
  | none => rw [hw] at h; cases h
  | some sc =>
    rw [hw] at h
    cases h
    unfold update
    simp only
    split_ifs <;> rfl

/-- Source `applyPanAndScale` does not write to `scale`. -/
theorem applyPanAndScale_scale (c : Config) (s s' : State)
    (h : applyPanAndScale c s = some s') : s'.scale = s.scale := by
  unfold applyPanAndScale at h
  by_cases hp : s.prevScale = 0
  · rw [if_pos hp] at h; cases h
  · rw [if_neg hp] at h
    cases h
    rfl

/-- A zoom key block assigns to `scale` the value of its action. -/
theorem zoomBlock_scale (c : Config) (key : String) (a : ZoomAction) (s s' : State)
    (hd : isDown s key = true) (h : zoomBlock c key a s = some s') :
    zoomScale c.logQuotient a s.scale = some s'.scale := by
  unfold zoomBlock at h
  rw [if_pos hd] at h
  cases hz : zoomScale c.logQuotient a s.scale with
  | none => rw [hz] at h; cases h
  | some sc =>
    rw [hz] at h
    simp only [Option.some_bind] at h
    rw [applyPanAndScale_scale c _ s' h]

/-! ## Hover snapping -/

theorem toInt32_of_nonneg (n : ℚ) (h0 : 0 ≤ n) (h1 : n < 2147483648) :
    toInt32 n = ⌊n⌋ := by
  have hf0 : 0 ≤ ⌊n⌋ := Int.floor_nonneg.mpr h0
  have hf1 : ⌊n⌋ < 2147483648 := by
    rw [Int.floor_lt]; exact_mod_cast h1
  unfold toInt32
  simp only [if_pos h0]
  rw [Int.emod_eq_of_lt hf0 (by omega)]
  rw [if_neg (by omega)]

theorem isNear_iff_of_nonneg (n : ℚ) (h0 : 0 ≤ n) (h1 : n < 2147483648) :
    isNear n = true ↔ distToInt n < 3 / 10 := by
  unfold isNear distToInt
  simp only
  rw [toInt32_of_nonneg n h0 h1, abs_sub_round_eq_min, Int.self_sub_floor]
  simp only [Bool.or_eq_true, decide_eq_true_eq, min_lt_iff]
  constructor
  · rintro (h | h)
    · exact Or.inl h
    · right; linarith
  · rintro (h | h)
    · exact Or.inl h
    · right; linarith

/-- C7 (code). At the negative coordinate `-1/2` the source `isNear` answers
true although the distance to the nearest integer is `1/2`, not below
`3/10`; the tenths `13/10` and `17/10` are excluded and the quarters `5/4`
and `7/4` are included. -/
theorem isNear_negative_half :
    isNear (-1 / 2) = true ∧ distToInt (-1 / 2) = 1 / 2 ∧
    isNear (13 / 10) = false ∧ isNear (17 / 10) = false ∧
    isNear (5 / 4) = true ∧ isNear (7 / 4) = true := by
  have hc : ⌈(-1 / 2 : ℚ)⌉ = 0 := by
    rw [Int.ceil_eq_iff]; norm_num
  refine ⟨?_, ?_, ?_, ?_, ?_, ?_⟩
  · have ht : toInt32 (-1 / 2) = 0 := by
      unfold toInt32
      rw [if_neg (show ¬ (0 : ℚ) ≤ -1 / 2 by norm_num), hc]
      norm_num
    unfold isNear
    rw [ht]
    norm_num
  · norm_num [distToInt, round_eq]
  · norm_num [isNear, toInt32]
  · norm_num [isNear, toInt32]
  · norm_num [isNear, toInt32]
  · norm_num [isNear, toInt32]

/-! ## Click handling theorems -/

theorem addLink_self (s : State) (p : Point) : addLink s p p = s := by
  simp [addLink]

theorem addLink_ne (s : State) (a b : Point) (h : a ≠ b) :
    addLink s a b =
      { s with
        links := s.links ++ [{ id := s.nextId, start := a, end_ := b,
                               d := getLink a.x a.y b.x b.y }]
        dispatched := s.dispatched ++ [.ADD_LINK a b]
        nextId := s.nextId + 1 } := by
  simp [addLink, h]

theorem leftclickDownBlock_drag (c : Config) (s : State) (h : isDown s "leftclick" = true)
    (hcase : isHold s c.KEYS.grab = true ∨ s.hoverPoint.toPoint = none) :
    leftclickDownBlock c s =
      { s with drag := some (s.mouseX, s.mouseY), grabbingClass := true } := by
  unfold leftclickDownBlock
  rw [if_pos h]
  by_cases hg : isHold s c.KEYS.grab = true
  · rw [if_pos hg]
  · rw [if_neg hg]
    rcases hcase with hc | hc
    · exact absurd hc hg
    · cases hh : s.hoverPoint with
      | undefined => rfl
      | notNear => rfl
      | point p => rw [hh] at hc; simp [Hover.toPoint] at hc

theorem leftclickDownBlock_link (c : Config) (s : State) (h : isDown s "leftclick" = true)
    (hg : isHold s c.KEYS.grab = false) (hp sp : Point)
    (hh : s.hoverPoint = .point hp) (hs : s.selectedPoint = some sp) :
    leftclickDownBlock c s = { addLink s sp hp with selectedPoint := none } := by
  simp [leftclickDownBlock, h, hg, hh, hs]

theorem leftclickDownBlock_select (c : Config) (s : State) (h : isDown s "leftclick" = true)
    (hg : isHold s c.KEYS.grab = false) (hp : Point)
    (hh : s.hoverPoint = .point hp) (hs : s.selectedPoint = none) :
    leftclickDownBlock c s = { s with selectedPoint := some hp } := by
  simp [leftclickDownBlock, h, hg, hh, hs]

/-- C8 (counterexample). Primary click down on the selected point itself:
the grab key is not held, a point is hovered and a point is selected, yet no
link is created and nothing is dispatched. -/
theorem leftclickDown_self_no_link :
    isDown stateClickSelected "leftclick" = true ∧
    isHold stateClickSelected defaultConfig.KEYS.grab = false ∧
    stateClickSelected.hoverPoint = .point pointA ∧
    stateClickSelected.selectedPoint = some pointA ∧
    (leftclickDownBlock defaultConfig stateClickSelected).links = stateClickSelected.links ∧
    (leftclickDownBlock defaultConfig stateClickSelected).dispatched
      = stateClickSelected.dispatched := by
  refine ⟨by decide, by decide, rfl, rfl, ?_, ?_⟩ <;>
    simp [leftclickDownBlock, isDown, isHold, mapGet, stateClickSelected, stateTwoPoints,
      state0, initState, defaultConfig, defaultKeys, addLink]

/-- C8 (amended). In a frame where `leftclick` is just pressed: (a) if the
grab key is held or no point is hovered, a drag starts at
`(mouseX, mouseY)` and the selection, the links and the dispatches are
unchanged; (b) otherwise, if a point is selected, the selection is cleared
and a link selected to hovered is appended and dispatched when the two
points differ, nothing being added when the hovered point is the selected
one; (c) otherwise the hovered point becomes the selected point and no link
is created. -/
theorem leftclickDown_spec (c : Config) (s : State) (h : isDown s "leftclick" = true) :
    ((isHold s c.KEYS.grab = true ∨ s.hoverPoint.toPoint = none) →
      (leftclickDownBlock c s).drag = some (s.mouseX, s.mouseY) ∧
      (leftclickDownBlock c s).selectedPoint = s.selectedPoint ∧
      (leftclickDownBlock c s).links = s.links ∧
      (leftclickDownBlock c s).dispatched = s.dispatched) ∧
    (isHold s c.KEYS.grab = false → ∀ hp, s.hoverPoint = .point hp →
      (∀ sp, s.selectedPoint = some sp →
        (leftclickDownBlock c s).selectedPoint = none ∧
        (leftclickDownBlock c s).drag = s.drag ∧
        (sp ≠ hp →
          (leftclickDownBlock c s).links = s.links ++
            [{ id := s.nextId, start := sp, end_ := hp, d := getLink sp.x sp.y hp.x hp.y }] ∧
          (leftclickDownBlock c s).dispatched = s.dispatched ++ [.ADD_LINK sp hp]) ∧
        (sp = hp →
          (leftclickDownBlock c s).links = s.links ∧
          (leftclickDownBlock c s).dispatched = s.dispatched)) ∧
      (s.selectedPoint = none →
        (leftclickDownBlock c s).selectedPoint = some hp ∧
        (leftclickDownBlock c s).drag = s.drag ∧
        (leftclickDownBlock c s).links = s.links ∧
        (leftclickDownBlock c s).dispatched = s.dispatched)) := by
  constructor
  · intro hcase
    rw [leftclickDownBlock_drag c s h hcase]
    exact ⟨rfl, rfl, rfl, rfl⟩
  · intro hg hp hh
    constructor
    · intro sp hs
      rw [leftclickDownBlock_link c s h hg hp sp hh hs]
      refine ⟨rfl, ?_, ?_, ?_⟩
      · by_cases he : sp = hp
        · subst he; rw [addLink_self]
        · rw [addLink_ne s sp hp he]
      · intro he
        rw [addLink_ne s sp hp he]
        exact ⟨rfl, rfl⟩
      · intro he
        subst he
        rw [addLink_self]
        exact ⟨rfl, rfl⟩
    · intro hs
      rw [leftclickDownBlock_select c s h hg hp hh hs]
      exact ⟨rfl, rfl, rfl, rfl⟩

/-- Instance of case (b): `pointB` selected, `pointA` clicked. -/
theorem leftclickDown_spec_witness :
    isDown stateClickOther "leftclick" = true ∧
    (leftclickDownBlock defaultConfig stateClickOther).selectedPoint = none ∧
    (leftclickDownBlock defaultConfig stateClickOther).links =
      [{ id := 2, start := pointB, end_ := pointA, d := getLink 7 5 5 5 }] ∧
    (leftclickDownBlock defaultConfig stateClickOther).dispatched =
      [.ADD_POINT pointA, .ADD_POINT pointB, .ADD_LINK pointB pointA] :=
  have h := ((leftclickDown_spec defaultConfig stateClickOther (by decide)).2
    (by decide) pointA rfl).1 pointB rfl
  ⟨by decide, h.1, by simpa [stateClickOther, stateTwoPoints, state0, initState, pointA, pointB]
      using (h.2.2.1 (by decide)).1,
    by simpa [stateClickOther, stateTwoPoints, state0, initState]
      using (h.2.2.1 (by decide)).2⟩

theorem leftclickUpBlock_long (c : Config) (s : State) (h : isUp s "leftclick" = true)
    (hd : s.drag = none) (sp : Point) (hs : s.selectedPoint = some sp)
    (hl : getHoldedDuration s "leftclick" > 300) :
    leftclickUpBlock c s =
      some { (match s.hoverPoint with
              | .point hp => addLink s sp hp
              | _ => s) with selectedPoint := none } := by
  simp [leftclickUpBlock, h, hd, hs, hl]

theorem leftclickUpBlock_idle (c : Config) (s : State) (h : isUp s "leftclick" = true)
    (hd : s.drag = none)
    (hcase : s.selectedPoint = none ∨ getHoldedDuration s "leftclick" ≤ 300) :
    leftclickUpBlock c s = some s := by
  unfold leftclickUpBlock
  rw [if_pos h, hd]
  cases hs : s.selectedPoint with
  | none => rfl
  | some sp =>
    rcases hcase with hc | hc
    · rw [hs] at hc; cases hc
    · simp only
      rw [if_neg (not_lt.mpr hc)]

/-- C9 (counterexample). Primary click up without a drag, a point selected,
the click held for 500 time units and no point hovered: the selection is
cleared, it is not left unchanged. -/
theorem leftclickUp_away_clears :
    isUp stateReleaseAway "leftclick" = true ∧
    stateReleaseAway.drag = none ∧
    stateReleaseAway.hoverPoint.toPoint = none ∧
    stateReleaseAway.selectedPoint = some pointA ∧
    getHoldedDuration stateReleaseAway "leftclick" = 500 ∧
    (leftclickUpBlock defaultConfig stateReleaseAway).map (fun s => s.selectedPoint)
      = some none := by
  refine ⟨by decide, rfl, rfl, rfl, by decide, ?_⟩
  rw [leftclickUpBlock_long defaultConfig stateReleaseAway (by decide) rfl pointA rfl
    (by decide)]
  rfl

/-- C9 (amended). Primary click up without an active drag: when a point is
selected and the click was held for more than 300 time units, the selection
is cleared, and a link selected to hovered is appended and dispatched when a
point other than the selected one is hovered, the links being unchanged when
no point or the selected point is hovered; in every other case (nothing
selected, or held 300 or less) the state is left unchanged. -/
theorem leftclickUp_spec (c : Config) (s : State) (h : isUp s "leftclick" = true)
    (hd : s.drag = none) :
    ∃ s', leftclickUpBlock c s = some s' ∧
      (∀ sp, s.selectedPoint = some sp → getHoldedDuration s "leftclick" > 300 →
        s'.selectedPoint = none ∧
        (∀ hp, s.hoverPoint = .point hp → sp ≠ hp →
          s'.links = s.links ++
            [{ id := s.nextId, start := sp, end_ := hp, d := getLink sp.x sp.y hp.x hp.y }] ∧
          s'.dispatched = s.dispatched ++ [.ADD_LINK sp hp]) ∧
        ((s.hoverPoint.toPoint = none ∨ s.hoverPoint = .point sp) →
          s'.links = s.links ∧ s'.dispatched = s.dispatched)) ∧
      ((s.selectedPoint = none ∨ getHoldedDuration s "leftclick" ≤ 300) → s' = s) := by
  by_cases hcase : s.selectedPoint = none ∨ getHoldedDuration s "leftclick" ≤ 300
  · refine ⟨s, leftclickUpBlock_idle c s h hd hcase, ?_, fun _ => rfl⟩
    intro sp hs hl
    rcases hcase with hc | hc
    · rw [hs] at hc; cases hc
    · exact absurd hl (not_lt.mpr hc)
  · rw [not_or] at hcase
    obtain ⟨hsel, hlong⟩ := hcase
    obtain ⟨sp, hs⟩ := Option.ne_none_iff_exists'.mp hsel
    have hl : getHoldedDuration s "leftclick" > 300 := not_le.mp hlong
    refine ⟨_, leftclickUpBlock_long c s h hd sp hs hl, ?_, ?_⟩
    · intro sp' hs' _
      have hsp : sp' = sp := by rw [hs] at hs'; exact (Option.some.inj hs').symm
      subst hsp
      refine ⟨rfl, ?_, ?_⟩
      · intro hp hh hne
        simp only [hh]
        rw [addLink_ne s sp' hp hne]
        exact ⟨rfl, rfl⟩
      · rintro (hn | hself)
        · cases hh : s.hoverPoint with
          | undefined => exact ⟨rfl, rfl⟩
          | notNear => exact ⟨rfl, rfl⟩
          | point p => rw [hh] at hn; simp [Hover.toPoint] at hn
        · simp only [hself]
          rw [addLink_self]
          exact ⟨rfl, rfl⟩
    · rintro (hc | hc)
      · exact absurd hc hsel
      · exact absurd hc hlong

/-- Instance of the long press released on another point. -/
theorem leftclickUp_spec_witness :
    isUp stateReleaseOther "leftclick" = true ∧ stateReleaseOther.drag = none ∧
    ∃ s', leftclickUpBlock defaultConfig stateReleaseOther = some s' ∧
      s'.selectedPoint = none ∧
      s'.links = stateReleaseOther.links ++
        [{ id := stateReleaseOther.nextId, start := pointB, end_ := pointA,
           d := getLink pointB.x pointB.y pointA.x pointA.y }] ∧
      s'.dispatched = stateReleaseOther.dispatched ++ [.ADD_LINK pointB pointA] :=
  ⟨by decide, rfl,
    match leftclickUp_spec defaultConfig stateReleaseOther (by decide) rfl with
    | ⟨s', h1, h2, _⟩ =>
      ⟨s', h1, (h2 pointB rfl (by decide)).1,
        (h2 pointB rfl (by decide)).2.1 pointA rfl (by decide)⟩⟩

/-! ## Point creation theorems -/

theorem graphGet_map_set (g : List (ℤ × Point)) (key k : ℤ) (point : Point) :
    graphGet (g.map (fun e => if e.1 = key then (key, point) else e)) k =
      if k = key then (graphGet g key).map (fun _ => point) else graphGet g k := by
  induction g with
  | nil => simp [graphGet]
  | cons e rest ih =>
    unfold graphGet at ih ⊢
    by_cases hk : k = key
    · subst hk
      simp only [if_true] at ih ⊢
      by_cases he : e.1 = k
      · simp [List.find?, he]
      · simp only [List.map_cons, if_neg he, List.find?, decide_eq_false he]
        exact ih
    · simp only [if_neg hk] at ih ⊢
      by_cases he : e.1 = key
      · have hek : ¬ e.1 = k := fun h => hk (h.symm.trans he)
        have hkk : ¬ key = k := fun h => hk h.symm
        simp only [List.map_cons, if_pos he, List.find?, decide_eq_false hkk,
          decide_eq_false hek]
        exact ih
      · by_cases hek : e.1 = k
        · simp only [List.map_cons, if_neg he, List.find?, decide_eq_true hek, Option.map_some']
        · simp only [List.map_cons, if_neg he, List.find?, decide_eq_false hek]
          exact ih

theorem graphGet_append (g : List (ℤ × Point)) (key k : ℤ) (point : Point) :
    graphGet (g ++ [(key, point)]) k =
      match graphGet g k with
      | some p => some p
      | none => if key = k then some point else none := by
  induction g with
  | nil =>
    by_cases hk : key = k <;> simp [graphGet, List.find?, hk]
  | cons e rest ih =>
    unfold graphGet at ih ⊢
    by_cases he : e.1 = k
    · simp [List.find?, he]
    · simp only [List.cons_append, List.find?, decide_eq_false he]
      exact ih

theorem graphGet_graphSet_self (g : List (ℤ × Point)) (key : ℤ) (point : Point) :
    graphGet (graphSet g key point) key = some point := by
  unfold graphSet
  cases hg : graphGet g key with
  | none => simp [graphGet_append, hg]
  | some p => simp [graphGet_map_set, hg]

theorem graphGet_graphSet_other (g : List (ℤ × Point)) (key k : ℤ) (point : Point)
    (hk : k ≠ key) : graphGet (graphSet g key point) k = graphGet g k := by
  unfold graphSet
  cases hg : graphGet g key with
  | none =>
    simp only [Option.isSome_none, Bool.false_eq_true, if_false, graphGet_append]
    cases graphGet g k with
    | none =>
      have hkk : ¬ key = k := fun h => hk h.symm
      simp [hkk]
    | some p => rfl
  | some p => simp [graphGet_map_set, hk]

theorem rightclickDownBlock_selected (c : Config) (s : State)
    (h : isDown s "rightclick" = true) (hs : s.selectedPoint ≠ none) :
    rightclickDownBlock c s = { s with selectedPoint := none } := by
  unfold rightclickDownBlock
  rw [if_pos h]
  cases hsel : s.selectedPoint with
  | none => exact absurd hsel hs
  | some sp => rfl

theorem rightclickDownBlock_free (c : Config) (s : State)
    (h : isDown s "rightclick" = true) (hs : s.selectedPoint = none) :
    rightclickDownBlock c s =
      if s.hoverPoint = .undefined then addPoint c s s.nearX s.nearY else s := by
  unfold rightclickDownBlock
  rw [if_pos h, hs]

/-- C10 (counterexample). Secondary click down with nothing selected while
the pointer is away from every cell (`hoverPoint` is `false`): no point is
hovered, yet no point is stored and nothing is dispatched. -/
theorem rightclickDown_away_creates_nothing :
    isDown stateRightAway "rightclick" = true ∧
    stateRightAway.selectedPoint = none ∧
    stateRightAway.hoverPoint.toPoint = none ∧
    graphGet stateRightAway.graph
      (stateRightAway.nearX * defaultConfig.S + stateRightAway.nearY) = none ∧
    (rightclickDownBlock defaultConfig stateRightAway).graph = [] ∧
    (rightclickDownBlock defaultConfig stateRightAway).dispatched = [] := by
  refine ⟨by decide, rfl, rfl, by decide, ?_, ?_⟩ <;>
    rw [rightclickDownBlock_free defaultConfig stateRightAway (by decide) rfl] <;>
    rw [if_neg (by decide)] <;> rfl

/-- C10 (amended). In a frame where `rightclick` is just pressed: if a point
is selected the selection is cleared and no point is created; otherwise, if
`hoverPoint` is `undefined` (the pointer is snapped to a cell that holds no
point, or no pointer move has been processed yet), exactly one new point
`{x: nearX, y: nearY, key: nearX * S + nearY, links: []}` is stored in the
graph under that key, every other key keeping its record, and `ADD_POINT` is
dispatched once with it; in the remaining cases (the pointer is not near a
cell, or a point is hovered) nothing is created or dispatched.  For `S = 21`
and cell (5, 5) the key is 110. -/
theorem rightclickDown_spec (c : Config) (s : State) (h : isDown s "rightclick" = true) :
    (s.selectedPoint ≠ none →
      (rightclickDownBlock c s).selectedPoint = none ∧
      (rightclickDownBlock c s).graph = s.graph ∧
      (rightclickDownBlock c s).dispatched = s.dispatched) ∧
    (s.selectedPoint = none → s.hoverPoint = .undefined →
      graphGet (rightclickDownBlock c s).graph (s.nearX * c.S + s.nearY) =
        some { id := s.nextId, x := s.nearX, y := s.nearY,
               key := s.nearX * c.S + s.nearY, links := [] } ∧
      (∀ k, k ≠ s.nearX * c.S + s.nearY →
        graphGet (rightclickDownBlock c s).graph k = graphGet s.graph k) ∧
      (rightclickDownBlock c s).dispatched = s.dispatched ++
        [.ADD_POINT { id := s.nextId, x := s.nearX, y := s.nearY,
                      key := s.nearX * c.S + s.nearY, links := [] }] ∧
      (rightclickDownBlock c s).selectedPoint = none) ∧
    (s.selectedPoint = none → s.hoverPoint ≠ .undefined → rightclickDownBlock c s = s) ∧
    (c.S = 21 → s.nearX = 5 → s.nearY = 5 → s.nearX * c.S + s.nearY = 110) := by
  refine ⟨?_, ?_, ?_, ?_⟩
  · intro hs
    rw [rightclickDownBlock_selected c s h hs]
    exact ⟨rfl, rfl, rfl⟩
  · intro hs hh
    rw [rightclickDownBlock_free c s h hs, if_pos hh]
    refine ⟨graphGet_graphSet_self _ _ _, ?_, rfl, hs⟩
    intro k hk
    exact graphGet_graphSet_other _ _ _ _ hk
  · intro hs hh
    rw [rightclickDownBlock_free c s h hs, if_neg hh]
  · intro h1 h2 h3
    rw [h1, h2, h3]
    rfl

/-- Instance of the creation of a point at cell (5, 5), key 110. -/
theorem rightclickDown_spec_witness :
    isDown stateRightEmpty "rightclick" = true ∧
    graphGet (rightclickDownBlock defaultConfig stateRightEmpty).graph 110 =
      some { id := 0, x := 5, y := 5, key := 110, links := [] } ∧
    (rightclickDownBlock defaultConfig stateRightEmpty).dispatched =
      [.ADD_POINT { id := 0, x := 5, y := 5, key := 110, links := [] }] :=
  have h := (rightclickDown_spec defaultConfig stateRightEmpty (by decide)).2.1 rfl rfl
  ⟨by decide, h.1, h.2.2.1⟩

/-! ## Following a frame block by block -/

theorem handle_core (s : State) (e : String) : (handle s e).2.core = s.core := by
  unfold handle
  split_ifs <;> rfl

theorem drawSelection_core (s : State) : (drawSelection s).core = s.core := by
  unfold drawSelection
  cases s.selectedPoint <;> cases s.hoverPoint <;> rfl

theorem applyPanAndScale_core (c : Config) (s s' : State)
    (h : applyPanAndScale c s = some s') : s'.core = s.core := by
  unfold applyPanAndScale at h
  by_cases hp : s.prevScale = 0
  · rw [if_pos hp] at h; cases h
  · rw [if_neg hp] at h
    cases h
    rfl

theorem resizeBlock_core (c : Config) (rect : Rect) (s s' : State)
    (h : resizeBlock c rect s = some s') : s'.core = s.core := by
  unfold resizeBlock at h
  simp only at h
  have h1 := handle_core s "resize"
  have h2 := handle_core (handle s "resize").2 "init"
  split_ifs at h with ha hb
  · obtain ⟨s1, hs1, rfl⟩ := Option.map_eq_some'.mp h
    rw [drawSelection_core, applyPanAndScale_core c _ s1 hs1]
    exact h1
  · obtain ⟨s1, hs1, rfl⟩ := Option.map_eq_some'.mp h
    rw [drawSelection_core, applyPanAndScale_core c _ s1 hs1]
    exact h2.trans h1
  · cases h; exact h2.trans h1

theorem zoomBlock_core (c : Config) (key : String) (a : ZoomAction) (s s' : State)
    (h : zoomBlock c key a s = some s') : s'.core = s.core := by
  unfold zoomBlock at h
  split_ifs at h
  · obtain ⟨sc, -, hs⟩ := Option.bind_eq_some.mp h
    rw [applyPanAndScale_core c _ s' hs]
    rfl
  · cases h; rfl

theorem grabBlock_core (c : Config) (s : State) : (grabBlock c s).core = s.core := by
  unfold grabBlock
  simp only
  split_ifs <;> rfl

theorem unselectBlock_core (c : Config) (s : State) : (unselectBlock c s).core = s.core := by
  unfold unselectBlock
  split_ifs
  · rw [drawSelection_core]; rfl
  · rfl

theorem mousemoveBlock_core (c : Config) (s s' : State)
    (h : mousemoveBlock c s = some s') : s'.core = s.core := by
  unfold mousemoveBlock at h
  simp only at h
  have h1 := handle_core s "mousemove"
  by_cases ha : (handle s "mousemove").1 = true
  · rw [if_pos ha] at h
    split at h
    · rw [applyPanAndScale_core c _ s' h]; exact h1
    · by_cases hz : (handle s "mousemove").2.bounding.width = 0 ∨
          (handle s "mousemove").2.bounding.height = 0 ∨ (handle s "mousemove").2.scale = 0
      · rw [if_pos hz] at h; cases h
      · rw [if_neg hz] at h
        cases h
        rw [drawSelection_core]
        exact h1
  · rw [if_neg ha] at h
    cases h
    exact h1

theorem executeUpdate_chain (c : Config) (rect : Rect) (clock : ℤ) (s s' : State)
    (h : executeUpdate c rect clock s = some s') :
    ∃ a b d : State, a.core = (blurBlock s).core ∧
      leftclickUpBlock c (leftclickDownBlock c a) = some b ∧
      d.core = (rightclickDownBlock c b).core ∧
      s' = rearmBlock clock (purgeBlock d) := by
  unfold executeUpdate at h
  simp only [Option.bind_eq_bind, Option.bind_eq_some] at h
  obtain ⟨s2, h2, s3, h3, s4, h4, s5, h5, s6, h6, s10, h10, s12, h12, hs⟩ := h
  refine ⟨unselectBlock c (grabBlock c s6), s10, s12, ?_, h10, mousemoveBlock_core c _ _ h12,
    (Option.some.inj hs).symm⟩
  rw [unselectBlock_core, grabBlock_core, zoomBlock_core c _ _ _ _ h6,
    zoomBlock_core c _ _ _ _ h5, zoomBlock_core c _ _ _ _ h4, zoomBlock_core c _ _ _ _ h3,
    resizeBlock_core c _ _ _ h2]

theorem inputs_of_core (s s' : State) (h : s'.core = s.core) : s'.inputs = s.inputs := by
  simp only [State.core, Prod.mk.injEq] at h
  simp only [State.inputs, Prod.mk.injEq]
  exact ⟨h.1, h.2.1, h.2.2.1, h.2.2.2.1, h.2.2.2.2.1⟩

theorem addLink_inputs (s : State) (a b : Point) : (addLink s a b).inputs = s.inputs := by
  unfold addLink
  split_ifs <;> rfl

theorem leftclickDownBlock_inputs (c : Config) (s : State) :
    (leftclickDownBlock c s).inputs = s.inputs := by
  unfold leftclickDownBlock
  split_ifs
  · rfl
  · cases s.hoverPoint with
    | undefined => rfl
    | notNear => rfl
    | point hp =>
      cases s.selectedPoint with
      | none => rfl
      | some sp => exact addLink_inputs s sp hp
  · rfl

theorem leftclickUpBlock_inputs (c : Config) (s s' : State)
    (h : leftclickUpBlock c s = some s') : s'.inputs = s.inputs := by
  unfold leftclickUpBlock at h
  by_cases hu : isUp s "leftclick" = true
  · rw [if_pos hu] at h
    split at h
    · split_ifs at h
      cases h; rfl
    · split at h
      · split_ifs at h
        · cases h
          cases s.hoverPoint with
          | undefined => rfl
          | notNear => rfl
          | point hp => exact addLink_inputs s _ hp
        · cases h; rfl
      · cases h; rfl
  · rw [if_neg hu] at h
    cases h; rfl

theorem rightclickDownBlock_idle (c : Config) (s : State)
    (h : ¬ isDown s "rightclick" = true) : rightclickDownBlock c s = s := by
  unfold rightclickDownBlock
  rw [if_neg h]

theorem rightclickDownBlock_inputs (c : Config) (s : State) :
    (rightclickDownBlock c s).inputs = s.inputs := by
  by_cases h : isDown s "rightclick" = true
  · by_cases hs : s.selectedPoint = none
    · rw [rightclickDownBlock_free c s h hs]
      split_ifs <;> rfl
    · rw [rightclickDownBlock_selected c s h hs]
      rfl
  · rw [rightclickDownBlock_idle c s h]

theorem mem_foldl_setAdd (m : List (String × ℤ)) :
    ∀ (up : List String) (name : String),
      name ∈ m.foldl (fun up e => setAdd up e.1) up ↔ name ∈ up ∨ ∃ e ∈ m, e.1 = name := by
  induction m with
  | nil => intro up name; simp
  | cons e rest ih =>
    intro up name
    rw [List.foldl_cons, ih]
    have hset : name ∈ setAdd up e.1 ↔ name ∈ up ∨ e.1 = name := by
      unfold setAdd
      split_ifs with hm
      · constructor
        · exact Or.inl
        · rintro (h | h)
          · exact h
          · rw [← h]; exact hm
      · simp [eq_comm]
    rw [hset]
    simp only [List.mem_cons, exists_eq_or_imp]
    tauto

theorem mapGet_isSome_iff (m : List (String × ℤ)) (name : String) :
    (mapGet m name).isSome = true ↔ ∃ e ∈ m, e.1 = name := by
  unfold mapGet
  rw [Option.isSome_map', List.find?_isSome]
  simp

theorem mapGet_filter (m : List (String × ℤ)) (up : List String) (name : String) :
    mapGet (m.filter (fun e => decide (e.1 ∉ up))) name =
      if name ∈ up then none else mapGet m name := by
  induction m with
  | nil => simp [mapGet]
  | cons e rest ih =>
    unfold mapGet at ih ⊢
    by_cases he : e.1 ∈ up
    · rw [List.filter_cons_of_neg (by simpa using he), ih]
      by_cases hn : name ∈ up
      · simp [hn]
      · have hne : ¬ e.1 = name := fun h => hn (h ▸ he)
        simp [hn, List.find?, hne]
    · rw [List.filter_cons_of_pos (by simpa using he)]
      by_cases hen : e.1 = name
      · have hn : name ∉ up := fun h => he (hen ▸ h)
        simp [List.find?, hen, hn]
      · simp only [List.find?, decide_eq_false hen]
        exact ih

theorem blurBlock_fields (s : State) :
    (blurBlock s).inputsDown = s.inputsDown ∧ (blurBlock s).queued = s.queued ∧
    (blurBlock s).updateRequested = s.updateRequested ∧ (blurBlock s).now = s.now ∧
    (blurBlock s).graph = s.graph ∧ (blurBlock s).links = s.links ∧
    (blurBlock s).dispatched = s.dispatched ∧ (blurBlock s).drag = s.drag ∧
    (blurBlock s).nextId = s.nextId := by
  unfold blurBlock handle
  simp only
  split_ifs <;> exact ⟨rfl, rfl, rfl, rfl, rfl, rfl, rfl, rfl, rfl⟩

theorem blurBlock_inputsUp (s : State) (name : String) :
    name ∈ (blurBlock s).inputsUp ↔
      name ∈ s.inputsUp ∨ ("blur" ∈ s.events ∧ (mapGet s.inputsDown name).isSome = true) := by
  unfold blurBlock handle
  simp only
  by_cases hb : "blur" ∈ s.events
  · simp only [if_pos hb, if_true, mem_foldl_setAdd, mapGet_isSome_iff, hb, true_and]
  · simp [if_neg hb, hb]

theorem executeUpdate_before_purge (c : Config) (rect : Rect) (clock : ℤ) (s s' : State)
    (h : executeUpdate c rect clock s = some s') :
    ∃ d : State, s' = rearmBlock clock (purgeBlock d) ∧
      d.inputsUp = (blurBlock s).inputsUp ∧ d.inputsDown = s.inputsDown ∧
      d.queued = s.queued := by
  obtain ⟨a, b, d, ha, hb, hd, hs⟩ := executeUpdate_chain c rect clock s s' h
  refine ⟨d, hs, ?_⟩
  have h1 : d.inputs = (blurBlock s).inputs := by
    rw [inputs_of_core _ _ hd, rightclickDownBlock_inputs, leftclickUpBlock_inputs c _ b hb,
      leftclickDownBlock_inputs, inputs_of_core _ _ ha]
  simp only [State.inputs, Prod.mk.injEq] at h1
  obtain ⟨hb1, hb2, hb3, -⟩ := blurBlock_fields s
  exact ⟨h1.1, h1.2.1.trans hb1, h1.2.2.1.trans hb2⟩

theorem rearmBlock_fields (clock : ℤ) (s : State) :
    (rearmBlock clock s).inputsUp = s.inputsUp ∧
    (rearmBlock clock s).inputsDown = s.inputsDown ∧
    (rearmBlock clock s).now = clock ∧
    (rearmBlock clock s).updateRequested = !s.inputsDown.isEmpty ∧
    (rearmBlock clock s).queued = s.queued + (if s.inputsDown.isEmpty = true then 0 else 1) ∧
    (rearmBlock clock s).graph = s.graph ∧ (rearmBlock clock s).links = s.links ∧
    (rearmBlock clock s).dispatched = s.dispatched ∧ (rearmBlock clock s).drag = s.drag := by
  unfold rearmBlock
  by_cases he : s.inputsDown.isEmpty = true
  · rw [if_pos he, if_pos he, he]
    exact ⟨rfl, rfl, rfl, rfl, rfl, rfl, rfl, rfl, rfl⟩
  · rw [if_neg he, if_neg he]
    rw [Bool.not_eq_true] at he
    rw [he]
    exact ⟨rfl, rfl, rfl, rfl, rfl, rfl, rfl, rfl, rfl⟩

theorem executeUpdate_inputs (c : Config) (rect : Rect) (clock : ℤ) (s s' : State)
    (h : executeUpdate c rect clock s = some s') :
    s'.inputsUp = [] ∧
    s'.inputsDown = s.inputsDown.filter (fun e => decide (e.1 ∉ (blurBlock s).inputsUp)) ∧
    s'.now = clock ∧
    s'.updateRequested = !s'.inputsDown.isEmpty ∧
    s'.queued = s.queued + (if s'.inputsDown.isEmpty = true then 0 else 1) := by
  obtain ⟨d, hs, h1, h2, h3⟩ := executeUpdate_before_purge c rect clock s s' h
  obtain ⟨r1, r2, r3, r4, r5, -⟩ := rearmBlock_fields clock (purgeBlock d)
  have hd : (purgeBlock d).inputsDown =
      s.inputsDown.filter (fun e => decide (e.1 ∉ (blurBlock s).inputsUp)) := by
    unfold purgeBlock
    simp only [h1, h2]
  have hq : (purgeBlock d).queued = s.queued := h3
  rw [← hs] at r1 r2 r3 r4 r5
  have hi : s'.inputsDown =
      s.inputsDown.filter (fun e => decide (e.1 ∉ (blurBlock s).inputsUp)) := r2.trans hd
  rw [← r2] at r4 r5
  rw [hq] at r5
  exact ⟨r1, hi, r3, r4, r5⟩

/-! ## Links and coarse zoom -/

/-- C12. Self-link rejection: `addLink s p p` leaves the state, hence the
links and the dispatches, unchanged; for two distinct points it appends
exactly one link from `start` to `end_` and one `ADD_LINK` dispatch. -/
theorem addLink_spec (s : State) :
    (∀ p : Point, addLink s p p = s) ∧
    (∀ start end_ : Point, start ≠ end_ →
      (addLink s start end_).links = s.links ++
        [{ id := s.nextId, start := start, end_ := end_,
           d := getLink start.x start.y end_.x end_.y }] ∧
      (addLink s start end_).dispatched = s.dispatched ++ [.ADD_LINK start end_]) := by
  constructor
  · intro p
    unfold addLink
    rw [if_pos rfl]
  · intro start end_ hne
    unfold addLink
    rw [if_neg hne]
    exact ⟨rfl, rfl⟩

/-- Instance of the link creation between `pointA` and `pointB`. -/
theorem addLink_spec_witness :
    pointA ≠ pointB ∧
    (addLink stateTwoPoints pointA pointB).links =
      [{ id := 2, start := pointA, end_ := pointB, d := getLink 5 5 7 5 }] ∧
    (addLink stateTwoPoints pointA pointB).dispatched =
      [.ADD_POINT pointA, .ADD_POINT pointB, .ADD_LINK pointA pointB] :=
  have h := (addLink_spec stateTwoPoints).2 pointA pointB (by decide)
  ⟨by decide, by simpa [stateTwoPoints, state0, initState, pointA, pointB] using h.1,
    by simpa [stateTwoPoints, state0, initState] using h.2⟩

/-! ## Coarse zoom and the end-of-frame purge -/

/-- C18 (code). On the binary64 host, where `Math.log(2 ** 29) / Math.log(2)`
is `29.000000000000004`, thirty coarse zoom-ins take the scale from 1 to
`2 ^ 30` and the coarse zoom-out then leaves it at `2 ^ 30`, which is not
less than the scale; from the power of two `2 ^ 29` the zoom-in followed by
the zoom-out gives `2 ^ 30`; and the coarse zoom-in leaves the scale
`2 ^ (-30)` where it is. -/
theorem coarse_zoom_stuck :
    zoomRun defaultConfig.logQuotient (List.replicate 30 .zoomIn) 1
      = some ((2 : ℚ) ^ (30 : ℤ)) ∧
    zoomScale defaultConfig.logQuotient .zoomOut ((2 : ℚ) ^ (30 : ℤ))
      = some ((2 : ℚ) ^ (30 : ℤ)) ∧
    (zoomScale defaultConfig.logQuotient .zoomIn ((2 : ℚ) ^ (29 : ℤ))).bind
      (zoomScale defaultConfig.logQuotient .zoomOut) = some ((2 : ℚ) ^ (30 : ℤ)) ∧
    zoomScale defaultConfig.logQuotient .zoomIn ((2 : ℚ) ^ (-30 : ℤ))
      = some ((2 : ℚ) ^ (-30 : ℤ)) := by
  have hin := zoomRun_zoomIn defaultConfig.logQuotient 30 0 (by norm_num) (by norm_num)
    (fun m hm _ => binary64LogQuotient_floor m (by omega))
  have hout : zoomScale defaultConfig.logQuotient .zoomOut ((2 : ℚ) ^ (30 : ℤ))
      = some ((2 : ℚ) ^ (30 : ℤ)) := by
    have hhalf : (2 : ℚ) ^ (30 : ℤ) / 2 = (2 : ℚ) ^ (29 : ℤ) := by norm_num
    unfold zoomScale
    simp only
    rw [hhalf, roundDouble_two_zpow 29 (by norm_num) (by norm_num), Option.some_bind]
    unfold nextPowerOf2
    rw [if_pos (zpow_pos (by norm_num) _)]
    show roundDouble ((2 : ℚ) ^ ⌈binary64LogQuotient ((2 : ℚ) ^ (29 : ℤ))⌉) = _
    rw [binary64LogQuotient_ceil_29, roundDouble_two_zpow 30 (by norm_num) (by norm_num)]
  refine ⟨?_, hout, ?_, ?_⟩
  · rw [zpow_zero] at hin
    rw [hin]
    norm_num
  · have h29 := zoomIn_two_zpow defaultConfig.logQuotient 29 (by norm_num) (by norm_num)
      (binary64LogQuotient_floor 30 (by norm_num))
    rw [h29, Option.some_bind]
    exact hout
  · have hdbl : (2 : ℚ) ^ (-30 : ℤ) * 2 = (2 : ℚ) ^ (-29 : ℤ) := by norm_num
    unfold zoomScale
    simp only
    rw [hdbl, roundDouble_two_zpow (-29) (by norm_num) (by norm_num), Option.some_bind]
    unfold prevPowerOf2
    rw [if_pos (zpow_pos (by norm_num) _)]
    show roundDouble ((2 : ℚ) ^ ⌊binary64LogQuotient ((2 : ℚ) ^ (-29 : ℤ))⌋) = _
    rw [binary64LogQuotient_floor_neg_29, roundDouble_two_zpow (-30) (by norm_num) (by norm_num)]

theorem filter_setAdd_absent (m : List (String × ℤ)) (up : List String) (name : String)
    (h : mapGet m name = none) :
    m.filter (fun e => decide (e.1 ∉ setAdd up name)) =
      m.filter (fun e => decide (e.1 ∉ up)) := by
  apply List.filter_congr
  intro e he
  have hne : e.1 ≠ name := by
    intro heq
    have : (mapGet m name).isSome = true := (mapGet_isSome_iff m name).mpr ⟨e, he, heq⟩
    rw [h] at this
    cases this
  have hm : e.1 ∈ setAdd up name ↔ e.1 ∈ up := by
    unfold setAdd
    split_ifs
    · rfl
    · simp [hne]
  simp only [hm]

/-- C15. End-of-frame purge: after every frame the released set is empty, so
`isUp` answers false for every name until it is released again; a name of the
down map is removed exactly when it was marked released (by a release event
or by the blur block of the frame) and otherwise keeps its time stamp; and
marking released a name that is not in the down map does not change what the
purge leaves in the down map. -/
theorem frame_purge (c : Config) (rect : Rect) (clock : ℤ) (s s' : State)
    (h : executeUpdate c rect clock s = some s') :
    s'.inputsUp = [] ∧ (∀ name, isUp s' name = false) ∧
    s'.inputsDown = s.inputsDown.filter (fun e => decide (e.1 ∉ (blurBlock s).inputsUp)) ∧
    (∀ name, name ∈ (blurBlock s).inputsUp → mapGet s'.inputsDown name = none) ∧
    (∀ name, name ∉ (blurBlock s).inputsUp →
      mapGet s'.inputsDown name = mapGet s.inputsDown name) ∧
    ("blur" ∉ s.events → (blurBlock s).inputsUp = s.inputsUp) ∧
    (∀ key, mapGet s.inputsDown key = none →
      (windowKeyup s key).inputsDown = s.inputsDown ∧
      s.inputsDown.filter (fun e => decide (e.1 ∉ (windowKeyup s key).inputsUp)) =
        s.inputsDown.filter (fun e => decide (e.1 ∉ s.inputsUp))) := by
  obtain ⟨h1, h2, -⟩ := executeUpdate_inputs c rect clock s s' h
  refine ⟨h1, ?_, h2, ?_, ?_, ?_, ?_⟩
  · intro name
    simp [isUp, h1]
  · intro name hn
    rw [h2, mapGet_filter, if_pos hn]
  · intro name hn
    rw [h2, mapGet_filter, if_neg hn]
  · intro hb
    unfold blurBlock handle
    simp [hb]
  · intro key hk
    exact ⟨rfl, filter_setAdd_absent s.inputsDown s.inputsUp key hk⟩

/-! ## Scheduling and focus loss -/

theorem reachable_induction (c : Config) (P : State → Prop)
    (hinit : ∀ rect clock, P (initState c rect clock))
    (hhost : ∀ s s' ev clock, P s → hostEvent s ev clock = some s' → P s')
    (hframe : ∀ s s' rect clock, P s → runFrame c rect clock s = some s' → P s') :
    ∀ s, Reachable c s → P s := by
  rintro s ⟨rect, clock, hs⟩
  induction hs with
  | refl => exact hinit rect clock
  | tail s' s'' _ hstep ih =>
    cases hstep with
    | host ev clk he => exact hhost _ _ ev clk ih he
    | frame r clk hf => exact hframe _ _ r clk ih hf

theorem update_fields (s : State) (e : String) :
    (update s e).inputsUp = s.inputsUp ∧ (update s e).inputsDown = s.inputsDown ∧
    (update s e).now = s.now ∧ (update s e).graph = s.graph ∧
    (update s e).links = s.links ∧ (update s e).dispatched = s.dispatched ∧
    (update s e).drag = s.drag ∧ (update s e).mouseX = s.mouseX ∧
    (update s e).mouseY = s.mouseY ∧ (update s e).updateRequested = true ∧
    (update s e).queued = if s.updateRequested = true then s.queued else s.queued + 1 := by
  unfold update
  simp only
  split_ifs with h
  · exact ⟨rfl, rfl, rfl, rfl, rfl, rfl, rfl, rfl, rfl, h, rfl⟩
  · exact ⟨rfl, rfl, rfl, rfl, rfl, rfl, rfl, rfl, rfl, rfl, rfl⟩

theorem update_scheduled (s : State) (e : String) (q : ℕ) (u : Bool)
    (hq : s.queued = q) (hu : s.updateRequested = u) (h : q = if u = true then 1 else 0) :
    Scheduled (update s e) := by
  obtain ⟨-, -, -, -, -, -, -, -, -, h1, h2⟩ := update_fields s e
  unfold Scheduled
  rw [h1, h2, hq, hu, h]
  cases u <;> simp

/-- The wheel listener returns the state in which `scale` holds the value of
the wheel action and a frame is requested. -/
theorem svgWheel_eq (s s' : State) (deltaY : ℚ) (h : svgWheel s deltaY = some s') :
    ∃ sc, wheelScale s.scale deltaY = some sc ∧ s' = update { s with scale := sc } "resize" := by
  unfold svgWheel at h
  cases hw : wheelScale s.scale deltaY with
  | none => rw [hw] at h; cases h
  | some sc =>
    rw [hw] at h
    cases h
    exact ⟨sc, rfl, rfl⟩

theorem hostEvent_scheduled (s s' : State) (ev : HostEvent) (clock : ℤ) (h : Scheduled s)
    (he : hostEvent s ev clock = some s') : Scheduled s' := by
  unfold Scheduled at h
  cases ev with
  | wheel d =>
    obtain ⟨sc, -, rfl⟩ := svgWheel_eq s s' d he
    exact update_scheduled _ _ _ _ rfl rfl h
  | mousemove e => cases he; exact update_scheduled _ _ _ _ rfl rfl h
  | blur => cases he; exact update_scheduled _ _ _ _ rfl rfl h
  | resize => cases he; exact update_scheduled _ _ _ _ rfl rfl h
  | keyup key => cases he; exact h
  | keydown key =>
    cases he
    show Scheduled (windowKeydown s key clock)
    unfold windowKeydown
    split_ifs
    · exact h
    · exact update_scheduled _ _ _ _ rfl rfl h
  | mouseup e =>
    cases he
    show Scheduled (svgMouseup s e)
    unfold svgMouseup
    cases e.clickName <;> exact update_scheduled _ _ _ _ rfl rfl h
  | mousedown e =>
    cases he
    show Scheduled (svgMousedown s e clock)
    unfold svgMousedown
    cases e.clickName <;> exact update_scheduled _ _ _ _ rfl rfl h

theorem runFrame_eq (c : Config) (rect : Rect) (clock : ℤ) (s s' : State)
    (h : runFrame c rect clock s = some s') :
    s.queued ≠ 0 ∧ executeUpdate c rect clock { s with queued := s.queued - 1 } = some s' := by
  unfold runFrame at h
  by_cases hq : s.queued = 0
  · rw [if_pos hq] at h; cases h
  · rw [if_neg hq] at h; exact ⟨hq, h⟩

theorem runFrame_scheduled (c : Config) (rect : Rect) (clock : ℤ) (s s' : State)
    (h : Scheduled s) (hf : runFrame c rect clock s = some s') :
    Scheduled s' ∧ s.queued = 1 := by
  obtain ⟨hq, he⟩ := runFrame_eq c rect clock s s' hf
  obtain ⟨-, -, -, h4, h5⟩ := executeUpdate_inputs c rect clock _ s' he
  unfold Scheduled at h
  have h1 : s.queued = 1 := by
    split_ifs at h
    · exact h
    · exact absurd h hq
  refine ⟨?_, h1⟩
  unfold Scheduled
  rw [h4, h5]
  show s.queued - 1 + _ = _
  rw [h1]
  cases s'.inputsDown.isEmpty <;> simp

theorem reachable_scheduled (c : Config) (s : State) (h : Reachable c s) : Scheduled s :=
  reachable_induction c Scheduled (fun _ _ => rfl)
    (fun s s' ev clock hs he => hostEvent_scheduled s s' ev clock hs he)
    (fun s s' rect clock hs hf => (runFrame_scheduled c rect clock s s' hs hf).1) s h

theorem reachable_host (c : Config) (s s' : State) (ev : HostEvent) (clock : ℤ)
    (h : Reachable c s) (he : hostEvent s ev clock = some s') : Reachable c s' := by
  obtain ⟨rect, clk, hs⟩ := h
  exact ⟨rect, clk, Steps.tail _ _ _ hs (Step.host s s' ev clock he)⟩

theorem reachable_frame (c : Config) (s s' : State) (rect : Rect) (clock : ℤ)
    (h : Reachable c s) (hf : runFrame c rect clock s = some s') : Reachable c s' := by
  obtain ⟨r, clk, hs⟩ := h
  exact ⟨r, clk, Steps.tail _ _ _ hs (Step.frame s s' rect clock hf)⟩

theorem reachable_moves (c : Config) (evs : List MouseEvent) :
    ∀ s, Reachable c s → Reachable c (evs.foldl windowMousemove s) := by
  induction evs with
  | nil => intro s h; exact h
  | cons e rest ih =>
    intro s h
    exact ih _ (reachable_host c s _ (.mousemove e) 0 h rfl)

theorem moves_inputsDown (evs : List MouseEvent) :
    ∀ s, (evs.foldl windowMousemove s).inputsDown = s.inputsDown := by
  induction evs with
  | nil => intro s; rfl
  | cons e rest ih =>
    intro s
    rw [List.foldl_cons, ih]
    exact (update_fields _ _).2.1

/-- C16. Single pending frame: in every reachable state at most one frame
execution is queued; after any number of pointer-move events exactly one
frame execution is queued, the recorded pointer position is that of the last
event, and when no name is held that one frame leaves nothing queued. -/
theorem single_pending_frame (c : Config) (s : State) (h : Reachable c s) :
    s.queued ≤ 1 ∧
    ∀ (evs : List MouseEvent) (e : MouseEvent),
      ((evs ++ [e]).foldl windowMousemove s).queued = 1 ∧
      ((evs ++ [e]).foldl windowMousemove s).mouseX = (if e.x ≠ 0 then e.x else e.clientX) ∧
      ((evs ++ [e]).foldl windowMousemove s).mouseY = (if e.y ≠ 0 then e.y else e.clientY) ∧
      (s.inputsDown = [] → ∀ rect clock s',
        runFrame c rect clock ((evs ++ [e]).foldl windowMousemove s) = some s' →
        s'.queued = 0) := by
  constructor
  · have hs := reachable_scheduled c s h
    unfold Scheduled at hs
    rw [hs]
    split_ifs <;> omega
  · intro evs e
    have hr : Reachable c ((evs ++ [e]).foldl windowMousemove s) := reachable_moves c _ s h
    have hsched := reachable_scheduled c _ hr
    have hlast : (evs ++ [e]).foldl windowMousemove s
        = windowMousemove (evs.foldl windowMousemove s) e := by
      rw [List.foldl_append]; rfl
    have hf := update_fields (setMouse (evs.foldl windowMousemove s) e) "mousemove"
    have hw : windowMousemove (evs.foldl windowMousemove s) e
        = update (setMouse (evs.foldl windowMousemove s) e) "mousemove" := rfl
    have hq : ((evs ++ [e]).foldl windowMousemove s).queued = 1 := by
      unfold Scheduled at hsched
      rw [hsched, hlast, hw, hf.2.2.2.2.2.2.2.2.2.1]
      rfl
    refine ⟨hq, ?_, ?_, ?_⟩
    · rw [hlast, hw, hf.2.2.2.2.2.2.2.1]; rfl
    · rw [hlast, hw, hf.2.2.2.2.2.2.2.2.1]; rfl
    · intro hd rect clock s' hfr
      obtain ⟨-, he⟩ := runFrame_eq c rect clock _ s' hfr
      obtain ⟨-, h2, -, -, h5⟩ := executeUpdate_inputs c rect clock _ s' he
      have hdown : s'.inputsDown = [] := by
        rw [h2]
        show List.filter _ ((evs ++ [e]).foldl windowMousemove s).inputsDown = []
        rw [moves_inputsDown, hd]
        rfl
      rw [h5, hdown]
      show ((evs ++ [e]).foldl windowMousemove s).queued - 1 + _ = 0
      rw [hq]
      rfl

theorem core_fields (s s' : State) (h : s'.core = s.core) :
    s'.inputsUp = s.inputsUp ∧ s'.inputsDown = s.inputsDown ∧ s'.queued = s.queued ∧
    s'.updateRequested = s.updateRequested ∧ s'.now = s.now ∧ s'.graph = s.graph ∧
    s'.links = s.links ∧ s'.dispatched = s.dispatched ∧ s'.drag = s.drag ∧
    s'.nextId = s.nextId := by
  simp only [State.core, Prod.mk.injEq] at h
  exact h

theorem addLink_fields (s : State) (a b : Point) :
    (addLink s a b).drag = s.drag ∧ (addLink s a b).graph = s.graph := by
  unfold addLink
  split_ifs <;> exact ⟨rfl, rfl⟩

theorem leftclickDownBlock_idle (c : Config) (s : State)
    (h : ¬ isDown s "leftclick" = true) : leftclickDownBlock c s = s := by
  unfold leftclickDownBlock
  rw [if_neg h]

theorem leftclickDownBlock_drag_some (c : Config) (s : State)
    (h : (leftclickDownBlock c s).drag.isSome = true) :
    s.drag.isSome = true ∨ isDown s "leftclick" = true := by
  by_cases hd : isDown s "leftclick" = true
  · exact Or.inr hd
  · rw [leftclickDownBlock_idle c s hd] at h
    exact Or.inl h

theorem leftclickUpBlock_idle' (c : Config) (s : State)
    (h : ¬ isUp s "leftclick" = true) : leftclickUpBlock c s = some s := by
  unfold leftclickUpBlock
  rw [if_neg h]

theorem leftclickUpBlock_drag_none (c : Config) (s s' : State)
    (h : leftclickUpBlock c s = some s') (hu : isUp s "leftclick" = true) :
    s'.drag = none := by
  unfold leftclickUpBlock at h
  rw [if_pos hu] at h
  split at h
  · split_ifs at h
    cases h; rfl
  · rename_i hdrag
    split at h
    · split_ifs at h
      · cases h
        show (match s.hoverPoint with
          | .point hp => addLink s _ hp
          | _ => s).drag = none
        cases s.hoverPoint with
        | undefined => exact hdrag
        | notNear => exact hdrag
        | point hp => exact (addLink_fields s _ hp).1.trans hdrag
      · cases h; exact hdrag
    · cases h; exact hdrag

theorem leftclickUpBlock_drag_some (c : Config) (s s' : State)
    (h : leftclickUpBlock c s = some s') (hd : s'.drag.isSome = true) :
    ¬ isUp s "leftclick" = true ∧ s.drag.isSome = true := by
  by_cases hu : isUp s "leftclick" = true
  · rw [leftclickUpBlock_drag_none c s s' h hu] at hd
    cases hd
  · rw [leftclickUpBlock_idle' c s hu] at h
    cases h
    exact ⟨hu, hd⟩

theorem rightclickDownBlock_drag (c : Config) (s : State) :
    (rightclickDownBlock c s).drag = s.drag := by
  by_cases h : isDown s "rightclick" = true
  · by_cases hs : s.selectedPoint = none
    · rw [rightclickDownBlock_free c s h hs]
      split_ifs <;> rfl
    · rw [rightclickDownBlock_selected c s h hs]
  · rw [rightclickDownBlock_idle c s h]

theorem isDown_held (s : State) (name : String) (h : isDown s name = true) :
    (mapGet s.inputsDown name).isSome = true := by
  unfold isDown at h
  cases hm : mapGet s.inputsDown name with
  | none => rw [hm] at h; cases h
  | some t => rfl

theorem isDown_congr (s s' : State) (name : String) (h1 : s'.inputsDown = s.inputsDown)
    (h2 : s'.now = s.now) : isDown s' name = isDown s name := by
  unfold isDown
  rw [h1, h2]

/-- A drag that is active after a frame: `leftclick` was not marked released
in the frame, and the drag was active before it or `leftclick` was held. -/
theorem executeUpdate_drag (c : Config) (rect : Rect) (clock : ℤ) (s s' : State)
    (h : executeUpdate c rect clock s = some s') (hd : s'.drag.isSome = true) :
    "leftclick" ∉ (blurBlock s).inputsUp ∧
    (s.drag.isSome = true ∨ (mapGet s.inputsDown "leftclick").isSome = true) := by
  obtain ⟨a, b, d, ha, hb, hdc, hs⟩ := executeUpdate_chain c rect clock s s' h
  have fa := core_fields _ _ ha
  have fd := core_fields _ _ hdc
  have fb := blurBlock_fields s
  have hsd : s'.drag = b.drag := by
    rw [hs, (rearmBlock_fields clock _).2.2.2.2.2.2.2.2]
    show d.drag = b.drag
    rw [fd.2.2.2.2.2.2.2.2.1, rightclickDownBlock_drag]
  rw [hsd] at hd
  obtain ⟨hu, hl⟩ := leftclickUpBlock_drag_some c _ b hb hd
  have hin := leftclickDownBlock_inputs c a
  simp only [State.inputs, Prod.mk.injEq] at hin
  constructor
  · intro hmem
    apply hu
    unfold isUp
    rw [hin.1, fa.1]
    exact decide_eq_true hmem
  · rcases leftclickDownBlock_drag_some c a hl with h1 | h1
    · left
      rw [fa.2.2.2.2.2.2.2.2.1, fb.2.2.2.2.2.2.2.1] at h1
      exact h1
    · right
      have := isDown_held a "leftclick" h1
      rw [fa.2.1, fb.1] at this
      exact this

theorem mapSet_keeps (m : List (String × ℤ)) (name key : String) (t : ℤ)
    (h : (mapGet m name).isSome = true) : (mapGet (mapSet m key t) name).isSome = true := by
  rw [mapGet_isSome_iff] at h ⊢
  obtain ⟨e, he, hn⟩ := h
  unfold mapSet
  split_ifs
  · by_cases hk : e.1 = key
    · exact ⟨(key, t), List.mem_map.mpr ⟨e, he, by simp [hk]⟩, hk.symm.trans hn⟩
    · exact ⟨e, List.mem_map.mpr ⟨e, he, by simp [hk]⟩, hn⟩
  · exact ⟨e, List.mem_append_left _ he, hn⟩

theorem update_kept (s : State) (e : String) : (update s e).kept = s.kept := by
  unfold update
  simp only
  split_ifs <;> rfl

theorem update_inputsDown (s : State) (e : String) :
    (update s e).inputsDown = s.inputsDown := (update_fields s e).2.1

theorem hostEvent_kept (s s' : State) (ev : HostEvent) (clock : ℤ)
    (he : hostEvent s ev clock = some s') : s'.kept = s.kept := by
  cases ev with
  | wheel d =>
    obtain ⟨sc, -, rfl⟩ := svgWheel_eq s s' d he
    exact update_kept _ _
  | mousemove e => cases he; exact update_kept _ _
  | blur => cases he; exact update_kept _ _
  | resize => cases he; exact update_kept _ _
  | keyup key => cases he; rfl
  | keydown key =>
    cases he
    show (windowKeydown s key clock).kept = s.kept
    unfold windowKeydown
    split_ifs
    · rfl
    · exact update_kept _ _
  | mouseup e =>
    cases he
    show (svgMouseup s e).kept = s.kept
    unfold svgMouseup
    cases e.clickName <;> exact update_kept _ _
  | mousedown e =>
    cases he
    show (svgMousedown s e clock).kept = s.kept
    unfold svgMousedown
    cases e.clickName <;> exact update_kept _ _

theorem hostEvent_inputsDown (s s' : State) (ev : HostEvent) (clock : ℤ)
    (he : hostEvent s ev clock = some s') :
    s'.inputsDown =
      match pressedName s ev with
      | some name => mapSet s.inputsDown name clock
      | none => s.inputsDown := by
  cases ev with
  | wheel d =>
    obtain ⟨sc, -, rfl⟩ := svgWheel_eq s s' d he
    exact update_inputsDown _ _
  | mousemove e => cases he; exact update_inputsDown _ _
  | blur => cases he; exact update_inputsDown _ _
  | resize => cases he; exact update_inputsDown _ _
  | keyup key => cases he; rfl
  | keydown key =>
    cases he
    by_cases hk : (mapGet s.inputsDown key).isSome = true
    · simp only [windowKeydown, pressedName, if_pos hk]
    · simp only [windowKeydown, pressedName, if_neg hk]
      exact update_inputsDown _ _
  | mouseup e =>
    cases he
    show (svgMouseup s e).inputsDown = _
    unfold svgMouseup
    cases e.clickName <;> exact update_inputsDown _ _
  | mousedown e =>
    cases he
    cases hc : e.clickName with
    | none =>
      simp only [svgMousedown, pressedName, hc]
      exact update_inputsDown _ _
    | some name =>
      simp only [svgMousedown, pressedName, hc]
      exact update_inputsDown _ _

theorem kept_fields (s s' : State) (h : s'.kept = s.kept) :
    s'.now = s.now ∧ s'.drag = s.drag ∧ s'.graph = s.graph ∧ s'.links = s.links ∧
    s'.dispatched = s.dispatched := by
  simp only [State.kept, Prod.mk.injEq] at h
  exact h

theorem hostEvent_dragHeld (s s' : State) (ev : HostEvent) (clock : ℤ) (h : DragHeld s)
    (he : hostEvent s ev clock = some s') : DragHeld s' := by
  unfold DragHeld at h ⊢
  rw [(kept_fields _ _ (hostEvent_kept s s' ev clock he)).2.1,
    hostEvent_inputsDown s s' ev clock he]
  intro hd
  cases pressedName s ev with
  | none => exact h hd
  | some name => exact mapSet_keeps _ _ _ _ (h hd)

theorem runFrame_dragHeld (c : Config) (rect : Rect) (clock : ℤ) (s s' : State)
    (h : DragHeld s) (hf : runFrame c rect clock s = some s') : DragHeld s' := by
  obtain ⟨-, he⟩ := runFrame_eq c rect clock s s' hf
  intro hd
  obtain ⟨hn, hor⟩ := executeUpdate_drag c rect clock _ s' he hd
  obtain ⟨-, h2, -⟩ := executeUpdate_inputs c rect clock _ s' he
  rw [h2, mapGet_filter, if_neg hn]
  rcases hor with h1 | h1
  · exact h h1
  · exact h1

theorem reachable_dragHeld (c : Config) (s : State) (h : Reachable c s) : DragHeld s :=
  reachable_induction c DragHeld (fun _ _ hd => by cases hd)
    (fun s s' ev clock hs he => hostEvent_dragHeld s s' ev clock hs he)
    (fun s s' rect clock hs hf => runFrame_dragHeld c rect clock s s' hs hf) s h

/-- C14. Focus loss releases everything: after a frame that consumes a
pending `blur` event, run from a reachable state, the down map and the
released set are empty, no drag is active, `updateRequested` is falsy and no
frame callback is queued. -/
theorem blur_releases_everything (c : Config) (s s' : State) (rect : Rect) (clock : ℤ)
    (hr : Reachable c s) (hb : "blur" ∈ s.events)
    (hf : runFrame c rect clock s = some s') :
    s'.inputsDown = [] ∧ s'.inputsUp = [] ∧ s'.drag = none ∧
    s'.updateRequested = false ∧ s'.queued = 0 := by
  obtain ⟨-, he⟩ := runFrame_eq c rect clock s s' hf
  obtain ⟨h1, h2, -, h4, h5⟩ := executeUpdate_inputs c rect clock _ s' he
  have hq : s.queued = 1 :=
    (runFrame_scheduled c rect clock s s' (reachable_scheduled c s hr) hf).2
  have hall : ∀ name, (mapGet s.inputsDown name).isSome = true →
      name ∈ (blurBlock { s with queued := s.queued - 1 }).inputsUp := by
    intro name hn
    rw [blurBlock_inputsUp]
    exact Or.inr ⟨hb, hn⟩
  have hdown : s'.inputsDown = [] := by
    rw [h2, List.filter_eq_nil_iff]
    intro e hmem
    have := hall e.1 ((mapGet_isSome_iff _ _).mpr ⟨e, hmem, rfl⟩)
    simpa using this
  refine ⟨hdown, h1, ?_, ?_, ?_⟩
  · cases hd : s'.drag with
    | none => rfl
    | some d =>
      exfalso
      obtain ⟨hn, hor⟩ := executeUpdate_drag c rect clock _ s' he (by rw [hd]; rfl)
      apply hn
      apply hall
      rcases hor with h | h
      · exact reachable_dragHeld c s hr h
      · exact h
  · rw [h4, hdown]; rfl
  · rw [h5, hdown]
    show s.queued - 1 + 0 = 0
    rw [hq]

/-! ## Links and dispatches only grow -/

theorem grows_of_eq (c : Config) (s s' : State) (h1 : s'.links = s.links)
    (h2 : s'.dispatched = s.dispatched) : Grows c s s' :=
  ⟨by rw [h1], [], by rw [h2, List.append_nil], fun a ha => by cases ha⟩

theorem grows_refl (c : Config) (s : State) : Grows c s s := grows_of_eq c s s rfl rfl

theorem grows_trans (c : Config) (s1 s2 s3 : State) (h1 : Grows c s1 s2)
    (h2 : Grows c s2 s3) : Grows c s1 s3 := by
  obtain ⟨p1, e1, he1, ha1⟩ := h1
  obtain ⟨p2, e2, he2, ha2⟩ := h2
  refine ⟨p1.trans p2, e1 ++ e2, by rw [he2, he1, List.append_assoc], ?_⟩
  intro a ha
  rcases List.mem_append.mp ha with h | h
  · exact ha1 a h
  · exact ha2 a h

theorem addLink_grows (c : Config) (s : State) (a b : Point) : Grows c s (addLink s a b) := by
  by_cases h : a = b
  · subst h; rw [addLink_self]; exact grows_refl c s
  · rw [addLink_ne s a b h]
    refine ⟨List.prefix_append _ _, [.ADD_LINK a b], rfl, ?_⟩
    intro x hx
    rw [List.mem_singleton] at hx
    exact Or.inl ⟨a, b, hx⟩

theorem leftclickDownBlock_grows (c : Config) (s : State) :
    Grows c s (leftclickDownBlock c s) ∧ (leftclickDownBlock c s).graph = s.graph := by
  by_cases h : isDown s "leftclick" = true
  · by_cases hg : isHold s c.KEYS.grab = true
    · rw [leftclickDownBlock_drag c s h (Or.inl hg)]
      exact ⟨grows_of_eq c _ _ rfl rfl, rfl⟩
    · rw [Bool.not_eq_true] at hg
      cases hh : s.hoverPoint with
      | undefined =>
        rw [leftclickDownBlock_drag c s h (Or.inr (by rw [hh]; rfl))]
        exact ⟨grows_of_eq c _ _ rfl rfl, rfl⟩
      | notNear =>
        rw [leftclickDownBlock_drag c s h (Or.inr (by rw [hh]; rfl))]
        exact ⟨grows_of_eq c _ _ rfl rfl, rfl⟩
      | point hp =>
        cases hs : s.selectedPoint with
        | none =>
          rw [leftclickDownBlock_select c s h hg hp hh hs]
          exact ⟨grows_of_eq c _ _ rfl rfl, rfl⟩
        | some sp =>
          rw [leftclickDownBlock_link c s h hg hp sp hh hs]
          exact ⟨addLink_grows c s sp hp, (addLink_fields s sp hp).2⟩
  · rw [leftclickDownBlock_idle c s h]
    exact ⟨grows_refl c s, rfl⟩

theorem leftclickUpBlock_grows (c : Config) (s s' : State)
    (h : leftclickUpBlock c s = some s') : Grows c s s' ∧ s'.graph = s.graph := by
  by_cases hu : isUp s "leftclick" = true
  · unfold leftclickUpBlock at h
    rw [if_pos hu] at h
    split at h
    · split_ifs at h
      cases h
      exact ⟨grows_of_eq c _ _ rfl rfl, rfl⟩
    · split at h
      · split_ifs at h
        · cases h
          cases s.hoverPoint with
          | undefined => exact ⟨grows_of_eq c _ _ rfl rfl, rfl⟩
          | notNear => exact ⟨grows_of_eq c _ _ rfl rfl, rfl⟩
          | point hp => exact ⟨addLink_grows c s _ hp, (addLink_fields s _ hp).2⟩
        · cases h; exact ⟨grows_refl c s, rfl⟩
      · cases h; exact ⟨grows_refl c s, rfl⟩
  · rw [leftclickUpBlock_idle' c s hu] at h
    cases h
    exact ⟨grows_refl c s, rfl⟩

theorem rightclickDownBlock_grows (c : Config) (s : State) :
    Grows c s (rightclickDownBlock c s) ∧
    ((rightclickDownBlock c s).graph = s.graph ∨
      ∃ p : Point, (rightclickDownBlock c s).graph = graphSet s.graph p.key p ∧
        Action.ADD_POINT p ∈ (rightclickDownBlock c s).dispatched) := by
  by_cases h : isDown s "rightclick" = true
  · by_cases hs : s.selectedPoint = none
    · rw [rightclickDownBlock_free c s h hs]
      by_cases hh : s.hoverPoint = .undefined
      · rw [if_pos hh]
        refine ⟨⟨List.prefix_refl _, [.ADD_POINT
          { id := s.nextId, x := s.nearX, y := s.nearY,
            key := s.nearX * c.S + s.nearY, links := [] }], rfl, ?_⟩,
          Or.inr ⟨{ id := s.nextId, x := s.nearX, y := s.nearY,
                    key := s.nearX * c.S + s.nearY, links := [] }, rfl, ?_⟩⟩
        · intro a ha
          rw [List.mem_singleton] at ha
          exact Or.inr ⟨_, ha, rfl⟩
        · exact List.mem_append_right _ (List.mem_singleton.mpr rfl)
      · rw [if_neg hh]
        exact ⟨grows_refl c s, Or.inl rfl⟩
    · rw [rightclickDownBlock_selected c s h hs]
      exact ⟨grows_of_eq c _ _ rfl rfl, Or.inl rfl⟩
  · rw [rightclickDownBlock_idle c s h]
    exact ⟨grows_refl c s, Or.inl rfl⟩

theorem grows_of_core (c : Config) (s s' : State) (h : s'.core = s.core) : Grows c s s' :=
  grows_of_eq c s s' (core_fields s s' h).2.2.2.2.2.2.1 (core_fields s s' h).2.2.2.2.2.2.2.1

/-- What a frame does to the model: links and dispatches only grow, and the
graph is unchanged or receives one dispatched point under its key. -/
theorem executeUpdate_grows (c : Config) (rect : Rect) (clock : ℤ) (s s' : State)
    (h : executeUpdate c rect clock s = some s') :
    Grows c s s' ∧
    (s'.graph = s.graph ∨
      ∃ p : Point, s'.graph = graphSet s.graph p.key p ∧ Action.ADD_POINT p ∈ s'.dispatched) := by
  obtain ⟨a, b, d, ha, hb, hd, hs⟩ := executeUpdate_chain c rect clock s s' h
  have fa := core_fields _ _ ha
  have fd := core_fields _ _ hd
  have fb := blurBlock_fields s
  have fr := rearmBlock_fields clock (purgeBlock d)
  have g1 : Grows c s a :=
    grows_of_eq c s a (fa.2.2.2.2.2.2.1.trans fb.2.2.2.2.2.1)
      (fa.2.2.2.2.2.2.2.1.trans fb.2.2.2.2.2.2.1)
  have g2 := leftclickDownBlock_grows c a
  have g3 := leftclickUpBlock_grows c _ b hb
  have g4 := rightclickDownBlock_grows c b
  have g5 : Grows c (rightclickDownBlock c b) s' := by
    rw [hs]
    exact grows_of_eq c _ _ (fr.2.2.2.2.2.2.1.trans fd.2.2.2.2.2.2.1)
      (fr.2.2.2.2.2.2.2.1.trans fd.2.2.2.2.2.2.2.1)
  have hg : b.graph = s.graph := by
    rw [g3.2, g2.2, fa.2.2.2.2.2.1, fb.2.2.2.2.1]
  have hsg : s'.graph = (rightclickDownBlock c b).graph := by
    rw [hs, fr.2.2.2.2.2.1]
    exact fd.2.2.2.2.2.1
  have hsd : s'.dispatched = (rightclickDownBlock c b).dispatched := by
    rw [hs, fr.2.2.2.2.2.2.2.1]
    exact fd.2.2.2.2.2.2.2.1
  refine ⟨grows_trans c _ _ _ g1 (grows_trans c _ _ _ g2.1 (grows_trans c _ _ _ g3.1
    (grows_trans c _ _ _ g4.1 g5))), ?_⟩
  rcases g4.2 with h1 | ⟨p, h1, h2⟩
  · left; rw [hsg, h1, hg]
  · right
    exact ⟨p, by rw [hsg, h1, hg], by rw [hsd]; exact h2⟩

theorem step_grows (c : Config) (s s' : State) (h : Step c s s') : Grows c s s' := by
  cases h with
  | host ev clock he =>
    have f := kept_fields _ _ (hostEvent_kept s s' ev clock he)
    exact grows_of_eq c _ _ f.2.2.2.1 f.2.2.2.2
  | frame rect clock hf =>
    obtain ⟨-, he⟩ := runFrame_eq c rect clock s s' hf
    exact (executeUpdate_grows c rect clock _ s' he).1

theorem steps_grows (c : Config) (s s' : State) (h : Steps c s s') : Grows c s s' := by
  induction h with
  | refl => exact grows_refl c s
  | tail s1 s2 _ hstep ih => exact grows_trans c _ _ _ ih (step_grows c _ _ hstep)

/-- C20. Links are never removed by the editor: across every sequence of
frames and host events the list of links only grows by appending, earlier
links keeping their positions, and no `REMOVE_LINK` is dispatched. -/
theorem links_never_removed (c : Config) (s s' : State) (h : Steps c s s') :
    s.links <+: s'.links ∧
    (∀ i (hi : i < s.links.length), s'.links[i]? = some (s.links.get ⟨i, hi⟩)) ∧
    (∀ l, Action.REMOVE_LINK l ∈ s'.dispatched → Action.REMOVE_LINK l ∈ s.dispatched) := by
  obtain ⟨hp, extra, he, ha⟩ := steps_grows c s s' h
  refine ⟨hp, ?_, ?_⟩
  · intro i hi
    obtain ⟨t, ht⟩ := hp
    rw [← ht, List.getElem?_append_left hi, List.getElem?_eq_getElem hi]
    rfl
  · intro l hl
    rw [he] at hl
    rcases List.mem_append.mp hl with h1 | h1
    · exact h1
    · rcases ha _ h1 with ⟨p, q, hpq⟩ | ⟨p, hp', -⟩
      · cases hpq
      · cases hp'

/-! ## Created points and their keys -/

theorem mem_graphSet (g : List (ℤ × Point)) (key : ℤ) (point : Point) (e : ℤ × Point)
    (h : e ∈ graphSet g key point) : e ∈ g ∨ e = (key, point) := by
  unfold graphSet at h
  split_ifs at h
  · obtain ⟨e0, he0, heq⟩ := List.mem_map.mp h
    by_cases hk : e0.1 = key
    · rw [if_pos hk] at heq; exact Or.inr heq.symm
    · rw [if_neg hk] at heq; exact Or.inl (heq ▸ he0)
  · rcases List.mem_append.mp h with h1 | h1
    · exact Or.inl h1
    · exact Or.inr (List.mem_singleton.mp h1)

theorem keyed_of_grows (c : Config) (s s' : State) (hk : Keyed c s) (hg : Grows c s s')
    (hgraph : s'.graph = s.graph ∨
      ∃ p : Point, s'.graph = graphSet s.graph p.key p ∧ Action.ADD_POINT p ∈ s'.dispatched) :
    Keyed c s' := by
  obtain ⟨-, extra, he, ha⟩ := hg
  have hold : ∀ a, a ∈ s.dispatched → a ∈ s'.dispatched := by
    intro a h; rw [he]; exact List.mem_append_left _ h
  constructor
  · intro p hp
    rw [he] at hp
    rcases List.mem_append.mp hp with h | h
    · exact hk.1 p h
    · rcases ha _ h with ⟨a, b, hab⟩ | ⟨q, hq, hkey⟩
      · cases hab
      · cases hq; exact hkey
  · intro e hmem
    rcases hgraph with h | ⟨p, h, hp⟩
    · rw [h] at hmem
      exact ⟨(hk.2 e hmem).1, hold _ (hk.2 e hmem).2⟩
    · rw [h] at hmem
      rcases mem_graphSet _ _ _ _ hmem with h1 | h1
      · exact ⟨(hk.2 e h1).1, hold _ (hk.2 e h1).2⟩
      · rw [h1]; exact ⟨rfl, hp⟩

theorem reachable_keyed (c : Config) (s : State) (h : Reachable c s) : Keyed c s := by
  refine reachable_induction c (Keyed c) ?_ ?_ ?_ s h
  · intro rect clock
    exact ⟨fun p hp => (by cases hp), fun e he => (by cases he)⟩
  · intro s s' ev clock hs he
    have f := kept_fields _ _ (hostEvent_kept s s' ev clock he)
    exact keyed_of_grows c s _ hs (grows_of_eq c _ _ f.2.2.2.1 f.2.2.2.2) (Or.inl f.2.2.1)
  · intro s s' rect clock hs hf
    obtain ⟨-, he⟩ := runFrame_eq c rect clock s s' hf
    have hg := executeUpdate_grows c rect clock _ s' he
    have hk : Keyed c { s with queued := s.queued - 1 } := hs
    exact keyed_of_grows c _ s' hk hg.1 hg.2

theorem mem_createdPoints (s : State) (p : Point) :
    p ∈ createdPoints s ↔ Action.ADD_POINT p ∈ s.dispatched := by
  unfold createdPoints
  rw [List.mem_filterMap]
  constructor
  · rintro ⟨a, ha, hp⟩
    cases a with
    | ADD_POINT q => simp only [Option.some.injEq] at hp; rw [← hp]; exact ha
    | ADD_LINK x y => cases hp
    | REMOVE_LINK l => cases hp
  · intro h
    exact ⟨_, h, rfl⟩

theorem placed_of_placing (c : Config) (s s' : State) (h : s'.placing = s.placing)
    (hp : Placed c s) : Placed c s' := by
  simp only [State.placing, Prod.mk.injEq] at h
  obtain ⟨h1, h2, h3, h4, h5⟩ := h
  unfold Placed
  rw [h1, h2, h3, h4, h5]
  exact hp

theorem handle_placing (s : State) (e : String) : (handle s e).2.placing = s.placing := by
  unfold handle
  split_ifs <;> rfl

theorem drawSelection_placing (s : State) : (drawSelection s).placing = s.placing := by
  unfold drawSelection State.placing createdPoints
  cases s.selectedPoint <;> cases s.hoverPoint <;> rfl

theorem applyPanAndScale_placing (c : Config) (s s' : State)
    (h : applyPanAndScale c s = some s') : s'.placing = s.placing := by
  unfold applyPanAndScale at h
  by_cases hp : s.prevScale = 0
  · rw [if_pos hp] at h; cases h
  · rw [if_neg hp] at h
    cases h
    rfl

theorem blurBlock_placing (s : State) : (blurBlock s).placing = s.placing := by
  unfold blurBlock handle
  simp only
  split_ifs <;> rfl

theorem resizeBlock_placing (c : Config) (rect : Rect) (s s' : State)
    (h : resizeBlock c rect s = some s') : s'.placing = s.placing := by
  unfold resizeBlock at h
  simp only at h
  have h1 : (handle s "resize").2.placing = s.placing := handle_placing s "resize"
  have h2 : (handle (handle s "resize").2 "init").2.placing = s.placing :=
    (handle_placing _ "init").trans h1
  have key : ∀ t : State, t.placing = s.placing →
      (applyPanAndScale c { t with bounding := rect }).map drawSelection = some s' →
      s'.placing = s.placing := by
    intro t ht hm
    obtain ⟨s1, hs1, rfl⟩ := Option.map_eq_some'.mp hm
    rw [drawSelection_placing, applyPanAndScale_placing c _ s1 hs1]
    exact ht
  split_ifs at h
  · exact key _ h1 h
  · exact key _ h2 h
  · cases h; exact h2

theorem zoomBlock_placing (c : Config) (key : String) (a : ZoomAction) (s s' : State)
    (h : zoomBlock c key a s = some s') : s'.placing = s.placing := by
  unfold zoomBlock at h
  split_ifs at h
  · obtain ⟨sc, -, hs⟩ := Option.bind_eq_some.mp h
    exact (applyPanAndScale_placing c _ s' hs).trans rfl
  · cases h; rfl

theorem grabBlock_placing (c : Config) (s : State) : (grabBlock c s).placing = s.placing := by
  unfold grabBlock
  simp only
  split_ifs <;> rfl

theorem unselectBlock_placing (c : Config) (s : State) :
    (unselectBlock c s).placing = s.placing := by
  unfold unselectBlock
  split_ifs
  · rw [drawSelection_placing]; rfl
  · rfl

theorem addLink_placing (s : State) (a b : Point) : (addLink s a b).placing = s.placing := by
  by_cases h : a = b
  · subst h; rw [addLink_self]
  · rw [addLink_ne s a b h]
    simp only [State.placing, createdPoints, List.filterMap_append, List.filterMap_cons,
      List.filterMap_nil, List.append_nil]

theorem leftclickDownBlock_placing (c : Config) (s : State) :
    (leftclickDownBlock c s).placing = s.placing := by
  by_cases h : isDown s "leftclick" = true
  · by_cases hg : isHold s c.KEYS.grab = true
    · rw [leftclickDownBlock_drag c s h (Or.inl hg)]
      rfl
    · rw [Bool.not_eq_true] at hg
      cases hh : s.hoverPoint with
      | undefined =>
        rw [leftclickDownBlock_drag c s h (Or.inr (by rw [hh]; rfl))]
        rfl
      | notNear =>
        rw [leftclickDownBlock_drag c s h (Or.inr (by rw [hh]; rfl))]
        rfl
      | point hp =>
        cases hs : s.selectedPoint with
        | none =>
          rw [leftclickDownBlock_select c s h hg hp hh hs]
          rfl
        | some sp =>
          rw [leftclickDownBlock_link c s h hg hp sp hh hs]
          exact addLink_placing s sp hp
  · rw [leftclickDownBlock_idle c s h]

theorem hoverLink_placing (s : State) (sp : Point) :
    (match s.hoverPoint with
      | .point hp => addLink s sp hp
      | _ => s).placing = s.placing := by
  cases s.hoverPoint with
  | undefined => rfl
  | notNear => rfl
  | point hp => exact addLink_placing s sp hp

theorem leftclickUpBlock_placing (c : Config) (s s' : State)
    (h : leftclickUpBlock c s = some s') : s'.placing = s.placing := by
  by_cases hu : isUp s "leftclick" = true
  · unfold leftclickUpBlock at h
    rw [if_pos hu] at h
    split at h
    · split_ifs at h
      cases h
      rfl
    · split at h
      · split_ifs at h
        · cases h
          exact hoverLink_placing s _
        · cases h; rfl
      · cases h; rfl
  · rw [leftclickUpBlock_idle' c s hu] at h
    cases h
    rfl

theorem purgeBlock_placing (s : State) : (purgeBlock s).placing = s.placing := rfl

theorem rearmBlock_placing (clock : ℤ) (s : State) :
    (rearmBlock clock s).placing = s.placing := by
  unfold rearmBlock
  split_ifs <;> rfl

theorem update_placing (s : State) (e : String) : (update s e).placing = s.placing := by
  unfold update
  simp only
  split_ifs <;> rfl

theorem hostEvent_placing (s s' : State) (ev : HostEvent) (clock : ℤ)
    (he : hostEvent s ev clock = some s') : s'.placing = s.placing := by
  cases ev with
  | wheel d =>
    obtain ⟨sc, -, rfl⟩ := svgWheel_eq s s' d he
    exact update_placing _ _
  | mousemove e => cases he; exact update_placing _ _
  | blur => cases he; exact update_placing _ _
  | resize => cases he; exact update_placing _ _
  | keyup key => cases he; rfl
  | keydown key =>
    cases he
    show (windowKeydown s key clock).placing = s.placing
    unfold windowKeydown
    split_ifs
    · rfl
    · exact update_placing _ _
  | mouseup e =>
    cases he
    show (svgMouseup s e).placing = s.placing
    unfold svgMouseup
    cases e.clickName <;> exact update_placing _ _
  | mousedown e =>
    cases he
    show (svgMousedown s e clock).placing = s.placing
    unfold svgMousedown
    cases e.clickName <;> exact update_placing _ _

/-- The creation of a point at the snapped cell while `hoverPoint` is
`undefined` keeps the records of the created points in place. -/
theorem addPoint_placed (c : Config) (s : State) (hp : Placed c s)
    (hh : s.hoverPoint = .undefined) : Placed c (addPoint c s s.nearX s.nearY) := by
  obtain ⟨h1, h2⟩ := hp
  have hnew : graphGet (addPoint c s s.nearX s.nearY).graph (s.nearX * c.S + s.nearY) =
      some { id := s.nextId, x := s.nearX, y := s.nearY,
             key := s.nearX * c.S + s.nearY, links := [] } :=
    graphGet_graphSet_self _ _ _
  constructor
  · intro p hmem
    rw [mem_createdPoints] at hmem
    rcases List.mem_append.mp hmem with hold | hnewp
    · obtain ⟨p', hg, hx, hy⟩ := h1 p ((mem_createdPoints s p).mpr hold)
      by_cases hk : p.key = s.nearX * c.S + s.nearY
      · rw [hk] at hg ⊢
        obtain ⟨hx', hy'⟩ := h2 hh p' hg
        exact ⟨_, hnew, by rw [← hx, hx'], by rw [← hy, hy']⟩
      · refine ⟨p', ?_, hx, hy⟩
        show graphGet (graphSet s.graph _ _) p.key = some p'
        rw [graphGet_graphSet_other _ _ _ _ hk]
        exact hg
    · rw [List.mem_singleton] at hnewp
      cases hnewp
      exact ⟨_, hnew, rfl, rfl⟩
  · intro _ p' hg
    have hg' : graphGet (addPoint c s s.nearX s.nearY).graph (s.nearX * c.S + s.nearY)
        = some p' := hg
    rw [hnew] at hg'
    cases hg'
    exact ⟨rfl, rfl⟩

theorem rightclickDownBlock_placed (c : Config) (s : State) (hp : Placed c s) :
    Placed c (rightclickDownBlock c s) := by
  by_cases h : isDown s "rightclick" = true
  · by_cases hs : s.selectedPoint = none
    · rw [rightclickDownBlock_free c s h hs]
      by_cases hh : s.hoverPoint = .undefined
      · rw [if_pos hh]
        exact addPoint_placed c s hp hh
      · rw [if_neg hh]
        exact hp
    · rw [rightclickDownBlock_selected c s h hs]
      exact placed_of_placing c s _ rfl hp
  · rw [rightclickDownBlock_idle c s h]
    exact hp

/-- The pointer move block recomputes `hoverPoint` from the graph: it is
`undefined` only when the graph has no record under the key of the snapped
cell. -/
theorem mousemoveBlock_placed (c : Config) (s s' : State) (hp : Placed c s)
    (h : mousemoveBlock c s = some s') : Placed c s' := by
  unfold mousemoveBlock at h
  simp only at h
  have h1 : Placed c (handle s "mousemove").2 :=
    placed_of_placing c s _ (handle_placing s "mousemove") hp
  by_cases ha : (handle s "mousemove").1 = true
  · rw [if_pos ha] at h
    cases hd : (handle s "mousemove").2.drag with
    | some d =>
      rw [hd] at h
      exact placed_of_placing c _ _ (applyPanAndScale_placing c _ s' h) h1
    | none =>
      rw [hd] at h
      simp only at h
      split_ifs at h with hz hn
      · cases h
        refine placed_of_placing c _ _ (drawSelection_placing _) ?_
        refine ⟨h1.1, ?_⟩
        intro hu p' hg
        dsimp only at hu hg
        rw [hg] at hu
        cases hu
      · cases h
        refine placed_of_placing c _ _ (drawSelection_placing _) ?_
        refine ⟨h1.1, ?_⟩
        intro hu
        cases hu
  · rw [if_neg ha] at h
    cases h
    exact h1

theorem executeUpdate_placed (c : Config) (rect : Rect) (clock : ℤ) (s s' : State)
    (hp : Placed c s) (h : executeUpdate c rect clock s = some s') : Placed c s' := by
  unfold executeUpdate at h
  simp only [Option.bind_eq_bind, Option.bind_eq_some] at h
  obtain ⟨s2, h2, s3, h3, s4, h4, s5, h5, s6, h6, s10, h10, s12, h12, hs⟩ := h
  have e10 : s10.placing = s.placing := by
    rw [leftclickUpBlock_placing c _ s10 h10, leftclickDownBlock_placing, unselectBlock_placing,
      grabBlock_placing, zoomBlock_placing c _ _ _ _ h6, zoomBlock_placing c _ _ _ _ h5,
      zoomBlock_placing c _ _ _ _ h4, zoomBlock_placing c _ _ _ _ h3,
      resizeBlock_placing c _ _ _ h2, blurBlock_placing]
  have p10 : Placed c s10 := placed_of_placing c s s10 e10 hp
  have p12 : Placed c s12 :=
    mousemoveBlock_placed c _ s12 (rightclickDownBlock_placed c s10 p10) h12
  cases hs
  exact placed_of_placing c s12 _
    ((rearmBlock_placing clock _).trans (purgeBlock_placing s12)) p12

theorem reachable_placed (c : Config) (s : State) (h : Reachable c s) : Placed c s := by
  refine reachable_induction c (Placed c) ?_ ?_ ?_ s h
  · intro rect clock
    exact ⟨fun p hp => (by cases hp), fun _ p' hg => (by cases hg)⟩
  · intro s s' ev clock hs he
    exact placed_of_placing c s s' (hostEvent_placing s s' ev clock he) hs
  · intro s s' rect clock hs hf
    obtain ⟨-, he⟩ := runFrame_eq c rect clock s s' hf
    have hp : Placed c { s with queued := s.queued - 1 } := hs
    exact executeUpdate_placed c rect clock _ s' hp he

/-- C13 (amended). In every reachable state every point the editor has
created has integer coordinates and carries the key `x * S + y`, and two
created points with different coordinates never share a key. -/
theorem created_points_distinct_keys (c : Config) (s : State) (h : Reachable c s) :
    (∀ p, Action.ADD_POINT p ∈ s.dispatched → p.key = p.x * c.S + p.y) ∧
    (∀ p q, Action.ADD_POINT p ∈ s.dispatched → Action.ADD_POINT q ∈ s.dispatched →
      (p.x, p.y) ≠ (q.x, q.y) → p.key ≠ q.key) := by
  refine ⟨(reachable_keyed c s h).1, ?_⟩
  intro p q hp hq hne hkey
  obtain ⟨h1, -⟩ := reachable_placed c s h
  obtain ⟨p', hg, hx, hy⟩ := h1 p ((mem_createdPoints s p).mpr hp)
  obtain ⟨q', hg', hx', hy'⟩ := h1 q ((mem_createdPoints s q).mpr hq)
  rw [hkey, hg'] at hg
  cases hg
  exact hne (by rw [← hx, ← hy, hx', hy'])

/-! ## Traces of the editor -/

theorem runFrame_getD (c : Config) (rect : Rect) (clock : ℤ) (s : State)
    (h : (runFrame c rect clock s).isSome = true) :
    runFrame c rect clock s = some ((runFrame c rect clock s).getD s) := by
  cases hr : runFrame c rect clock s with
  | none => rw [hr] at h; cases h
  | some s' => rfl

theorem reachable_state0 : Reachable defaultConfig state0 :=
  ⟨rect210, 1000, Steps.refl _⟩

theorem reachable_stateEarlyPoint : Reachable defaultConfig stateEarlyPoint :=
  reachable_frame _ _ _ rect210 1002
    (reachable_host _ _ stateEarlyPress (.mousedown evRight) 1001 reachable_state0 rfl)
    (runFrame_getD _ _ _ _ (by decide!))

theorem reachable_stateDragging : Reachable defaultConfig stateDragging :=
  reachable_frame _ _ _ rect210 1004
    (reachable_host _ _ stateLeftPressed (.mousedown evLeft) 1003
      (reachable_frame _ _ _ rect210 1002
        (reachable_host _ _ stateMoved (.mousemove evMove) 1001 reachable_state0 rfl)
        (runFrame_getD _ _ _ _ (by decide!))) rfl)
    (runFrame_getD _ _ _ _ (by decide!))

theorem reachable_stateSecondClick : Reachable defaultConfig stateSecondClick :=
  reachable_host _ _ stateSecondClick (.mousedown evRight) 1009
    (reachable_frame _ _ _ rect210 1008
      (reachable_host _ _ stateRightReleased (.mouseup evRight) 1007
        (reachable_frame _ _ _ rect210 1006
          (reachable_host _ _ stateRightPressed (.mousedown evRight) 1005
            reachable_stateDragging rfl)
          (runFrame_getD _ _ _ _ (by decide!))) rfl)
      (runFrame_getD _ _ _ _ (by decide!))) rfl

/-- C11 (code). A reachable state in which the graph holds a point at the
snapped cell (5, 5) and the secondary button is just pressed during a drag:
the frame stores a new record under the same key, replacing the old one, and
dispatches a second `ADD_POINT`. -/
theorem rightclick_overwrites_point :
    Reachable defaultConfig stateSecondClick ∧
    stateSecondClick.nearX = 5 ∧ stateSecondClick.nearY = 5 ∧
    graphGet stateSecondClick.graph (5 * defaultConfig.S + 5) =
      some { id := 0, x := 5, y := 5, key := 110, links := [] } ∧
    isDown stateSecondClick "rightclick" = true ∧
    runFrame defaultConfig rect210 1010 stateSecondClick = some stateOverwritten ∧
    graphGet stateOverwritten.graph (5 * defaultConfig.S + 5) =
      some { id := 1, x := 5, y := 5, key := 110, links := [] } ∧
    stateOverwritten.dispatched =
      [.ADD_POINT { id := 0, x := 5, y := 5, key := 110, links := [] },
       .ADD_POINT { id := 1, x := 5, y := 5, key := 110, links := [] }] :=
  ⟨reachable_stateSecondClick, by decide!, by decide!, by decide!, by decide!,
    runFrame_getD _ _ _ _ (by decide!), by decide!, by decide!⟩

theorem reachable_statePanPoint : Reachable defaultConfig statePanPoint :=
  reachable_frame _ _ _ rect210 1010
    (reachable_host _ _ statePanPress (.mousedown evRight) 1009
      (reachable_frame _ _ _ rect210 1008
        (reachable_host _ _ statePanMoved (.mousemove evMove) 1007
          (reachable_frame _ _ _ rect210 1006
            (reachable_host _ _ statePanRelease (.mouseup evLeftAway) 1005
              reachable_stateDragging rfl)
            (runFrame_getD _ _ _ _ (by decide!))) rfl)
        (runFrame_getD _ _ _ _ (by decide!))) rfl)
    (runFrame_getD _ _ _ _ (by decide!))

/-- C13 (counterexample). After a drag that pans the view by 10 cells the
pointer at the pixel (55, 55) is over the cell (-5, 5), and a secondary click
creates a point there, with key -100: a created point of a reachable state
whose `x` is not in `[0, S-1]`. -/
theorem created_point_outside_grid :
    Reachable defaultConfig statePanPoint ∧
    statePanned.posX = 10 ∧ statePanHover.nearX = -5 ∧ statePanHover.nearY = 5 ∧
    Action.ADD_POINT { id := 0, x := -5, y := 5, key := -100, links := [] }
      ∈ statePanPoint.dispatched ∧
    graphGet statePanPoint.graph (-100) =
      some { id := 0, x := -5, y := 5, key := -100, links := [] } ∧
    ¬ ((0 : ℤ) ≤ -5 ∧ (-5 : ℤ) ≤ defaultConfig.S - 1) :=
  ⟨reachable_statePanPoint, by decide!, by decide!, by decide!, by decide!, by decide!,
    by decide⟩

/-- A secondary click right after `init`, before any pointer move is
processed, finds the snapped cell at its initial value and creates a point at
(-1, -1) with key -22. -/
theorem created_point_off_grid :
    Reachable defaultConfig stateEarlyPoint ∧
    Action.ADD_POINT { id := 0, x := -1, y := -1, key := -22, links := [] }
      ∈ stateEarlyPoint.dispatched ∧
    graphGet stateEarlyPoint.graph (-22) =
      some { id := 0, x := -1, y := -1, key := -22, links := [] } ∧
    ¬ ((0 : ℤ) ≤ -1 ∧ (-1 : ℤ) ≤ defaultConfig.S - 1) :=
  ⟨reachable_stateEarlyPoint, by decide!, by decide!, by decide⟩

theorem reachable_stateHovering : Reachable defaultConfig stateHovering :=
  reachable_frame _ _ _ rect210 1002
    (reachable_host _ _ stateMoved (.mousemove evMove) 1001 reachable_state0 rfl)
    (runFrame_getD _ _ _ _ (by decide!))

theorem reachable_stateTwoCreated : Reachable defaultConfig stateTwoCreated :=
  reachable_frame _ _ _ rect210 1008
    (reachable_host _ _ stateSecondPress (.mousedown evRightAway) 1007
      (reachable_frame _ _ _ rect210 1006
        (reachable_host _ _ stateFirstRelease (.mouseup evRightAway) 1005
          (reachable_frame _ _ _ rect210 1004
            (reachable_host _ _ stateFirstPress (.mousedown evRight) 1003
              reachable_stateHovering rfl)
            (runFrame_getD _ _ _ _ (by decide!))) rfl)
        (runFrame_getD _ _ _ _ (by decide!))) rfl)
    (runFrame_getD _ _ _ _ (by decide!))

/-- Instance of the distinct keys: after two secondary clicks, on the cells
(5, 5) and (7, 5), the created points carry the keys 110 and 152. -/
theorem created_points_distinct_keys_witness :
    Reachable defaultConfig stateTwoCreated ∧
    stateTwoCreated.dispatched = [.ADD_POINT pointA, .ADD_POINT pointB] ∧
    pointA.key = pointA.x * defaultConfig.S + pointA.y ∧
    pointB.key = pointB.x * defaultConfig.S + pointB.y ∧
    (pointA.x, pointA.y) ≠ (pointB.x, pointB.y) ∧ pointA.key ≠ pointB.key :=
  have hd : stateTwoCreated.dispatched = [.ADD_POINT pointA, .ADD_POINT pointB] := by decide!
  have ha : Action.ADD_POINT pointA ∈ stateTwoCreated.dispatched := by rw [hd]; simp
  have hb : Action.ADD_POINT pointB ∈ stateTwoCreated.dispatched := by rw [hd]; simp
  have h := created_points_distinct_keys defaultConfig stateTwoCreated reachable_stateTwoCreated
  ⟨reachable_stateTwoCreated, hd, h.1 pointA ha, h.1 pointB hb, by decide,
    h.2 pointA pointB ha hb (by decide)⟩

/-! ## A press acts once -/

theorem mem_mapSet (m : List (String × ℤ)) (name : String) (t : ℤ) (e : String × ℤ)
    (h : e ∈ mapSet m name t) : e ∈ m ∨ e = (name, t) := by
  unfold mapSet at h
  split_ifs at h
  · obtain ⟨e0, he0, heq⟩ := List.mem_map.mp h
    by_cases hk : e0.1 = name
    · rw [if_pos hk] at heq; exact Or.inr heq.symm
    · rw [if_neg hk] at heq; exact Or.inl (heq ▸ he0)
  · rcases List.mem_append.mp h with h1 | h1
    · exact Or.inl h1
    · exact Or.inr (List.mem_singleton.mp h1)

theorem mapGet_mem (m : List (String × ℤ)) (name : String) (t : ℤ)
    (h : mapGet m name = some t) : (name, t) ∈ m := by
  unfold mapGet at h
  obtain ⟨e, he, het⟩ := Option.map_eq_some'.mp h
  have hm := List.mem_of_find?_eq_some he
  have hp := List.find?_some he
  simp only [decide_eq_true_eq] at hp
  have : e = (name, t) := Prod.ext hp het
  rw [← this]; exact hm

theorem mapGet_mapSet_other (m : List (String × ℤ)) (key name : String) (t : ℤ)
    (h : key ≠ name) : mapGet (mapSet m key t) name = mapGet m name := by
  unfold mapSet
  split_ifs
  · clear * - h
    induction m with
    | nil => rfl
    | cons e rest ih =>
      unfold mapGet at ih ⊢
      by_cases he : e.1 = key
      · have hn : ¬ e.1 = name := fun h' => h (he.symm.trans h')
        simp only [List.map_cons, if_pos he, List.find?, decide_eq_false h,
          decide_eq_false hn]
        exact ih
      · by_cases hn : e.1 = name
        · simp only [List.map_cons, if_neg he, List.find?, decide_eq_true hn]
        · simp only [List.map_cons, if_neg he, List.find?, decide_eq_false hn]
          exact ih
  · unfold mapGet
    rw [List.find?_append]
    cases hf : List.find? (fun e => decide (e.1 = name)) m with
    | some e => rfl
    | none => simp [List.find?, h]

theorem isDown_false_of_stamped (s : State) (name : String)
    (h : ∀ e ∈ s.inputsDown, e.2 ≤ s.now) : isDown s name = false := by
  unfold isDown
  cases hm : mapGet s.inputsDown name with
  | none => rfl
  | some t =>
    have := h _ (mapGet_mem _ _ _ hm)
    simp only [decide_eq_false_iff_not, not_lt, gt_iff_lt]
    exact this

theorem hostEvent_isDown (s s' : State) (ev : HostEvent) (clock : ℤ) (name : String)
    (h : pressedName s ev ≠ some name) (he : hostEvent s ev clock = some s') :
    isDown s' name = isDown s name := by
  unfold isDown
  rw [(kept_fields _ _ (hostEvent_kept s s' ev clock he)).1,
    hostEvent_inputsDown s s' ev clock he]
  cases hp : pressedName s ev with
  | none => rfl
  | some key =>
    have hk : key ≠ name := fun h' => h (by rw [hp, h'])
    simp only
    rw [mapGet_mapSet_other _ _ _ _ hk]

theorem hostEvent_stamped (s s' : State) (ev : HostEvent) (t clock : ℤ) (h : Stamped t s)
    (ht : t ≤ clock) (hev : hostEvent s ev clock = some s') : Stamped clock s' := by
  constructor
  · rw [(kept_fields _ _ (hostEvent_kept s s' ev clock hev)).1]
    exact h.1.trans ht
  · intro e he
    rw [hostEvent_inputsDown s s' ev clock hev] at he
    cases hp : pressedName s ev with
    | none => rw [hp] at he; exact (h.2 e he).trans ht
    | some key =>
      rw [hp] at he
      rcases mem_mapSet _ _ _ _ he with h1 | h1
      · exact (h.2 e h1).trans ht
      · rw [h1]

theorem runFrame_stamped (c : Config) (rect : Rect) (t clock : ℤ) (s s' : State)
    (h : Stamped t s) (ht : t ≤ clock) (hf : runFrame c rect clock s = some s') :
    Stamped clock s' ∧ s'.now = clock := by
  obtain ⟨-, he⟩ := runFrame_eq c rect clock s s' hf
  obtain ⟨-, h2, h3, -⟩ := executeUpdate_inputs c rect clock _ s' he
  refine ⟨⟨h3.le, ?_⟩, h3⟩
  intro e hmem
  rw [h2] at hmem
  exact (h.2 e (List.mem_filter.mp hmem).1).trans ht

theorem monoReach_stamped (c : Config) (t : ℤ) (s : State) (h : MonoReach c t s) :
    Stamped t s := by
  induction h with
  | init rect clock => exact ⟨le_refl _, fun e he => by cases he⟩
  | host t s s' ev clock _ ht he ih => exact hostEvent_stamped s s' ev t clock ih ht he
  | frame t s s' rect clock _ ht hf ih => exact (runFrame_stamped c rect t clock s s' ih ht hf).1

theorem quiet_monoReach (c : Config) (name : String) (t : ℤ) (s : State) (t' : ℤ)
    (s' : State) (h : MonoReach c t s) (hq : Quiet c name t s t' s') : MonoReach c t' s' := by
  induction hq with
  | refl => exact h
  | host t' s' s'' ev clock _ ht _ he ih => exact MonoReach.host t' s' s'' ev clock ih ht he
  | frame t' s' s'' rect clock _ ht hf ih => exact MonoReach.frame t' s' s'' rect clock ih ht hf

/-- C19. A press acts in at most one frame, the clock never going back: at
the end of every frame each held name has a time stamp no later than `now`,
so `isDown` answers false for every name; and from a state in which
`isDown name` is false, it stays false through every later frame and host
event until a host event stamps `name` again. -/
theorem press_acts_once (c : Config) (t : ℤ) (s : State) (h : MonoReach c t s) :
    (∀ rect clock s', t ≤ clock → runFrame c rect clock s = some s' →
      (∀ e ∈ s'.inputsDown, e.2 ≤ s'.now) ∧ ∀ name, isDown s' name = false) ∧
    (∀ name t' s', isDown s name = false → Quiet c name t s t' s' →
      isDown s' name = false) := by
  have hst := monoReach_stamped c t s h
  constructor
  · intro rect clock s' ht hf
    obtain ⟨h1, h2⟩ := runFrame_stamped c rect t clock s s' hst ht hf
    have hall : ∀ e ∈ s'.inputsDown, e.2 ≤ s'.now := by
      intro e he; rw [h2]; exact h1.2 e he
    exact ⟨hall, fun name => isDown_false_of_stamped s' name hall⟩
  · intro name t' s' hd hq
    induction hq with
    | refl => exact hd
    | host t1 s1 s2 ev clock _ _ hp he ih =>
      rw [hostEvent_isDown s1 s2 ev clock name hp he]; exact ih
    | frame t1 s1 s2 rect clock hq1 ht hf _ =>
      have hs1 := monoReach_stamped c t1 s1 (quiet_monoReach c name t s t1 s1 h hq1)
      obtain ⟨h1, h2⟩ := runFrame_stamped c rect t1 clock s1 s2 hs1 ht hf
      exact isDown_false_of_stamped s2 name (fun e he => by rw [h2]; exact h1.2 e he)

/-! ## Instances and the listener parameter -/

/-- Instance of the focus loss during a drag. -/
theorem blur_releases_everything_witness :
    Reachable defaultConfig stateBlurPending ∧ "blur" ∈ stateBlurPending.events ∧
    stateBlurPending.drag = some (55, 55) ∧
    stateBlurPending.inputsDown = [("leftclick", 1003)] ∧
    stateAfterBlur.inputsDown = [] ∧ stateAfterBlur.inputsUp = [] ∧
    stateAfterBlur.drag = none ∧ stateAfterBlur.updateRequested = false ∧
    stateAfterBlur.queued = 0 :=
  ⟨reachable_host _ _ stateBlurPending .blur 1005 reachable_stateDragging rfl,
    by decide!, by decide!, by decide!,
    blur_releases_everything defaultConfig stateBlurPending stateAfterBlur rect210 1006
      (reachable_host _ _ stateBlurPending .blur 1005 reachable_stateDragging rfl) (by decide!)
      (runFrame_getD _ _ _ _ (by decide!))⟩

/-- Instance of the purge: `a` was released, `b` is still held. -/
theorem frame_purge_witness :
    executeUpdate defaultConfig rect210 1004 stateKeyReleased = some stateKeyPurged ∧
    stateKeyPurged.inputsUp = [] ∧
    mapGet stateKeyPurged.inputsDown "a" = none ∧
    mapGet stateKeyPurged.inputsDown "b" = mapGet stateKeyReleased.inputsDown "b" :=
  have hs : executeUpdate defaultConfig rect210 1004 stateKeyReleased = some stateKeyPurged := by
    decide!
  have h := frame_purge defaultConfig rect210 1004 stateKeyReleased stateKeyPurged hs
  ⟨hs, h.1, h.2.2.2.1 "a" (by decide!), h.2.2.2.2.1 "b" (by decide!)⟩

/-- Instance of the coalescing: three pointer moves after `init`. -/
theorem single_pending_frame_witness :
    Reachable defaultConfig state0 ∧ state0.queued ≤ 1 ∧
    ([evLeft, evRight, evMove].foldl windowMousemove state0).queued = 1 ∧
    ([evLeft, evRight, evMove].foldl windowMousemove state0).mouseX = 55 :=
  have h := single_pending_frame defaultConfig state0 reachable_state0
  ⟨reachable_state0, h.1, (h.2 [evLeft, evRight] evMove).1,
    (h.2 [evLeft, evRight] evMove).2.1.trans (by decide!)⟩

theorem monoReach_stateLeftPressed : MonoReach defaultConfig 1003 stateLeftPressed :=
  MonoReach.host 1002 _ stateLeftPressed (.mousedown evLeft) 1003
    (MonoReach.frame 1001 _ _ rect210 1002
      (MonoReach.host 1000 _ stateMoved (.mousemove evMove) 1001 (MonoReach.init rect210 1000)
        (by decide) rfl)
      (by decide) (runFrame_getD _ _ _ _ (by decide!)))
    (by decide) rfl

/-- Instance of the single action of a press: `leftclick` is just pressed in
`stateLeftPressed` and, still held, is no longer just pressed after the
frame. -/
theorem press_acts_once_witness :
    MonoReach defaultConfig 1003 stateLeftPressed ∧
    isDown stateLeftPressed "leftclick" = true ∧
    mapGet stateDragging.inputsDown "leftclick" = some 1003 ∧
    isDown stateDragging "leftclick" = false :=
  ⟨monoReach_stateLeftPressed, by decide!, by decide!,
    ((press_acts_once defaultConfig 1003 stateLeftPressed monoReach_stateLeftPressed).1
      rect210 1004 stateDragging (by decide) (runFrame_getD _ _ _ _ (by decide!))).2
      "leftclick"⟩

/-- Instance of the growth of the links: the frame after `stateClickOther`
appends one link. -/
theorem links_never_removed_witness :
    Steps defaultConfig stateClickOther stateLinked ∧
    stateClickOther.links <+: stateLinked.links ∧ stateLinked.links.length = 1 :=
  have hs : Steps defaultConfig stateClickOther stateLinked :=
    Steps.tail _ _ _ (Steps.refl _)
      (Step.frame _ _ rect210 1001 (runFrame_getD _ _ _ _ (by decide!)))
  ⟨hs, (links_never_removed defaultConfig stateClickOther stateLinked hs).1, by decide!⟩

theorem invocations_of_no_listenner (p : Params) (s : State)
    (h : p.callback "listenner" = none) : invocations p s = [] := by
  unfold invocations Params.dispatchTarget
  rw [h]

theorem invocations_of_listenner (p : Params) (s : State) (f : ℕ)
    (h : p.callback "listenner" = some f) :
    invocations p s = s.dispatched.map (fun a => (f, a)) := by
  unfold invocations Params.dispatchTarget
  rw [h]

/-- C17 (code). With a callback supplied under the name `listener` the
configuration is the default one, the frame of `stateRightPressed` creates a
point and calls `dispatch` with `ADD_POINT`, and the callback receives no
call; the same callback supplied under the name `listenner` receives the
call. -/
theorem listener_not_invoked :
    paramsListener.config = defaultConfig ∧
    paramsListener.callback "listener" = some 7 ∧
    runFrame paramsListener.config rect210 1006 stateRightPressed = some stateCreated ∧
    stateCreated.dispatched = [.ADD_POINT { id := 0, x := 5, y := 5, key := 110, links := [] }] ∧
    invocations paramsListener stateCreated = [] ∧
    invocations paramsListenner stateCreated =
      [(7, .ADD_POINT { id := 0, x := 5, y := 5, key := 110, links := [] })] :=
  ⟨rfl, by decide, runFrame_getD _ _ _ _ (by decide!), by decide!, by decide!, by decide!⟩

/-! ## Frames return -/

theorem viewOk_of_view (s s' : State) (h : s'.view = s.view) (hs : ViewOk s) : ViewOk s' := by
  simp only [State.view, Prod.mk.injEq] at h
  unfold ViewOk
  rw [h.1, h.2.1, h.2.2]
  exact hs

theorem handle_view (s : State) (e : String) : (handle s e).2.view = s.view := by
  unfold handle
  split_ifs <;> rfl

theorem drawSelection_view (s : State) : (drawSelection s).view = s.view := by
  unfold drawSelection
  cases s.selectedPoint <;> cases s.hoverPoint <;> rfl

theorem applyPanAndScale_ok (c : Config) (s : State) (h : ViewOk s) :
    ∃ s', applyPanAndScale c s = some s' ∧ ViewOk s' := by
  unfold applyPanAndScale
  rw [if_neg (ne_of_gt h.2.1)]
  exact ⟨_, rfl, h.1, h.1, h.2.2.1, h.2.2.2⟩

theorem resizeBlock_ok (c : Config) (rect : Rect) (s : State) (h : ViewOk s)
    (hw : rect.width ≠ 0) (hh : rect.height ≠ 0) :
    ∃ s', resizeBlock c rect s = some s' ∧ ViewOk s' := by
  unfold resizeBlock
  simp only
  have h1 : ViewOk (handle s "resize").2 := viewOk_of_view _ _ (handle_view s "resize") h
  have h2 : ViewOk (handle (handle s "resize").2 "init").2 :=
    viewOk_of_view _ _ (handle_view _ "init") h1
  split_ifs
  · obtain ⟨s1, hs1, hv⟩ := applyPanAndScale_ok c { (handle s "resize").2 with bounding := rect }
      ⟨h1.1, h1.2.1, hw, hh⟩
    exact ⟨drawSelection s1, by rw [hs1]; rfl, viewOk_of_view _ _ (drawSelection_view s1) hv⟩
  · obtain ⟨s1, hs1, hv⟩ := applyPanAndScale_ok c
      { (handle (handle s "resize").2 "init").2 with bounding := rect } ⟨h2.1, h2.2.1, hw, hh⟩
    exact ⟨drawSelection s1, by rw [hs1]; rfl, viewOk_of_view _ _ (drawSelection_view s1) hv⟩
  · exact ⟨_, rfl, h2⟩

theorem resizeBlock_scale (c : Config) (rect : Rect) (s s' : State)
    (h : resizeBlock c rect s = some s') : s'.scale = s.scale := by
  unfold resizeBlock at h
  simp only at h
  have h1 : (handle s "resize").2.scale = s.scale := by
    unfold handle; split_ifs <;> rfl
  have h2 : (handle (handle s "resize").2 "init").2.scale = s.scale := by
    rw [← h1]; unfold handle; split_ifs <;> rfl
  have key : ∀ t : State, t.scale = s.scale →
      (applyPanAndScale c { t with bounding := rect }).map drawSelection = some s' →
      s'.scale = s.scale := by
    intro t ht hm
    obtain ⟨s1, hs1, rfl⟩ := Option.map_eq_some'.mp hm
    have hd : (drawSelection s1).scale = s1.scale := by
      unfold drawSelection
      cases s1.selectedPoint <;> cases s1.hoverPoint <;> rfl
    rw [hd, applyPanAndScale_scale c _ s1 hs1]
    exact ht
  split_ifs at h
  · exact key _ h1 h
  · exact key _ h2 h
  · cases h; exact h2

/-- A zoom key block returns at a scale well inside the binary64 range, on a
host whose quotient of logarithms is less than one away from the exponent of
its argument. -/
theorem zoomBlock_ok (c : Config) (key : String) (a : ZoomAction) (s : State) (n m : ℤ)
    (hq : ∀ x : ℚ, 0 < x →
      (Int.log 2 x : ℚ) - 1 < c.logQuotient x ∧ c.logQuotient x < Int.log 2 x + 1)
    (h : ViewOk s) (hn : -1070 ≤ n) (hm : m ≤ 1020)
    (h1 : (2 : ℚ) ^ n ≤ s.scale) (h2 : s.scale ≤ (2 : ℚ) ^ m) :
    ∃ s', zoomBlock c key a s = some s' ∧ ViewOk s' ∧
      (2 : ℚ) ^ (n - 2) ≤ s'.scale ∧ s'.scale ≤ (2 : ℚ) ^ (m + 2) := by
  unfold zoomBlock
  split_ifs
  · obtain ⟨sc, hsc, hb1, hb2⟩ := zoomScale_range c.logQuotient hq a s.scale n m hn hm h1 h2
    have hpos : 0 < sc := lt_of_lt_of_le (zpow_pos (by norm_num) _) hb1
    obtain ⟨s1, hs1, hv⟩ := applyPanAndScale_ok c { s with scale := sc }
      ⟨hpos, h.2.1, h.2.2.1, h.2.2.2⟩
    refine ⟨s1, by rw [hsc]; exact hs1, hv, ?_⟩
    rw [applyPanAndScale_scale c _ s1 hs1]
    exact ⟨hb1, hb2⟩
  · exact ⟨s, rfl, h, two_zpow_widen s.scale n m _ _ (by omega) (by omega) ⟨h1, h2⟩⟩

theorem grabBlock_view (c : Config) (s : State) : (grabBlock c s).view = s.view := by
  unfold grabBlock
  simp only
  split_ifs <;> rfl

theorem unselectBlock_view (c : Config) (s : State) : (unselectBlock c s).view = s.view := by
  unfold unselectBlock
  split_ifs
  · rw [drawSelection_view]; rfl
  · rfl

theorem addLink_view (s : State) (a b : Point) : (addLink s a b).view = s.view := by
  unfold addLink
  split_ifs <;> rfl

theorem leftclickDownBlock_view (c : Config) (s : State) :
    (leftclickDownBlock c s).view = s.view := by
  unfold leftclickDownBlock
  split_ifs
  · rfl
  · cases s.hoverPoint with
    | undefined => rfl
    | notNear => rfl
    | point hp =>
      cases s.selectedPoint with
      | none => rfl
      | some sp => exact addLink_view s sp hp
  · rfl

theorem leftclickUpBlock_ok (c : Config) (s : State) (h : ViewOk s) :
    ∃ s', leftclickUpBlock c s = some s' ∧ ViewOk s' := by
  by_cases hu : isUp s "leftclick" = true
  · unfold leftclickUpBlock
    rw [if_pos hu]
    cases hd : s.drag with
    | some d =>
      simp only
      rw [if_neg (by rintro (h1 | h1); exact h.2.2.1 h1; exact h.2.2.2 h1)]
      exact ⟨_, rfl, h⟩
    | none =>
      cases hs : s.selectedPoint with
      | none => exact ⟨s, rfl, h⟩
      | some sp =>
        simp only
        split_ifs
        · refine ⟨_, rfl, ?_⟩
          cases s.hoverPoint with
          | undefined => exact h
          | notNear => exact h
          | point hp => exact viewOk_of_view _ _ (addLink_view s sp hp) h
        · exact ⟨s, rfl, h⟩
  · exact ⟨s, leftclickUpBlock_idle' c s hu, h⟩

theorem rightclickDownBlock_view (c : Config) (s : State) :
    (rightclickDownBlock c s).view = s.view := by
  by_cases h : isDown s "rightclick" = true
  · by_cases hs : s.selectedPoint = none
    · rw [rightclickDownBlock_free c s h hs]
      split_ifs <;> rfl
    · rw [rightclickDownBlock_selected c s h hs]
      rfl
  · rw [rightclickDownBlock_idle c s h]

theorem mousemoveBlock_ok (c : Config) (s : State) (h : ViewOk s) :
    ∃ s', mousemoveBlock c s = some s' ∧ ViewOk s' := by
  unfold mousemoveBlock
  simp only
  have h1 : ViewOk (handle s "mousemove").2 := viewOk_of_view _ _ (handle_view s "mousemove") h
  by_cases ha : (handle s "mousemove").1 = true
  · rw [if_pos ha]
    cases hd : (handle s "mousemove").2.drag with
    | some d => exact applyPanAndScale_ok c _ h1
    | none =>
      simp only
      rw [if_neg (by
        rintro (hz | hz | hz)
        · exact h1.2.2.1 hz
        · exact h1.2.2.2 hz
        · exact (ne_of_gt h1.1) hz)]
      exact ⟨_, rfl, viewOk_of_view _ _ (drawSelection_view _) h1⟩
  · rw [if_neg ha]
    exact ⟨_, rfl, h1⟩

/-- A frame returns whenever both scales are positive, the scale lies
between `2 ^ (-1000)` and `2 ^ 1000`, the bounding boxes it divides by have a
width and a height, and the quotient of logarithms of the host is less than
one away from the exponent of its argument; the scales are positive and the
boxes have a width and a height again after it. -/
theorem executeUpdate_total (c : Config) (rect : Rect) (clock : ℤ) (s : State)
    (hq : ∀ x : ℚ, 0 < x →
      (Int.log 2 x : ℚ) - 1 < c.logQuotient x ∧ c.logQuotient x < Int.log 2 x + 1)
    (h : ViewOk s) (hs1 : (2 : ℚ) ^ (-1000 : ℤ) ≤ s.scale)
    (hs2 : s.scale ≤ (2 : ℚ) ^ (1000 : ℤ)) (hw : rect.width ≠ 0) (hh : rect.height ≠ 0) :
    ∃ s', executeUpdate c rect clock s = some s' ∧ ViewOk s' := by
  have h1 : ViewOk (blurBlock s) := by
    unfold blurBlock handle
    simp only
    split_ifs <;> exact h
  have hb : (blurBlock s).scale = s.scale := by
    unfold blurBlock handle
    simp only
    split_ifs <;> rfl
  obtain ⟨s2, e2, v2⟩ := resizeBlock_ok c rect _ h1 hw hh
  have hsc2 : s2.scale = s.scale := (resizeBlock_scale c rect _ s2 e2).trans hb
  rw [← hsc2] at hs1 hs2
  obtain ⟨s3, e3, v3, l3, u3⟩ := zoomBlock_ok c c.KEYS.zoomIn .zoomIn s2 (-1000) 1000 hq v2
    (by norm_num) (by norm_num) hs1 hs2
  obtain ⟨s4, e4, v4, l4, u4⟩ := zoomBlock_ok c c.KEYS.zoomInPrecise .zoomInPrecise s3
    (-1000 - 2) (1000 + 2) hq v3 (by norm_num) (by norm_num) l3 u3
  obtain ⟨s5, e5, v5, l5, u5⟩ := zoomBlock_ok c c.KEYS.zoomOut .zoomOut s4
    (-1000 - 2 - 2) (1000 + 2 + 2) hq v4 (by norm_num) (by norm_num) l4 u4
  obtain ⟨s6, e6, v6, -, -⟩ := zoomBlock_ok c c.KEYS.zoomOutPrecise .zoomOutPrecise s5
    (-1000 - 2 - 2 - 2) (1000 + 2 + 2 + 2) hq v5 (by norm_num) (by norm_num) l5 u5
  have v9 : ViewOk (leftclickDownBlock c (unselectBlock c (grabBlock c s6))) :=
    viewOk_of_view _ _ ((leftclickDownBlock_view c _).trans
      ((unselectBlock_view c _).trans (grabBlock_view c s6))) v6
  obtain ⟨s10, e10, v10⟩ := leftclickUpBlock_ok c _ v9
  have v11 : ViewOk (rightclickDownBlock c s10) :=
    viewOk_of_view _ _ (rightclickDownBlock_view c s10) v10
  obtain ⟨s12, e12, v12⟩ := mousemoveBlock_ok c _ v11
  refine ⟨rearmBlock clock (purgeBlock s12), ?_, ?_⟩
  · unfold executeUpdate
    simp only [Option.bind_eq_bind, e2, e3, e4, e5, e6, e10, e12, Option.some_bind]
  · unfold rearmBlock
    split_ifs <;> exact v12

theorem update_view (s : State) (e : String) : (update s e).view = s.view := by
  unfold update
  simp only
  split_ifs <;> rfl

/-- A listener keeps the scales positive and the box as it is, at a scale
that is a positive binary64 number. -/
theorem hostEvent_viewOk (s s' : State) (ev : HostEvent) (clock : ℤ) (h : ViewOk s)
    (hs : (2 : ℚ) ^ (-1074 : ℤ) ≤ s.scale) (he : hostEvent s ev clock = some s') :
    ViewOk s' := by
  cases ev with
  | wheel d =>
    obtain ⟨sc, hsc, rfl⟩ := svgWheel_eq s s' d he
    have hpos : 0 < sc :=
      zoomScale_fine_pos (fun x => x) (.wheel d) s.scale sc hs
        ⟨fun hc => (by cases hc), fun hc => (by cases hc)⟩ hsc
    exact viewOk_of_view _ _ (update_view _ "resize") ⟨hpos, h.2.1, h.2.2.1, h.2.2.2⟩
  | mousemove e => cases he; exact viewOk_of_view _ _ (update_view _ "mousemove") h
  | blur => cases he; exact viewOk_of_view _ _ (update_view _ "blur") h
  | resize => cases he; exact viewOk_of_view _ _ (update_view _ "resize") h
  | keyup key => cases he; exact h
  | keydown key =>
    cases he
    show ViewOk (windowKeydown s key clock)
    unfold windowKeydown
    split_ifs
    · exact h
    · exact viewOk_of_view _ _ (update_view _ "keyboard") h
  | mouseup e =>
    cases he
    show ViewOk (svgMouseup s e)
    unfold svgMouseup
    cases e.clickName <;> exact viewOk_of_view _ _ (update_view _ "mousemove") h
  | mousedown e =>
    cases he
    show ViewOk (svgMousedown s e clock)
    unfold svgMousedown
    cases e.clickName <;> exact viewOk_of_view _ _ (update_view _ "mousemove") h

theorem initState_viewOk (c : Config) (rect : Rect) (clock : ℤ) (hw : rect.width ≠ 0)
    (hh : rect.height ≠ 0) : ViewOk (initState c rect clock) :=
  ⟨one_pos, one_pos, hw, hh⟩

/-- A listener returns at a scale that is at most `2 ^ 1000`. -/
theorem hostEvent_total (s : State) (ev : HostEvent) (clock : ℤ) (h0 : 0 ≤ s.scale)
    (hs : s.scale ≤ (2 : ℚ) ^ (1000 : ℤ)) : ∃ s', hostEvent s ev clock = some s' := by
  cases ev with
  | wheel d =>
    have ht1 : s.scale / 20 ≤ (2 : ℚ) ^ (1000 : ℤ) := by linarith
    obtain ⟨t, ht, -⟩ := roundDouble_le_two_zpow (s.scale / 20) 1000 (by norm_num)
      (by norm_num) (by positivity) ht1
    obtain ⟨ht0, ht2⟩ := roundDouble_nonneg _ t (by positivity) ht
    have hlo := wheelScale_arg s.scale d t h0 ht
    have hhi : s.scale + mathSign d * t ≤ (2 : ℚ) ^ (1001 : ℤ) := by
      have hup : (2 : ℚ) ^ (1001 : ℤ) = (2 : ℚ) ^ (1000 : ℤ) * 2 :=
        zpow_add_one₀ (by norm_num) 1000
      rw [hup]
      rcases mathSign_cases d with hc | hc | hc <;> rw [hc] <;> linarith
    obtain ⟨v, hv, -⟩ := roundDouble_le_two_zpow (s.scale + mathSign d * t) 1001
      (by norm_num) (by norm_num) (by linarith) hhi
    refine ⟨update { s with scale := v } "resize", ?_⟩
    show (wheelScale s.scale d).map _ = _
    unfold wheelScale
    rw [ht, Option.some_bind, hv]
    rfl
  | mousemove e => exact ⟨_, rfl⟩
  | blur => exact ⟨_, rfl⟩
  | resize => exact ⟨_, rfl⟩
  | keyup key => exact ⟨_, rfl⟩
  | keydown key => exact ⟨_, rfl⟩
  | mouseup e => exact ⟨_, rfl⟩
  | mousedown e => exact ⟨_, rfl⟩

/-- The quotient of logarithms of the default configuration is less than one
away from the exponent of its argument. -/
theorem defaultConfig_logQuotient (x : ℚ) (hx : 0 < x) :
    (Int.log 2 x : ℚ) - 1 < defaultConfig.logQuotient x ∧
      defaultConfig.logQuotient x < Int.log 2 x + 1 :=
  binary64LogQuotient_bounds x hx

/-- A queued frame returns whenever the divisions are defined and the scale
is well inside the binary64 range. -/
theorem runFrame_total (c : Config) (rect : Rect) (clock : ℤ) (s : State)
    (hlq : ∀ x : ℚ, 0 < x →
      (Int.log 2 x : ℚ) - 1 < c.logQuotient x ∧ c.logQuotient x < Int.log 2 x + 1)
    (h : ViewOk s) (hs1 : (2 : ℚ) ^ (-1000 : ℤ) ≤ s.scale)
    (hs2 : s.scale ≤ (2 : ℚ) ^ (1000 : ℤ)) (hq : s.queued ≠ 0) (hw : rect.width ≠ 0)
    (hh : rect.height ≠ 0) :
    ∃ s', runFrame c rect clock s = some s' ∧ ViewOk s' := by
  unfold runFrame
  rw [if_neg hq]
  exact executeUpdate_total c rect clock _ hlq h hs1 hs2 hw hh

end Graph
